import Mathlib

/-!
Verification of the image-rendering and row-splitting layout engine of the
synthetic-table-dataset generator.

The Python sources (`html2img.py`, `html2img_split.py`, `extract_table.py`)
are shallowly embedded: pure functions become Lean functions over `List`,
`ℚ` (for the float geometry, where only exact arithmetic and ordering
matter) and `List Char` (for strings); the effectful render pipelines become
functions that return the sequence of externally visible events
(screenshots written, lines printed) or an `Except` for a raised exception.
-/

namespace TableGen

/-! ## Row geometry and `calculate_split_points` (html2img_split.py) -/

/-- Embeds the `RowInfo` dataclass of `html2img_split.py`: per-row vertical
bounding box, offsets relative to the table top.  The float fields are
embedded as `ℚ`. -/
structure RowInfo where
  index : ℤ
  top : ℚ
  bottom : ℚ
  height : ℚ
  deriving Repr, DecidableEq

/-- The loop of `calculate_split_points`: iterates over the remaining rows,
`i` being the global index of the head of `rest`, `start` the start index of
the current group and `cur` the accumulated height of rows `start .. i-1`.
After the loop the Python code appends `(start_idx, len(rows)-1)` when
`start_idx < len(rows)`; in the `[]` case `i` equals `len(rows)`. -/
def splitGo (maxH : ℚ) : List RowInfo → ℕ → ℕ → ℚ → List (ℕ × ℕ)
  | [], i, start, _ => if start < i then [(start, i - 1)] else []
  | r :: rest, i, start, cur =>
      if cur + r.height > maxH ∧ start < i then
        (start, i - 1) :: splitGo maxH rest (i + 1) i r.height
      else
        splitGo maxH rest (i + 1) start (cur + r.height)

/-- Embeds `calculate_split_points(rows, max_height)` of `html2img_split.py`:
greedy partition of the row indices into contiguous closed intervals. -/
def calculate_split_points (rows : List RowInfo) (maxH : ℚ) : List (ℕ × ℕ) :=
  if rows = [] then [] else splitGo maxH rows 0 0 0

/-- The list of row indices covered by a closed interval `(s, e)`. -/
def intervalIndices (p : ℕ × ℕ) : List ℕ :=
  List.range' p.1 (p.2 + 1 - p.1)

/-- Sum of the `n` entries of `hs` starting at index `s`. -/
def seg (hs : List ℚ) (s n : ℕ) : ℚ := ((hs.drop s).take n).sum

/-- Total height of the rows with indices in the closed interval `(s, e)`. -/
def intervalHeight (rows : List RowInfo) (p : ℕ × ℕ) : ℚ :=
  seg (rows.map RowInfo.height) p.1 (p.2 + 1 - p.1)

theorem seg_zero (hs : List ℚ) (s : ℕ) : seg hs s 0 = 0 := by simp [seg]

theorem seg_nonneg (hs : List ℚ) (hpos : ∀ x ∈ hs, 0 < x) (s n : ℕ) :
    0 ≤ seg hs s n := by
  apply List.sum_nonneg
  intro x hx
  exact le_of_lt (hpos x (List.mem_of_mem_drop (List.mem_of_mem_take hx)))

theorem seg_succ (hs : List ℚ) (s n : ℕ) (hlt : s + n < hs.length) :
    seg hs s (n + 1) = seg hs s n + hs.getD (s + n) 0 := by
  unfold seg
  rw [List.take_succ]
  simp only [List.sum_append]
  congr 1
  have h1 : (hs.drop s)[n]? = hs[s + n]? := by
    rw [List.getElem?_drop]
  have h2 : hs[s + n]? = some (hs.get ⟨s + n, hlt⟩) := List.getElem?_eq_getElem hlt
  rw [h1, h2]
  simp [List.getD, h2]

theorem seg_one (hs : List ℚ) (s : ℕ) (hlt : s < hs.length) :
    seg hs s 1 = hs.getD s 0 := by
  have := seg_succ hs s 0 (by omega)
  simpa [seg_zero] using this

theorem drop_map_height (rows : List RowInfo) (i : ℕ) (r : RowInfo)
    (rest : List RowInfo) (h : rows.drop i = r :: rest) :
    (rows.map RowInfo.height).getD i 0 = r.height := by
  have h1 : rows[i]? = some r := by
    have := List.getElem?_drop rows i 0
    rw [h] at this
    simpa using this.symm
  have h2 : (rows.map RowInfo.height)[i]? = some r.height := by
    rw [List.getElem?_map, h1]
    rfl
  simp [List.getD, h2]

theorem length_lt_of_drop_cons (rows : List RowInfo) (i : ℕ) (r : RowInfo)
    (rest : List RowInfo) (h : rows.drop i = r :: rest) : i < rows.length := by
  by_contra hle
  rw [List.drop_eq_nil_of_le (by omega)] at h
  exact List.cons_ne_nil r rest h.symm

theorem splitGo_flatten (maxH : ℚ) (rest : List RowInfo) :
    ∀ (i start : ℕ) (cur : ℚ), start ≤ i →
    ((splitGo maxH rest i start cur).map intervalIndices).flatten
      = List.range' start (i - start + rest.length) := by
  induction rest with
  | nil =>
      intro i start cur hle
      by_cases h : start < i
      · simp only [splitGo, if_pos h, List.map_cons, List.map_nil, List.flatten,
          intervalIndices, List.length_nil]
        have h1 : i - 1 + 1 - start = i - start := by omega
        simp [h1]
      · have h0 : start = i := by omega
        subst h0
        simp [splitGo]
  | cons r rest ih =>
      intro i start cur hle
      by_cases h : cur + r.height > maxH ∧ start < i
      · simp only [splitGo, if_pos h, List.map_cons, List.flatten_cons]
        rw [ih (i + 1) i r.height (by omega)]
        have h1 : intervalIndices (start, i - 1) = List.range' start (i - start) := by
          simp only [intervalIndices]
          congr 1
          omega
        rw [h1]
        have h2 : start + 1 * (i - start) = i := by omega
        have h3 := List.range'_append start (i - start) (i + 1 - i + rest.length) 1
        rw [h2] at h3
        rw [h3]
        congr 1
        simp only [List.length_cons]
        omega
      · simp only [splitGo, if_neg h]
        rw [ih (i + 1) start (cur + r.height) (by omega)]
        congr 1
        simp only [List.length_cons]
        omega

theorem splitGo_le (maxH : ℚ) (rest : List RowInfo) :
    ∀ (i start : ℕ) (cur : ℚ), start ≤ i →
    ∀ p ∈ splitGo maxH rest i start cur, p.1 ≤ p.2 := by
  induction rest with
  | nil =>
      intro i start cur hle p hp
      by_cases h : start < i
      · simp only [splitGo, if_pos h, List.mem_singleton] at hp
        subst hp; simp; omega
      · simp [splitGo, if_neg h] at hp
  | cons r rest ih =>
      intro i start cur hle p hp
      by_cases h : cur + r.height > maxH ∧ start < i
      · simp only [splitGo, if_pos h, List.mem_cons] at hp
        rcases hp with rfl | hp
        · simp; omega
        · exact ih (i + 1) i r.height (by omega) p hp
      · simp only [splitGo, if_neg h] at hp
        exact ih (i + 1) start (cur + r.height) (by omega) p hp

/-- C1: for every `RowInfo` sequence of length `n` and every positive
`maxHeight`, `calculate_split_points` returns an ordered list of closed
row-index intervals whose concatenated index ranges are exactly
`[0, n-1]`, in order, each index exactly once (so the intervals are
contiguous, non-overlapping and covering); every interval is well formed
(`start ≤ end`), and for `n = 0` the list is empty. -/
theorem claim_C1_split_plan_coverage (rows : List RowInfo) (maxH : ℚ)
    (hpos : 0 < maxH) :
    ((calculate_split_points rows maxH).map intervalIndices).flatten
        = List.range rows.length ∧
    ∀ p ∈ calculate_split_points rows maxH, p.1 ≤ p.2 := by
  constructor
  · by_cases h : rows = []
    · subst h; simp [calculate_split_points]
    · rw [calculate_split_points, if_neg h, splitGo_flatten maxH rows 0 0 0 (le_refl 0),
        List.range_eq_range']
      norm_num
  · intro p hp
    by_cases h : rows = []
    · subst h; simp [calculate_split_points] at hp
    · rw [calculate_split_points, if_neg h] at hp
      exact splitGo_le maxH rows 0 0 0 (le_refl 0) p hp

/-- Witness for C1 at a concrete two-row table with budget 3. -/
theorem claim_C1_split_plan_coverage_witness :
    (0 : ℚ) < 3 ∧
    ((((calculate_split_points [⟨0, 0, 2, 2⟩, ⟨1, 2, 5, 3⟩] 3).map intervalIndices).flatten
        = List.range ([⟨0, 0, 2, 2⟩, ⟨1, 2, 5, 3⟩] : List RowInfo).length) ∧
      ∀ p ∈ calculate_split_points [⟨0, 0, 2, 2⟩, ⟨1, 2, 5, 3⟩] 3, p.1 ≤ p.2) :=
  ⟨by norm_num, claim_C1_split_plan_coverage _ _ (by norm_num)⟩

/-- Close-out lemma: when a fresh singleton group holding only row `start`
already overflows, the group is emitted as `(start, start)`. -/
theorem splitGo_overflow_close (maxH : ℚ) (rest : List RowInfo)
    (hpos : ∀ r ∈ rest, 0 < r.height) :
    ∀ (start : ℕ) (cur : ℚ), maxH < cur →
    (start, start) ∈ splitGo maxH rest (start + 1) start cur := by
  induction rest with
  | nil =>
      intro start cur hover
      simp [splitGo]
  | cons r rest ih =>
      intro start cur hover
      have hr : 0 < r.height := hpos r (List.mem_cons_self r rest)
      have hcond : cur + r.height > maxH ∧ start < start + 1 := by
        constructor
        · linarith
        · omega
      simp only [splitGo, if_pos hcond]
      exact List.mem_cons_self _ _

/-- Invariant lemma for the height bound: every interval emitted by the loop
either fits the budget or is an overflow singleton. -/
theorem splitGo_bound (maxH : ℚ) (rows : List RowInfo) (rest : List RowInfo) :
    ∀ (i start : ℕ) (cur : ℚ),
      rows.drop i = rest → start ≤ i →
      cur = seg (rows.map RowInfo.height) start (i - start) →
      (start < i → (cur ≤ maxH ∨
        (start = i - 1 ∧ maxH < (rows.map RowInfo.height).getD start 0))) →
      ∀ p ∈ splitGo maxH rest i start cur,
        seg (rows.map RowInfo.height) p.1 (p.2 + 1 - p.1) ≤ maxH ∨
          (p.1 = p.2 ∧ maxH < (rows.map RowInfo.height).getD p.1 0) := by
  set hs := rows.map RowInfo.height with hhs
  have hlen : hs.length = rows.length := by simp [hhs]
  induction rest with
  | nil =>
      intro i start cur hdrop hle hcur hinv p hp
      by_cases h : start < i
      · simp only [splitGo, if_pos h, List.mem_singleton] at hp
        subst hp
        have he : i - 1 + 1 - start = i - start := by omega
        simp only [he]
        rcases hinv h with hb | ⟨hsi, hov⟩
        · left; rw [← hcur]; exact hb
        · right
          refine ⟨by omega, hov⟩
      · simp [splitGo, if_neg h] at hp
  | cons r rest ih =>
      intro i start cur hdrop hle hcur hinv p hp
      have hhead : hs.getD i 0 = r.height := drop_map_height rows i r rest hdrop
      have hilen : i < rows.length := length_lt_of_drop_cons rows i r rest hdrop
      have hdrop' : rows.drop (i + 1) = rest := by
        have h1 := List.drop_drop 1 i rows
        rw [hdrop] at h1
        rw [← h1, List.drop_one, List.tail_cons]
      have hcur' : cur + r.height = seg hs start (i + 1 - start) := by
        have hstep : seg hs start ((i - start) + 1)
            = seg hs start (i - start) + hs.getD (start + (i - start)) 0 := by
          apply seg_succ
          rw [hlen]; omega
        have h1 : start + (i - start) = i := by omega
        have h2 : i + 1 - start = (i - start) + 1 := by omega
        rw [h2, hstep, h1, hhead, hcur]
      by_cases h : cur + r.height > maxH ∧ start < i
      · simp only [splitGo, if_pos h, List.mem_cons] at hp
        rcases hp with rfl | hp
        · have he : i - 1 + 1 - start = i - start := by omega
          simp only [he]
          rcases hinv h.2 with hb | ⟨hsi, hov⟩
          · left; rw [← hcur]; exact hb
          · right; refine ⟨by omega, hov⟩
        · refine ih (i + 1) i r.height hdrop' (by omega) ?_ ?_ p hp
          · have h0 : seg hs i (i + 1 - i) = hs.getD i 0 := by
              have h1 : i + 1 - i = 1 := by omega
              rw [h1, seg_one hs i (by omega)]
            rw [h0, hhead]
          · intro _
            rcases le_or_lt r.height maxH with hb | hb
            · exact Or.inl hb
            · right; rw [hhead]; exact ⟨by omega, hb⟩
      · simp only [splitGo, if_neg h] at hp
        refine ih (i + 1) start (cur + r.height) hdrop' (by omega) hcur' ?_ p hp
        intro _
        rcases not_and_or.mp h with hb | hb
        · left; linarith [not_lt.mp hb]
        · have hsi : start = i := by omega
          subst hsi
          have hc0 : cur = 0 := by
            rw [hcur]; simp [seg_zero]
          rcases le_or_lt (cur + r.height) maxH with hb2 | hb2
          · exact Or.inl hb2
          · right
            refine ⟨by omega, ?_⟩
            rw [hhead]
            rw [hc0, zero_add] at hb2
            exact hb2

/-- Invariant lemma for overflow singletons: any not-yet-processed row whose
height exceeds the budget ends up as its own `(j, j)` interval. -/
theorem splitGo_overflow_mem (maxH : ℚ) (rows : List RowInfo)
    (hpos : ∀ r ∈ rows, 0 < r.height) (rest : List RowInfo) :
    ∀ (i start : ℕ) (cur : ℚ),
      rows.drop i = rest → start ≤ i →
      cur = seg (rows.map RowInfo.height) start (i - start) →
      ∀ j, i ≤ j → j < rows.length →
        maxH < (rows.map RowInfo.height).getD j 0 →
        (j, j) ∈ splitGo maxH rest i start cur := by
  set hs := rows.map RowInfo.height with hhs
  have hlen : hs.length = rows.length := by simp [hhs]
  have hspos : ∀ x ∈ hs, 0 < x := by
    intro x hx
    rcases List.mem_map.mp hx with ⟨r, hr, rfl⟩
    exact hpos r hr
  induction rest with
  | nil =>
      intro i start cur hdrop hle hcur j hij hjlen hover
      have : rows.length ≤ i := by
        by_contra hc
        have := List.drop_eq_nil_iff.mp hdrop
        omega
      omega
  | cons r rest ih =>
      intro i start cur hdrop hle hcur j hij hjlen hover
      have hhead : hs.getD i 0 = r.height := drop_map_height rows i r rest hdrop
      have hilen : i < rows.length := length_lt_of_drop_cons rows i r rest hdrop
      have hdrop' : rows.drop (i + 1) = rest := by
        have h1 := List.drop_drop 1 i rows
        rw [hdrop] at h1
        rw [← h1, List.drop_one, List.tail_cons]
      have hpos' : ∀ x ∈ rest, 0 < x.height := by
        intro x hx
        apply hpos
        rw [← hdrop'] at hx
        exact List.drop_subset _ _ hx
      have hcur' : cur + r.height = seg hs start (i + 1 - start) := by
        have hstep : seg hs start ((i - start) + 1)
            = seg hs start (i - start) + hs.getD (start + (i - start)) 0 := by
          apply seg_succ
          rw [hlen]; omega
        have h1 : start + (i - start) = i := by omega
        have h2 : i + 1 - start = (i - start) + 1 := by omega
        rw [h2, hstep, h1, hhead, hcur]
      by_cases hji : j = i
      · subst hji
        have hrh : maxH < r.height := by rw [hhead] at hover; exact hover
        by_cases h : cur + r.height > maxH ∧ start < j
        · simp only [splitGo, if_pos h]
          apply List.mem_cons_of_mem
          exact splitGo_overflow_close maxH rest hpos' j r.height hrh
        · have hcnn : 0 ≤ cur := hcur ▸ seg_nonneg hs hspos start (j - start)
          rcases not_and_or.mp h with hb | hb
          · exfalso
            have : cur + r.height ≤ maxH := not_lt.mp hb
            linarith
          · have hsj : start = j := by omega
            subst hsj
            have hc0 : cur = 0 := by rw [hcur]; simp [seg_zero]
            simp only [splitGo, if_neg h]
            have h0 : cur + r.height = r.height := by rw [hc0, zero_add]
            rw [h0]
            exact splitGo_overflow_close maxH rest hpos' start r.height hrh
      · by_cases h : cur + r.height > maxH ∧ start < i
        · simp only [splitGo, if_pos h]
          apply List.mem_cons_of_mem
          refine ih (i + 1) i r.height hdrop' (by omega) ?_ j (by omega) hjlen hover
          have h1 : i + 1 - i = 1 := by omega
          rw [h1, seg_one hs i (by omega), hhead]
        · simp only [splitGo, if_neg h]
          exact ih (i + 1) start (cur + r.height) hdrop' (by omega) hcur'
            j (by omega) hjlen hover

/-- C2: with all row heights positive, every interval of the computed split
plan has total row height at most `maxHeight`, except that an interval may be
a singleton whose single row's height exceeds `maxHeight`; and every row
whose own height exceeds `maxHeight` occupies its own singleton interval
`(j, j)` in the plan (never merged with another row, never dropped). -/
theorem claim_C2_single_row_overflow (rows : List RowInfo) (maxH : ℚ)
    (hpos : ∀ r ∈ rows, 0 < r.height) :
    (∀ p ∈ calculate_split_points rows maxH,
        intervalHeight rows p ≤ maxH ∨
          (p.1 = p.2 ∧ maxH < (rows.map RowInfo.height).getD p.1 0)) ∧
    (∀ j, j < rows.length → maxH < (rows.map RowInfo.height).getD j 0 →
        (j, j) ∈ calculate_split_points rows maxH) := by
  constructor
  · intro p hp
    by_cases h : rows = []
    · subst h; simp [calculate_split_points] at hp
    · rw [calculate_split_points, if_neg h] at hp
      exact splitGo_bound maxH rows rows 0 0 0 rfl (le_refl 0)
        (seg_zero _ _).symm (fun hlt => absurd hlt (by omega)) p hp
  · intro j hjlen hover
    by_cases h : rows = []
    · subst h; simp at hjlen
    · rw [calculate_split_points, if_neg h]
      exact splitGo_overflow_mem maxH rows hpos rows 0 0 0 rfl (le_refl 0)
        (seg_zero _ _).symm j (by omega) hjlen hover

/-- Witness for C2 at a three-row table whose middle row (height 5)
overflows the budget 3. -/
theorem claim_C2_single_row_overflow_witness :
    (∀ r ∈ ([⟨0, 0, 2, 2⟩, ⟨1, 2, 7, 5⟩, ⟨2, 7, 9, 2⟩] : List RowInfo), 0 < r.height) ∧
    ((∀ p ∈ calculate_split_points [⟨0, 0, 2, 2⟩, ⟨1, 2, 7, 5⟩, ⟨2, 7, 9, 2⟩] 3,
        intervalHeight [⟨0, 0, 2, 2⟩, ⟨1, 2, 7, 5⟩, ⟨2, 7, 9, 2⟩] p ≤ 3 ∨
          (p.1 = p.2 ∧ 3 < (([⟨0, 0, 2, 2⟩, ⟨1, 2, 7, 5⟩, ⟨2, 7, 9, 2⟩] : List RowInfo).map
            RowInfo.height).getD p.1 0)) ∧
      (∀ j, j < ([⟨0, 0, 2, 2⟩, ⟨1, 2, 7, 5⟩, ⟨2, 7, 9, 2⟩] : List RowInfo).length →
        3 < (([⟨0, 0, 2, 2⟩, ⟨1, 2, 7, 5⟩, ⟨2, 7, 9, 2⟩] : List RowInfo).map
          RowInfo.height).getD j 0 →
        (j, j) ∈ calculate_split_points [⟨0, 0, 2, 2⟩, ⟨1, 2, 7, 5⟩, ⟨2, 7, 9, 2⟩] 3)) :=
  ⟨by intro r hr; fin_cases hr <;> norm_num,
   claim_C2_single_row_overflow _ _ (by intro r hr; fin_cases hr <;> norm_num)⟩

/-! ## Cell metrics and `within_5pct` (html2img.py) -/

/-- Embeds the per-cell measurement `{w, h}` returned by `MEASURE_JS`
(rounded bounding-box width/height, embedded as `ℚ`). -/
structure CellMetric where
  w : ℚ
  h : ℚ
  deriving Repr, DecidableEq

/-- The per-cell body of the loop in `within_5pct`: baseline width/height
floored at `0.01`, both ratios must lie in `[1 - tol, 1 + tol]`. -/
def cellOk (tol : ℚ) (b c : CellMetric) : Bool :=
  let bw := max (1/100 : ℚ) b.w
  let bh := max (1/100 : ℚ) b.h
  let rw := c.w / bw
  let rh := c.h / bh
  decide (1 - tol ≤ rw ∧ rw ≤ 1 + tol ∧ 1 - tol ≤ rh ∧ rh ≤ 1 + tol)

/-- Embeds `within_5pct(base, cur, tol)` of `html2img.py`: `False` on a
length mismatch, otherwise every zipped pair of cells must pass `cellOk`. -/
def within_5pct (base cur : List CellMetric) (tol : ℚ) : Bool :=
  if base.length ≠ cur.length then false
  else (base.zip cur).all (fun bc => cellOk tol bc.1 bc.2)

/-- C3: `within_5pct(base, cur, tol)` returns `True` if and only if the two
snapshots have equal length and, for every zipped pair of cells, both the
width ratio and the height ratio (current value divided by the baseline
value floored at 0.01) lie within `[1 - tol, 1 + tol]`; in particular a
length mismatch yields `False` (the right-hand side fails), never an
exception (the function is total). -/
theorem claim_C3_within_5pct (base cur : List CellMetric) (tol : ℚ) :
    within_5pct base cur tol = true ↔
      (base.length = cur.length ∧
        ∀ p ∈ base.zip cur,
          (1 - tol ≤ p.2.w / max (1/100 : ℚ) p.1.w ∧
            p.2.w / max (1/100 : ℚ) p.1.w ≤ 1 + tol) ∧
          (1 - tol ≤ p.2.h / max (1/100 : ℚ) p.1.h ∧
            p.2.h / max (1/100 : ℚ) p.1.h ≤ 1 + tol)) := by
  unfold within_5pct
  by_cases hlen : base.length = cur.length
  · rw [if_neg (by omega)]
    rw [List.all_eq_true]
    constructor
    · intro h
      refine ⟨hlen, ?_⟩
      intro p hp
      have := h p hp
      rw [cellOk, decide_eq_true_iff] at this
      tauto
    · intro ⟨_, h⟩ p hp
      rw [cellOk, decide_eq_true_iff]
      have := h p hp
      tauto
  · rw [if_pos (by omega)]
    constructor
    · intro h
      exact absurd h (by simp)
    · intro ⟨h, _⟩
      exact absurd h hlen

/-! ## Python string helpers -/

/-- The whitespace class used by Python's `str.strip` and the regex `\s`
(ASCII whitespace plus the Unicode space characters). -/
def isPySpace (c : Char) : Bool :=
  c = ' ' || c = '\t' || c = '\n' || c = '\r' || c = '\x0b' || c = '\x0c' ||
  c = '\x1c' || c = '\x1d' || c = '\x1e' || c = '\x1f' || c = '\x85' || c = '\xa0' ||
  c = ' ' || (' ' ≤ c && c ≤ ' ') || c = ' ' || c = ' ' ||
  c = ' ' || c = ' ' || c = '　'

/-- Python's `str.strip()`: drop leading and trailing whitespace. -/
def pyStrip (s : List Char) : List Char :=
  ((s.dropWhile isPySpace).reverse.dropWhile isPySpace).reverse

/-! ## Themes and the render pipelines (html2img.py, html2img_split.py)

The browser-side effects are embedded by their observable outcomes: the
presence of a `<table>` after wrapping (`hasTable`, the result of
`document.querySelector('table')`), the weighted random theme draws and the
re-measured metrics of each attempt (`attempts`, one entry per loop
iteration), and the coin flip `shouldColor` (`random() < color_probability`).
A renderer returns `Except.error` for a raised exception (raised before any
screenshot is taken) or `Except.ok` with the list of screenshot paths
written, in order. -/

/-- Embeds the frozen `Theme` dataclass of `html2img.py`. -/
structure Theme where
  name : String
  border_color : String
  header_bg : String
  header_text : String
  stripe_bg : String
  body_bg : String
  shadow : String
  zebra : Bool
  weight : ℚ
  deriving Repr, DecidableEq

/-- The static theme catalog `THEMES` of `html2img.py`. -/
def THEMES : List Theme := [
  ⟨"gray_clean",  "#222222", "#f1f1f1", "#111111", "#fafafa", "#ffffff", "none", true, 7/2⟩,
  ⟨"soft_card",   "#d7dbe7", "#eef1f8", "#1f2430", "#f8f9fd", "#ffffff", "0 6px 18px rgba(0,0,0,0.08)", true, 1⟩,
  ⟨"blue_header", "#c8d3ea", "#2f5aa6", "#ffffff", "#f3f6ff", "#ffffff", "0 4px 14px rgba(47,90,166,0.12)", true, 1/5⟩,
  ⟨"mono",        "#333333", "#ffffff", "#111111", "#ffffff", "#ffffff", "none", false, 7/2⟩]

/-- The fixed uncolored theme applied when the color coin flip fails. -/
def plainTheme : Theme :=
  ⟨"plain", "#222222", "#ffffff", "#111111", "#ffffff", "#ffffff", "none", false, 1⟩

/-- The theme-search loop: up to `maxTries` attempts, each drawing one theme
and re-measuring; the first attempt whose metrics pass `within_5pct` against
the baseline wins. -/
def findStableTheme (base : List CellMetric) (tol : ℚ) (maxTries : ℕ)
    (attempts : List (Theme × List CellMetric)) : Option Theme :=
  ((attempts.take maxTries).find? (fun a => within_5pct base a.2 tol)).map Prod.fst

/-- The `should_apply_color` branch of both renderers: search when coloring,
otherwise deterministically use the plain theme. -/
def chooseRenderTheme (shouldColor : Bool) (base : List CellMetric) (tol : ℚ)
    (maxTries : ℕ) (attempts : List (Theme × List CellMetric)) : Option Theme :=
  if shouldColor then findStableTheme base tol maxTries attempts else some plainTheme

/-- Embeds the outcome of `render_table_dual_images` of `html2img.py`: the
wrapper-creation script throws `No <table> found` when the document has no
table; an exhausted theme search raises before any screenshot; on success
the standard and the colored screenshots are written. -/
def render_table_dual_images (outStd outColored : String) (hasTable : Bool)
    (shouldColor : Bool) (base : List CellMetric) (tol : ℚ) (maxTries : ℕ)
    (attempts : List (Theme × List CellMetric)) : Except String (List String) :=
  if hasTable = false then Except.error "No <table> found"
  else
    match chooseRenderTheme shouldColor base tol maxTries attempts with
    | none => Except.error "Could not find a theme within tolerance."
    | some _ => Except.ok [outStd, outColored]

/-- Embeds the outcome of `render_table_single_image` of `html2img.py`. -/
def render_table_single_image (outPath : String) (hasTable : Bool)
    (shouldColor : Bool) (base : List CellMetric) (tol : ℚ) (maxTries : ℕ)
    (attempts : List (Theme × List CellMetric)) : Except String (List String) :=
  if hasTable = false then Except.error "No <table> found"
  else
    match chooseRenderTheme shouldColor base tol maxTries attempts with
    | none => Except.error "Could not find a theme within tolerance."
    | some _ => Except.ok [outPath]

/-- Embeds the outcome of `render_html_with_split` of `html2img_split.py`.
`rows` is what `get_table_row_positions` returned (`[]` when the document
has no table — in that case the code captures the whole `body` as a single
image and returns that one path; it does not raise).  Split part files are
named `stem_k.ext` for `k = 1, 2, ...`. -/
def render_html_with_split (stem ext : String) (rows : List RowInfo)
    (tableHeight maxH : ℚ) : Except String (List String) :=
  if rows = [] then Except.ok [stem ++ ext]
  else if tableHeight ≤ maxH then Except.ok [stem ++ ext]
  else
    let splits := calculate_split_points rows maxH
    if splits.length = 1 then Except.ok [stem ++ ext]
    else Except.ok ((List.range splits.length).map
      (fun k => stem ++ "_" ++ toString (k + 1) ++ ext))

/-! ## Batch orchestration (html2img.py `process_all_html_files`,
extract_table.py `process_output_qa_folder`)

Each loop is embedded as the ordered list of print events it emits; the
per-file render / clean outcome is an input (`Except.error` abstracts the
exception the `try` block catches).  `process_all_html_files` is modelled on
its default path (`images_per_file = 1`, `raw_mode = False`,
`generate_colored = True`). -/

/-- One print line of a batch run. -/
inductive BatchEvent where
  | processing (name : String)
  | done (info : String)
  | saved (names : List String)
  | failed (msg : String)
  | savedClean (name : String)
  | noValidTable (name : String)
  | errorProcessing (name : String) (msg : String)
  | completedSummary (success : ℕ) (failedCount : ℕ)
  | failedFilesSummary (names : List String)
  deriving Repr, DecidableEq

def BatchEvent.isProcessing : BatchEvent → Bool
  | .processing _ => true
  | _ => false

def BatchEvent.isFailedFilesSummary : BatchEvent → Bool
  | .failedFilesSummary _ => true
  | _ => false

def BatchEvent.isPerFile : BatchEvent → Bool
  | .savedClean _ => true
  | .noValidTable _ => true
  | .errorProcessing _ _ => true
  | _ => false

/-- Embeds the per-file loop of `process_all_html_files` of `html2img.py`:
a `Processing` line naming the file, then either the done/saved lines or a
`Failed` line (which does not name the file); the loop never prints an
end-of-run summary of failed files. -/
def process_all_html_files : List (String × Except String String) → List BatchEvent
  | [] => []
  | f :: rest =>
      (BatchEvent.processing f.1 ::
        match f.2 with
        | Except.ok theme => [BatchEvent.done theme, BatchEvent.saved [f.1]]
        | Except.error e => [BatchEvent.failed e]) ++ process_all_html_files rest

/-- A file of the QA batch succeeds when its cleaned content is truthy
(`clean_table and clean_table.strip()`). -/
def qaSucceeds (f : String × Except String (List Char)) : Bool :=
  match f.2 with
  | Except.ok c => decide (c ≠ [] ∧ pyStrip c ≠ [])
  | Except.error _ => false

/-- The file names appended to `failed_files`, in order. -/
def qaFailedNames (files : List (String × Except String (List Char))) : List String :=
  (files.filter (fun f => !qaSucceeds f)).map Prod.fst

/-- The loop of `process_output_qa_folder` of `extract_table.py`, carrying
the `success_count` and `failed_files` accumulators; after the loop it
prints the completion summary and, when files failed, the first five failed
names. -/
def qaGo : List (String × Except String (List Char)) → ℕ → List String → List BatchEvent
  | [], success, failed =>
      BatchEvent.completedSummary success failed.length ::
        (if failed ≠ [] then [BatchEvent.failedFilesSummary (failed.take 5)] else [])
  | f :: rest, success, failed =>
      match f.2 with
      | Except.ok c =>
          if c ≠ [] ∧ pyStrip c ≠ [] then
            BatchEvent.savedClean f.1 :: qaGo rest (success + 1) failed
          else
            BatchEvent.noValidTable f.1 :: qaGo rest success (failed ++ [f.1])
      | Except.error e =>
          BatchEvent.errorProcessing f.1 e :: qaGo rest success (failed ++ [f.1])

/-- Embeds `process_output_qa_folder` of `extract_table.py`. -/
def process_output_qa_folder (files : List (String × Except String (List Char))) :
    List BatchEvent :=
  qaGo files 0 []

theorem process_all_count (files : List (String × Except String String)) :
    (process_all_html_files files).countP BatchEvent.isProcessing = files.length := by
  induction files with
  | nil => simp [process_all_html_files]
  | cons f rest ih =>
      rw [process_all_html_files, List.countP_append]
      rcases f with ⟨name, out⟩
      cases out with
      | ok theme =>
          simp only [List.countP_cons, List.countP_nil, BatchEvent.isProcessing,
            List.length_cons]
          rw [ih]
          simp [Nat.add_comm]
      | error e =>
          simp only [List.countP_cons, List.countP_nil, BatchEvent.isProcessing,
            List.length_cons]
          rw [ih]
          simp [Nat.add_comm]

theorem process_all_failed_mem (files : List (String × Except String String)) :
    ∀ f ∈ files, ∀ e, f.2 = Except.error e →
      BatchEvent.failed e ∈ process_all_html_files files := by
  induction files with
  | nil => intro f hf; simp at hf
  | cons g rest ih =>
      intro f hf e he
      rw [process_all_html_files, List.mem_append]
      rcases List.mem_cons.mp hf with rfl | hf
      · left
        rw [he]
        simp
      · right
        exact ih f hf e he

theorem process_all_no_summary (files : List (String × Except String String)) :
    (process_all_html_files files).countP BatchEvent.isFailedFilesSummary = 0 := by
  induction files with
  | nil => simp [process_all_html_files]
  | cons f rest ih =>
      rw [process_all_html_files, List.countP_append]
      rcases f with ⟨name, out⟩
      cases out with
      | ok theme =>
          simp only [List.countP_cons, List.countP_nil, BatchEvent.isFailedFilesSummary]
          rw [ih]
          simp
      | error e =>
          simp only [List.countP_cons, List.countP_nil, BatchEvent.isFailedFilesSummary]
          rw [ih]
          simp

theorem qaGo_perFile_count (files : List (String × Except String (List Char))) :
    ∀ (s : ℕ) (acc : List String),
    (qaGo files s acc).countP BatchEvent.isPerFile = files.length := by
  induction files with
  | nil =>
      intro s acc
      rw [qaGo]
      by_cases h : acc = [] <;>
        simp [h, List.countP_cons, BatchEvent.isPerFile]
  | cons f rest ih =>
      intro s acc
      rcases f with ⟨name, out⟩
      cases out with
      | ok c =>
          by_cases h : c ≠ [] ∧ pyStrip c ≠ []
          · rw [qaGo]
            dsimp only
            rw [if_pos h]
            simp only [List.countP_cons, BatchEvent.isPerFile, List.length_cons]
            rw [ih]
            simp [Nat.add_comm]
          · rw [qaGo]
            dsimp only
            rw [if_neg h]
            simp only [List.countP_cons, BatchEvent.isPerFile, List.length_cons]
            rw [ih]
            simp [Nat.add_comm]
      | error e =>
          rw [qaGo]
          dsimp only
          simp only [List.countP_cons, BatchEvent.isPerFile, List.length_cons]
          rw [ih]
          simp [Nat.add_comm]

theorem qaGo_error_mem (files : List (String × Except String (List Char))) :
    ∀ (s : ℕ) (acc : List String), ∀ f ∈ files, ∀ e, f.2 = Except.error e →
      BatchEvent.errorProcessing f.1 e ∈ qaGo files s acc := by
  induction files with
  | nil => intro s acc f hf; simp at hf
  | cons g rest ih =>
      intro s acc f hf e he
      rcases List.mem_cons.mp hf with rfl | hf2
      · rcases f with ⟨name, out⟩
        simp only at he
        subst he
        rw [qaGo]
        dsimp only
        exact List.mem_cons_self _ _
      · rcases g with ⟨gname, gout⟩
        cases gout with
        | ok c =>
            by_cases h : c ≠ [] ∧ pyStrip c ≠ []
            · rw [qaGo]
              dsimp only
              rw [if_pos h]
              exact List.mem_cons_of_mem _ (ih _ _ f hf2 e he)
            · rw [qaGo]
              dsimp only
              rw [if_neg h]
              exact List.mem_cons_of_mem _ (ih _ _ f hf2 e he)
        | error e2 =>
            rw [qaGo]
            dsimp only
            exact List.mem_cons_of_mem _ (ih _ _ f hf2 e he)

theorem qaGo_summary (files : List (String × Except String (List Char))) :
    ∀ (s : ℕ) (acc : List String),
      BatchEvent.completedSummary (s + files.countP qaSucceeds)
        (acc.length + (qaFailedNames files).length) ∈ qaGo files s acc := by
  induction files with
  | nil =>
      intro s acc
      rw [qaGo]
      simp [qaFailedNames]
  | cons f rest ih =>
      intro s acc
      rcases f with ⟨name, out⟩
      cases out with
      | ok c =>
          by_cases h : c ≠ [] ∧ pyStrip c ≠ []
          · rw [qaGo]
            dsimp only
            rw [if_pos h]
            apply List.mem_cons_of_mem
            have hsucc : qaSucceeds (name, Except.ok c) = true := by
              simp [qaSucceeds, h]
            have h1 : qaFailedNames ((name, Except.ok c) :: rest) = qaFailedNames rest := by
              simp [qaFailedNames, List.filter, hsucc]
            have h2 : ((name, Except.ok c) :: rest).countP qaSucceeds
                = rest.countP qaSucceeds + 1 := by
              rw [List.countP_cons, hsucc]
              simp
            rw [h1, h2, ← Nat.add_assoc]
            have := ih (s + 1) acc
            rwa [Nat.add_assoc s 1, Nat.add_comm 1, ← Nat.add_assoc] at this
          · rw [qaGo]
            dsimp only
            rw [if_neg h]
            apply List.mem_cons_of_mem
            have hsucc : qaSucceeds (name, Except.ok c) = false := by
              simp only [qaSucceeds]
              rw [decide_eq_false_iff_not]
              exact h
            have h1 : qaFailedNames ((name, Except.ok c) :: rest)
                = name :: qaFailedNames rest := by
              simp [qaFailedNames, List.filter, hsucc]
            have h2 : ((name, Except.ok c) :: rest).countP qaSucceeds
                = rest.countP qaSucceeds := by
              rw [List.countP_cons, hsucc]
              simp
            rw [h1, h2]
            have := ih s (acc ++ [name])
            simpa [List.length_append, Nat.add_assoc, Nat.add_comm 1] using this
      | error e =>
          rw [qaGo]
          dsimp only
          apply List.mem_cons_of_mem
          have hsucc : qaSucceeds (name, Except.error e) = false := by
            simp [qaSucceeds]
          have h1 : qaFailedNames ((name, Except.error e) :: rest)
              = name :: qaFailedNames rest := by
            simp [qaFailedNames, List.filter, hsucc]
          have h2 : ((name, Except.error e) :: rest).countP qaSucceeds
              = rest.countP qaSucceeds := by
            rw [List.countP_cons, hsucc]
            simp
          rw [h1, h2]
          have := ih s (acc ++ [name])
          simpa [List.length_append, Nat.add_assoc, Nat.add_comm 1] using this

theorem qaGo_failed_summary (files : List (String × Except String (List Char))) :
    ∀ (s : ℕ) (acc : List String),
      acc ++ qaFailedNames files ≠ [] →
      BatchEvent.failedFilesSummary ((acc ++ qaFailedNames files).take 5)
        ∈ qaGo files s acc := by
  induction files with
  | nil =>
      intro s acc hne
      rw [qaGo]
      simp only [qaFailedNames, List.filter_nil, List.map_nil, List.append_nil] at hne ⊢
      rw [if_pos hne]
      simp
  | cons f rest ih =>
      intro s acc hne
      rcases f with ⟨name, out⟩
      cases out with
      | ok c =>
          by_cases h : c ≠ [] ∧ pyStrip c ≠ []
          · have hsucc : qaSucceeds (name, Except.ok c) = true := by
              simp [qaSucceeds, h]
            have h1 : qaFailedNames ((name, Except.ok c) :: rest) = qaFailedNames rest := by
              simp [qaFailedNames, List.filter, hsucc]
            rw [h1] at hne ⊢
            rw [qaGo]
            dsimp only
            rw [if_pos h]
            exact List.mem_cons_of_mem _ (ih _ _ hne)
          · have hsucc : qaSucceeds (name, Except.ok c) = false := by
              simp only [qaSucceeds]
              rw [decide_eq_false_iff_not]
              exact h
            have h1 : qaFailedNames ((name, Except.ok c) :: rest)
                = name :: qaFailedNames rest := by
              simp [qaFailedNames, List.filter, hsucc]
            rw [h1] at hne ⊢
            rw [qaGo]
            dsimp only
            rw [if_neg h]
            apply List.mem_cons_of_mem
            have := ih s (acc ++ [name]) (by simp)
            simpa [List.append_assoc] using this
      | error e =>
          have hsucc : qaSucceeds (name, Except.error e) = false := by
            simp [qaSucceeds]
          have h1 : qaFailedNames ((name, Except.error e) :: rest)
              = name :: qaFailedNames rest := by
            simp [qaFailedNames, List.filter, hsucc]
          rw [h1] at hne ⊢
          rw [qaGo]
          dsimp only
          apply List.mem_cons_of_mem
          have := ih s (acc ++ [name]) (by simp)
          simpa [List.append_assoc] using this

/-- C9 counterexample: the image batch `process_all_html_files`, run on one
file whose render fails, prints the `Processing` line and a `Failed` line
only — no end-of-run summary of the failed filenames is reported (and the
`Failed` line itself does not name the file), so the claim is false for
this batch entry point. -/
theorem claim_C9_counterexample :
    process_all_html_files [("a.html", Except.error "boom")]
      = [BatchEvent.processing "a.html", BatchEvent.failed "boom"] := by rfl

/-- C9 (amended): in both batch loops every per-file failure is caught and
processing continues with the next file (every file is processed); the
label-cleaning batch `process_output_qa_folder` logs each failure with the
offending filename and ends with a completion summary and the list of
failed filenames (first five); the image batch `process_all_html_files`
logs the failure message without the filename (the filename appears only in
the preceding `Processing` line) and reports no end-of-run summary of
failed filenames. -/
theorem claim_C9_batch_failure_handling :
    (∀ files : List (String × Except String String),
      (process_all_html_files files).countP BatchEvent.isProcessing = files.length ∧
      (∀ f ∈ files, ∀ e, f.2 = Except.error e →
        BatchEvent.failed e ∈ process_all_html_files files) ∧
      (process_all_html_files files).countP BatchEvent.isFailedFilesSummary = 0) ∧
    (∀ files : List (String × Except String (List Char)),
      (process_output_qa_folder files).countP BatchEvent.isPerFile = files.length ∧
      (∀ f ∈ files, ∀ e, f.2 = Except.error e →
        BatchEvent.errorProcessing f.1 e ∈ process_output_qa_folder files) ∧
      BatchEvent.completedSummary (files.countP qaSucceeds) (qaFailedNames files).length
        ∈ process_output_qa_folder files ∧
      (qaFailedNames files ≠ [] →
        BatchEvent.failedFilesSummary ((qaFailedNames files).take 5)
          ∈ process_output_qa_folder files)) := by
  constructor
  · intro files
    exact ⟨process_all_count files, process_all_failed_mem files,
      process_all_no_summary files⟩
  · intro files
    refine ⟨qaGo_perFile_count files 0 [], qaGo_error_mem files 0 [], ?_, ?_⟩
    · have := qaGo_summary files 0 []
      simpa [process_output_qa_folder] using this
    · intro hne
      have := qaGo_failed_summary files 0 [] (by simpa using hne)
      simpa [process_output_qa_folder] using this

/-- C4: in `render_table_dual_images` and `render_table_single_image`, when
the color branch is taken (`shouldColor = true`) and none of the `maxTries`
weighted theme draws passes the stability check, the render raises
`Could not find a theme within tolerance.` and no screenshot is written
(the `Except.error` is produced before any screenshot event). -/
theorem claim_C4_theme_search_exhausted (outStd outColored outSingle : String)
    (base : List CellMetric) (tol : ℚ) (maxTries : ℕ)
    (attempts : List (Theme × List CellMetric))
    (hlen : maxTries ≤ attempts.length)
    (hfail : ∀ a ∈ attempts.take maxTries, within_5pct base a.2 tol = false) :
    render_table_dual_images outStd outColored true true base tol maxTries attempts
        = Except.error "Could not find a theme within tolerance." ∧
    render_table_single_image outSingle true true base tol maxTries attempts
        = Except.error "Could not find a theme within tolerance." := by
  have hnone : findStableTheme base tol maxTries attempts = none := by
    unfold findStableTheme
    rw [List.find?_eq_none.mpr]
    · rfl
    · intro a ha
      rw [hfail a ha]
      simp
  constructor
  · unfold render_table_dual_images chooseRenderTheme
    rw [if_neg (by simp), if_pos rfl, hnone]
  · unfold render_table_single_image chooseRenderTheme
    rw [if_neg (by simp), if_pos rfl, hnone]

/-- Witness for C4: one attempt whose cells doubled in size fails the 5%
band, so a one-try search is exhausted and both renders raise. -/
theorem claim_C4_theme_search_exhausted_witness :
    (1 ≤ ([(Theme.mk "gray_clean" "#222222" "#f1f1f1" "#111111" "#fafafa" "#ffffff" "none" true (7/2),
        [CellMetric.mk 20 20])] : List (Theme × List CellMetric)).length) ∧
    (∀ a ∈ ([(Theme.mk "gray_clean" "#222222" "#f1f1f1" "#111111" "#fafafa" "#ffffff" "none" true (7/2),
        [CellMetric.mk 20 20])] : List (Theme × List CellMetric)).take 1,
      within_5pct [CellMetric.mk 10 10] a.2 (1/20) = false) ∧
    (render_table_dual_images "a.png" "b.png" true true [CellMetric.mk 10 10] (1/20) 1
        [(Theme.mk "gray_clean" "#222222" "#f1f1f1" "#111111" "#fafafa" "#ffffff" "none" true (7/2),
          [CellMetric.mk 20 20])]
        = Except.error "Could not find a theme within tolerance." ∧
      render_table_single_image "c.png" true true [CellMetric.mk 10 10] (1/20) 1
        [(Theme.mk "gray_clean" "#222222" "#f1f1f1" "#111111" "#fafafa" "#ffffff" "none" true (7/2),
          [CellMetric.mk 20 20])]
        = Except.error "Could not find a theme within tolerance.") := by
  refine ⟨by simp, ?_, ?_⟩
  · intro a ha
    simp only [List.take, List.mem_singleton] at ha
    subst ha
    simp only [within_5pct, cellOk]
    norm_num
  · apply claim_C4_theme_search_exhausted
    · simp
    · intro a ha
      simp only [List.take, List.mem_singleton] at ha
      subst ha
      simp only [within_5pct, cellOk]
      norm_num

/-- C5 counterexample: `render_html_with_split` on a document with no
`<table>` (so `get_table_row_positions` returns no rows) does not fail — it
writes a screenshot of the whole body and returns that single path, so the
claim that every render entry point fails with an error on a missing table
is false. -/
theorem claim_C5_counterexample :
    render_html_with_split "out" ".png" [] 0 2000 = Except.ok ["out.png"] := by rfl

/-- C5 (amended): when the wrapped input contains no `<table>`,
`render_table_dual_images` and `render_table_single_image` raise
`No <table> found` (reported to the caller, no screenshot written), and the
batch loop catches per-file failures so every file is still processed; but
`render_html_with_split` does not fail: it captures the whole body as one
image and returns that single un-suffixed path. -/
theorem claim_C5_no_table_amended :
    (∀ (outStd outColored outSingle : String) (shouldColor : Bool)
        (base : List CellMetric) (tol : ℚ) (maxTries : ℕ)
        (attempts : List (Theme × List CellMetric)),
      render_table_dual_images outStd outColored false shouldColor base tol maxTries attempts
          = Except.error "No <table> found" ∧
      render_table_single_image outSingle false shouldColor base tol maxTries attempts
          = Except.error "No <table> found") ∧
    (∀ (stem ext : String) (tableHeight maxH : ℚ),
      render_html_with_split stem ext [] tableHeight maxH = Except.ok [stem ++ ext]) ∧
    (∀ files : List (String × Except String String),
      (process_all_html_files files).countP BatchEvent.isProcessing = files.length) := by
  refine ⟨?_, ?_, ?_⟩
  · intro outStd outColored outSingle shouldColor base tol maxTries attempts
    constructor
    · rw [render_table_dual_images, if_pos rfl]
    · rw [render_table_single_image, if_pos rfl]
  · intro stem ext tableHeight maxH
    rw [render_html_with_split, if_pos rfl]
  · exact process_all_count

/-! ## Document wrapping and font extraction (html2img.py, html2img_split.py)

Strings are embedded as `List Char`.  `lowerList` models Python `.lower()`
(exact on ASCII, the identity on the Korean glyphs appearing here);
`countOcc`/`findSub` model substring counting and `str.find`;
`extract_font_family_from_html` models the two-regex scan of the source,
with the regex backtracking resolved to its deterministic outcome. -/

def countOcc (pat : List Char) : List Char → ℕ
  | [] => 0
  | c :: rest => (if pat.isPrefixOf (c :: rest) then 1 else 0) + countOcc pat rest

def findSub (pat : List Char) : List Char → Option ℕ
  | [] => if pat.isPrefixOf ([] : List Char) then some 0 else none
  | c :: rest =>
      if pat.isPrefixOf (c :: rest) then some 0
      else (findSub pat rest).map (· + 1)

/-- No occurrence of `pat` spans the boundary between `a` and `b`. -/
def NoSpan (pat a b : List Char) : Prop :=
  ∀ k, 0 < k → k < pat.length → ¬((pat.take k) <:+ a ∧ (pat.drop k) <+: b)

theorem isPrefixOf_iff (l m : List Char) : l.isPrefixOf m = true ↔ l <+: m :=
  List.isPrefixOf_iff_prefix

theorem prefix_append_left {p a : List Char} (b : List Char) (h : p <+: a) :
    p <+: a ++ b :=
  h.trans (List.prefix_append a b)

theorem prefix_of_append_of_le {p a b : List Char} (h : p <+: a ++ b)
    (hle : p.length ≤ a.length) : p <+: a := by
  have h1 : p = (a ++ b).take p.length := List.prefix_iff_eq_take.mp h
  rw [List.take_append_of_le_length hle] at h1
  rw [h1]
  exact List.take_prefix _ _

theorem countOcc_append (pat : List Char) :
    ∀ (a b : List Char), NoSpan pat a b →
    countOcc pat (a ++ b) = countOcc pat a + countOcc pat b := by
  intro a
  induction a with
  | nil =>
      intro b _
      simp [countOcc]
  | cons c a ih =>
      intro b hns
      have hns' : NoSpan pat a b := by
        intro k hk0 hklen ⟨hsuf, hpre⟩
        exact hns k hk0 hklen ⟨hsuf.trans (List.suffix_cons c a), hpre⟩
      rw [List.cons_append, countOcc, countOcc, ih b hns', Nat.add_assoc]
      congr 1
      by_cases hle : pat.length ≤ (c :: a).length
      · by_cases hp : pat <+: (c :: a)
        · rw [if_pos ((isPrefixOf_iff _ _).mpr (by
              rw [← List.cons_append]
              exact prefix_append_left b hp)),
            if_pos ((isPrefixOf_iff _ _).mpr hp)]
        · rw [if_neg, if_neg]
          · rw [isPrefixOf_iff]
            exact hp
          · rw [isPrefixOf_iff, ← List.cons_append]
            intro hcontra
            exact hp (prefix_of_append_of_le hcontra hle)
      · push_neg at hle
        have hnp : ¬ pat <+: (c :: a) := by
          intro h
          have := h.length_le
          omega
        rw [if_neg, if_neg]
        · rw [isPrefixOf_iff]; exact hnp
        · rw [isPrefixOf_iff, ← List.cons_append]
          intro hcontra
          -- pat extends past c :: a: contradiction with NoSpan at k = (c :: a).length
          have hca : (c :: a) <+: pat := by
            have h1 : (c :: a) <+: (c :: a) ++ b := List.prefix_append _ _
            exact List.prefix_of_prefix_length_le h1 hcontra (by omega)
          have htake : pat.take (c :: a).length = c :: a := by
            rcases hca with ⟨r, hr⟩
            rw [← hr]
            exact List.take_left' rfl
          have hdrop : pat.drop (c :: a).length <+: b := by
            rcases hcontra with ⟨r, hr⟩
            have h2 : pat.take (c :: a).length ++ pat.drop (c :: a).length ++ r
                = (c :: a) ++ b := by
              rw [List.take_append_drop]
              exact hr
            rw [htake, List.append_assoc] at h2
            have h3 := List.append_cancel_left h2
            exact ⟨r, h3⟩
          refine hns (c :: a).length (by simp) (by omega) ⟨?_, hdrop⟩
          rw [htake]

theorem noSpan_left (pat a : List Char)
    (h : ∀ k, k < pat.length → 0 < k → (pat.take k).isSuffixOf a = false)
    (b : List Char) : NoSpan pat a b := by
  intro k hk0 hklen hc
  have h1 := h k hklen hk0
  rw [← List.isSuffixOf_iff_suffix] at hc
  rw [hc.1] at h1
  exact absurd h1 (by simp)

theorem noSpan_right (pat b : List Char)
    (h : ∀ k, k < pat.length → 0 < k → (pat.drop k).isPrefixOf b = false)
    (a : List Char) : NoSpan pat a b := by
  intro k hk0 hklen hc
  have h1 := h k hklen hk0
  rw [← List.isPrefixOf_iff_prefix] at hc
  rw [hc.2] at h1
  exact absurd h1 (by simp)

theorem head?_of_prefix {p l : List Char} (h : p <+: l) (hp : p ≠ []) :
    l.head? = p.head? := by
  rcases h with ⟨r, rfl⟩
  exact List.head?_append_of_ne_nil p hp

theorem getLast?_of_suffix {s l : List Char} (h : s <:+ l) (hs : s ≠ []) :
    l.getLast? = s.getLast? := by
  rcases h with ⟨w, rfl⟩
  exact List.getLast?_append_of_ne_nil w hs

theorem noSpan_left_of_last (pat s4 : List Char)
    (h : ∀ k, k < pat.length → 0 < k → (pat.take k).getLast? ≠ s4.getLast?)
    (hs4 : s4 ≠ []) (x b : List Char) : NoSpan pat (x ++ s4) b := by
  intro k hk0 hklen hc
  have hne : pat.take k ≠ [] := by
    intro hnil
    have := List.length_take k pat
    rw [hnil] at this
    simp at this
    omega
  have h1 := getLast?_of_suffix hc.1 hne
  have h2 : (x ++ s4).getLast? = s4.getLast? := List.getLast?_append_of_ne_nil x hs4
  exact h k hklen hk0 (by rw [← h1, h2])

theorem noSpan_right_of_head (pat p1 : List Char)
    (h : ∀ k, k < pat.length → 0 < k → (pat.drop k).head? ≠ p1.head?)
    (hp1 : p1 ≠ []) (a rest : List Char) : NoSpan pat a (p1 ++ rest) := by
  intro k hk0 hklen hc
  have hne : pat.drop k ≠ [] := by
    intro hnil
    have := List.length_drop k pat
    rw [hnil] at this
    simp at this
    omega
  have h1 := head?_of_prefix hc.2 hne
  have h2 : (p1 ++ rest).head? = p1.head? := List.head?_append_of_ne_nil p1 hp1
  exact h k hklen hk0 (by rw [← h1, h2])

def lowerList (s : List Char) : List Char := s.map Char.toLower

def DEFAULT_KOREAN_FONTS : List Char :=
  ("\x27Malgun Gothic\x27, \x27맑은 고딕\x27, \x27Apple SD Gothic Neo\x27, " ++
   "\x27Noto Sans KR\x27, \x27NanumGothic\x27, \x27나눔고딕\x27, " ++
   "\x27Dotum\x27, \x27돋움\x27, \x27Gulim\x27, \x27굴림\x27, sans-serif").toList

def fontCss (font : Option (List Char)) : List Char :=
  match font with
  | some f => "font-family: ".toList ++ f ++ ", ".toList ++ DEFAULT_KOREAN_FONTS ++ ";".toList
  | none => "font-family: ".toList ++ DEFAULT_KOREAN_FONTS ++ ";".toList

def FOS1 : List Char := "<style>\n    * \x7b ".toList
def FOS2 : List Char := " !important; \x7d\n    body \x7b ".toList
def FOS3 : List Char := " \x7d\n    table, th, td \x7b ".toList
def FOS4 : List Char := " \x7d\n  </style>".toList

def fontOverrideStyle (css : List Char) : List Char :=
  FOS1 ++ css ++ FOS2 ++ css ++ FOS3 ++ css ++ FOS4

def FRAG_PRE : List Char :=
  ("<!doctype html>\n<html lang=\"ko\">\n<head>\n  <meta charset=\"utf-8\" />\n" ++
   "  <meta name=\"viewport\" content=\"width=device-width, initial-scale=1\" />\n" ++
   "  <title>table</title>\n  ").toList

def FRAG_MID : List Char := "\n</head>\n<body>\n".toList

def FRAG_POST : List Char := "\n</body>\n</html>".toList

def wrap_table_fragment (t : List Char) (font : Option (List Char)) : List Char :=
  let style := fontOverrideStyle (fontCss font)
  let strippedLower := lowerList (pyStrip t)
  if "<!doctype".toList.isPrefixOf strippedLower || "<html".toList.isPrefixOf strippedLower then
    match findSub "</head>".toList (lowerList t) with
    | some pos => t.take pos ++ style ++ t.drop pos
    | none =>
        match findSub "<body".toList (lowerList t) with
        | some pos =>
            t.take pos ++ ("<head>".toList ++ style ++ "</head>".toList) ++ t.drop pos
        | none => t
  else
    FRAG_PRE ++ style ++ FRAG_MID ++ t ++ FRAG_POST

def SPLIT_A : List Char :=
  ("<!doctype html>\n<html lang=\"ko\">\n<head>\n  <meta charset=\"utf-8\" />\n" ++
   "  <meta name=\"viewport\" content=\"width=device-width, initial-scale=1\" />\n" ++
   "  <title>Table</title>\n  <style>\n    body \x7b\n      margin: 0;\n" ++
   "      padding: 10px;\n      background: white;\n      ").toList

def SPLIT_B : List Char :=
  "\n    \x7d\n    table \x7b\n      border-collapse: collapse;\n      ".toList

def SPLIT_C : List Char :=
  ("\n      font-size: 12px;\n    \x7d\n    th, td \x7b\n      border: 1px solid #333;\n" ++
   "      padding: 6px 8px;\n      vertical-align: middle;\n    \x7d\n    th \x7b\n" ++
   "      background: #f5f5f5;\n      font-weight: 600;\n      text-align: center;\n" ++
   "    \x7d\n  </style>\n  ").toList

def wrap_html_document (t : List Char) (font : Option (List Char)) : List Char :=
  let css := fontCss font
  let style := fontOverrideStyle css
  let strippedLower := lowerList (pyStrip t)
  if "<!doctype".toList.isPrefixOf strippedLower || "<html".toList.isPrefixOf strippedLower then
    match findSub "</head>".toList (lowerList t) with
    | some pos => t.take pos ++ style ++ t.drop pos
    | none =>
        match findSub "<body".toList (lowerList t) with
        | some pos =>
            t.take pos ++ ("<head>".toList ++ style ++ "</head>".toList) ++ t.drop pos
        | none => t
  else
    SPLIT_A ++ css ++ SPLIT_B ++ css ++ SPLIT_C ++ style ++ FRAG_MID ++ t ++ FRAG_POST

def matchP1At (s : List Char) : Option (List Char) :=
  if "font-family".toList.isPrefixOf (lowerList s) then
    let u2 := (s.drop 11).dropWhile isPySpace
    match u2 with
    | ':' :: u3 =>
        let pre := u3.takeWhile (fun c => !(c = ';' || c = '}' || c = '{'))
        let wmax := (u3.takeWhile isPySpace).length
        let after := u3.drop pre.length
        if pre ≠ [] ∧ (after.head? = some ';' ∨ after.head? = some '}') then
          some (pre.drop (min wmax (pre.length - 1)))
        else none
    | _ => none
  else none

def matchP2At (s : List Char) : Option (List Char) :=
  if "font-family".toList.isPrefixOf (lowerList s) then
    match (s.drop 11).dropWhile isPySpace with
    | '=' :: u2 =>
        match u2.dropWhile isPySpace with
        | q :: u3 =>
            if q = '\x27' ∨ q = '"' then
              let pre := u3.takeWhile (fun c => !(c = '\x27' || c = '"'))
              let after := u3.drop pre.length
              if pre ≠ [] ∧ after ≠ [] then some pre else none
            else none
        | [] => none
    | _ => none
  else none

def scanFor (m : List Char → Option (List Char)) : List Char → Option (List Char)
  | [] => none
  | c :: rest =>
      match m (c :: rest) with
      | some g => some g
      | none => scanFor m rest

def cleanFont (g : List Char) : Option (List Char) :=
  let f := pyStrip ((pyStrip g).map (fun c => if c = '"' then '\x27' else c))
  if f ≠ [] then some f else none

def extract_font_family_from_html (s : List Char) : Option (List Char) :=
  match (scanFor matchP1At s).bind cleanFont with
  | some f => some f
  | none => (scanFor matchP2At s).bind cleanFont

theorem findSub_some_prefix (pat : List Char) :
    ∀ (s : List Char) (pos : ℕ), findSub pat s = some pos → pat <+: s.drop pos := by
  intro s
  induction s with
  | nil =>
      intro pos h
      rw [findSub] at h
      by_cases hp : pat.isPrefixOf ([] : List Char) = true
      · rw [if_pos hp] at h
        cases h
        rw [List.drop_nil]
        exact (isPrefixOf_iff _ _).mp hp
      · rw [if_neg hp] at h
        cases h
  | cons c rest ih =>
      intro pos h
      rw [findSub] at h
      by_cases hp : pat.isPrefixOf (c :: rest) = true
      · rw [if_pos hp] at h
        cases h
        exact (isPrefixOf_iff _ _).mp hp
      · rw [if_neg hp] at h
        rcases Option.map_eq_some'.mp h with ⟨q, hq, rfl⟩
        rw [List.drop_succ_cons]
        exact ih q hq

/-- C10: for every input that starts (after stripping, case-insensitively)
with a doctype or `<html` but contains neither `</head>` nor `<body`
(case-insensitively), both `wrap_table_fragment` (html2img.py) and
`wrap_html_document` (html2img_split.py) return the input unchanged — no
font-override style is injected at all. -/
theorem claim_C10_wrapper_pass_through (t : List Char) (font1 font2 : Option (List Char))
    (hdoc : "<!doctype".toList.isPrefixOf (lowerList (pyStrip t)) = true ∨
            "<html".toList.isPrefixOf (lowerList (pyStrip t)) = true)
    (hnohead : findSub "</head>".toList (lowerList t) = none)
    (hnobody : findSub "<body".toList (lowerList t) = none) :
    wrap_table_fragment t font1 = t ∧ wrap_html_document t font2 = t := by
  have hcond : ("<!doctype".toList.isPrefixOf (lowerList (pyStrip t)) ||
      "<html".toList.isPrefixOf (lowerList (pyStrip t))) = true := by
    rw [Bool.or_eq_true]
    exact hdoc
  constructor
  · simp only [wrap_table_fragment, hcond, if_true, hnohead, hnobody]
  · simp only [wrap_html_document, hcond, if_true, hnohead, hnobody]

/-- Witness for C10 at the document `<html></html>`. -/
theorem claim_C10_wrapper_pass_through_witness :
    (("<!doctype".toList.isPrefixOf (lowerList (pyStrip "<html></html>".toList)) = true ∨
      "<html".toList.isPrefixOf (lowerList (pyStrip "<html></html>".toList)) = true) ∧
     findSub "</head>".toList (lowerList "<html></html>".toList) = none ∧
     findSub "<body".toList (lowerList "<html></html>".toList) = none) ∧
    (wrap_table_fragment "<html></html>".toList none = "<html></html>".toList ∧
     wrap_html_document "<html></html>".toList none = "<html></html>".toList) :=
  ⟨⟨Or.inr (by decide), by decide, by decide⟩,
   claim_C10_wrapper_pass_through _ none none (Or.inr (by decide)) (by decide) (by decide)⟩

set_option maxRecDepth 4000 in
/-- C7 (amended): `extract_font_family_from_html` applied to
`<style>body{font-family:'Noto Sans KR';}</style>` returns the captured
value verbatim including its single quotes, `'Noto Sans KR'` (only double
quotes are rewritten to single quotes and whitespace stripped); applied to
content with no font-family declaration it returns `none`, in which case
the wrapper's css (`fontCss none`, used by `wrap_table_fragment`) is built
from the default Korean font stack alone, ending in `sans-serif;`. -/
theorem claim_C7_font_extraction :
    (extract_font_family_from_html
        "<style>body\x7bfont-family:\x27Noto Sans KR\x27;\x7d</style>".toList
      = some "\x27Noto Sans KR\x27".toList) ∧
    (∀ s, extract_font_family_from_html s = none →
      fontCss (extract_font_family_from_html s)
        = "font-family: ".toList ++ DEFAULT_KOREAN_FONTS ++ ";".toList) ∧
    "sans-serif;".toList.isSuffixOf (fontCss none) = true := by
  refine ⟨by decide, ?_, by decide⟩
  intro s h
  rw [h]
  rfl

/-- Witness for C7 at the empty input, which has no font declaration. -/
theorem claim_C7_font_extraction_witness :
    extract_font_family_from_html ([] : List Char) = none ∧
    fontCss (extract_font_family_from_html ([] : List Char))
      = "font-family: ".toList ++ DEFAULT_KOREAN_FONTS ++ ";".toList :=
  ⟨by decide, claim_C7_font_extraction.2.1 [] (by decide)⟩

set_option maxRecDepth 4000 in
/-- C7 counterexample: on `<style>body{font-family:'Noto Sans KR';}</style>`
the function returns `'Noto Sans KR'` with the surrounding single quotes,
not the bare string `Noto Sans KR` the claim states. -/
theorem claim_C7_counterexample :
    extract_font_family_from_html
        "<style>body\x7bfont-family:\x27Noto Sans KR\x27;\x7d</style>".toList
      = some "\x27Noto Sans KR\x27".toList ∧
    some "\x27Noto Sans KR\x27".toList ≠ some "Noto Sans KR".toList := by decide

theorem fontOverrideStyle_eq (css : List Char) :
    fontOverrideStyle css = (FOS1 ++ css ++ FOS2 ++ css ++ FOS3 ++ css) ++ FOS4 := by
  simp [fontOverrideStyle, List.append_assoc]

theorem fontOverrideStyle_head (css rest : List Char) :
    fontOverrideStyle css ++ rest
      = FOS1 ++ (css ++ (FOS2 ++ (css ++ (FOS3 ++ (css ++ (FOS4 ++ rest)))))) := by
  simp [fontOverrideStyle, List.append_assoc]

theorem noSpan_of_lower_head (pat : List Char)
    (hpat : ∀ k, k < pat.length → 0 < k → (lowerList (pat.drop k)).head? ≠ some '<')
    (t : List Char) (pos : ℕ)
    (hhead : ((lowerList t).drop pos).head? = some '<') :
    NoSpan pat (t.take pos) (t.drop pos) := by
  intro k hk0 hklen hc
  have hne : pat.drop k ≠ [] := by
    intro hnil
    have := List.length_drop k pat
    rw [hnil] at this
    simp at this
    omega
  have hne2 : lowerList (pat.drop k) ≠ [] := by
    intro hcontra
    apply hne
    have hlen := congrArg List.length hcontra
    simp only [lowerList, List.length_map, List.length_nil] at hlen
    exact List.eq_nil_of_length_eq_zero hlen
  have hpre : lowerList (pat.drop k) <+: lowerList (t.drop pos) :=
    List.IsPrefix.map Char.toLower hc.2
  have h1 := head?_of_prefix hpre hne2
  have h2 : lowerList (t.drop pos) = (lowerList t).drop pos := by
    simp [lowerList, List.map_drop]
  rw [h2, hhead] at h1
  exact hpat k hklen hk0 h1.symm

theorem prefix_conflict {s : List Char}
    (hfrag : "<table".toList.isPrefixOf s = true) :
    ("<!doctype".toList.isPrefixOf s || "<html".toList.isPrefixOf s) = false := by
  have ht : "<table".toList <+: s := (isPrefixOf_iff _ _).mp hfrag
  rw [Bool.or_eq_false_iff]
  constructor
  · by_contra hd
    rw [Bool.not_eq_false, isPrefixOf_iff] at hd
    have : "<table".toList <+: "<!doctype".toList :=
      List.prefix_of_prefix_length_le ht hd (by decide)
    exact absurd this (by decide)
  · by_contra hd
    rw [Bool.not_eq_false, isPrefixOf_iff] at hd
    have : "<html".toList <+: "<table".toList :=
      List.prefix_of_prefix_length_le hd ht (by decide)
    exact absurd this (by decide)

set_option maxRecDepth 4000 in
/-- C8: `wrap_table_fragment` on a bare table fragment (one that starts
with `<table` and contains no `<body>`, wrapped with a style that adds
none) returns a string that starts with `<!doctype html>` and contains
exactly one `<body>` tag; on a full document that starts with a doctype or
`<html` and contains `</head>`, it returns the input with the font-override
style inserted immediately before the first (case-insensitive) `</head>`,
and the number of `<html` and `<body` occurrences is unchanged (no tag
added or duplicated). -/
theorem claim_C8_wrapping :
    (∀ (t : List Char) (font : Option (List Char)),
      "<table".toList.isPrefixOf (lowerList (pyStrip t)) = true →
      countOcc "<body>".toList t = 0 →
      countOcc "<body>".toList (fontOverrideStyle (fontCss font)) = 0 →
      "<!doctype html>".toList.isPrefixOf (wrap_table_fragment t font) = true ∧
      countOcc "<body>".toList (wrap_table_fragment t font) = 1) ∧
    (∀ (t : List Char) (font : Option (List Char)) (pos : ℕ),
      ("<!doctype".toList.isPrefixOf (lowerList (pyStrip t)) = true ∨
        "<html".toList.isPrefixOf (lowerList (pyStrip t)) = true) →
      findSub "</head>".toList (lowerList t) = some pos →
      countOcc "<html".toList (fontOverrideStyle (fontCss font)) = 0 →
      countOcc "<body".toList (fontOverrideStyle (fontCss font)) = 0 →
      wrap_table_fragment t font
          = t.take pos ++ fontOverrideStyle (fontCss font) ++ t.drop pos ∧
      countOcc "<html".toList (wrap_table_fragment t font)
          = countOcc "<html".toList t ∧
      countOcc "<body".toList (wrap_table_fragment t font)
          = countOcc "<body".toList t) := by
  constructor
  · intro t font hfrag htb hsb
    have hcond := prefix_conflict hfrag
    have hw : wrap_table_fragment t font
        = FRAG_PRE ++ (fontOverrideStyle (fontCss font)
            ++ (FRAG_MID ++ (t ++ FRAG_POST))) := by
      simp only [wrap_table_fragment, hcond, Bool.false_eq_true, if_false]
      simp [List.append_assoc]
    rw [hw]
    constructor
    · rw [isPrefixOf_iff]
      exact prefix_append_left _ (by decide)
    · rw [countOcc_append _ _ _ (noSpan_left _ _ (by decide) _),
        countOcc_append _ _ _ (by
          rw [fontOverrideStyle_eq]
          exact noSpan_left_of_last _ FOS4 (by decide) (by decide) _ _),
        countOcc_append _ _ _ (noSpan_left _ _ (by decide) _),
        countOcc_append _ _ _ (noSpan_right _ _ (by decide) _),
        hsb, htb]
      decide
  · intro t font pos hdoc hpos hsh hsb
    have hcond : ("<!doctype".toList.isPrefixOf (lowerList (pyStrip t)) ||
        "<html".toList.isPrefixOf (lowerList (pyStrip t))) = true := by
      rw [Bool.or_eq_true]
      exact hdoc
    have hw : wrap_table_fragment t font
        = t.take pos ++ (fontOverrideStyle (fontCss font) ++ t.drop pos) := by
      simp only [wrap_table_fragment, hcond, if_true, hpos]
      simp [List.append_assoc]
    have hhead : ((lowerList t).drop pos).head? = some '<' := by
      have hp := findSub_some_prefix _ _ _ hpos
      have h1 := head?_of_prefix hp (by decide)
      rw [h1]
      rfl
    refine ⟨by rw [hw, List.append_assoc], ?_, ?_⟩
    · rw [hw]
      rw [countOcc_append _ _ _ (by
          rw [fontOverrideStyle_head]
          exact noSpan_right_of_head _ FOS1 (by decide) (by decide) _ _),
        countOcc_append _ _ _ (by
          rw [fontOverrideStyle_eq]
          exact noSpan_left_of_last _ FOS4 (by decide) (by decide) _ _),
        hsh]
      conv_rhs => rw [← List.take_append_drop pos t]
      rw [countOcc_append _ _ _ (noSpan_of_lower_head _ (by decide) t pos hhead)]
      omega
    · rw [hw]
      rw [countOcc_append _ _ _ (by
          rw [fontOverrideStyle_head]
          exact noSpan_right_of_head _ FOS1 (by decide) (by decide) _ _),
        countOcc_append _ _ _ (by
          rw [fontOverrideStyle_eq]
          exact noSpan_left_of_last _ FOS4 (by decide) (by decide) _ _),
        hsb]
      conv_rhs => rw [← List.take_append_drop pos t]
      rw [countOcc_append _ _ _ (noSpan_of_lower_head _ (by decide) t pos hhead)]
      omega

set_option maxRecDepth 8000 in
/-- Witness for C8: a bare `<table></table>` fragment and a full document
`<html><head></head><body></body></html>` (whose `</head>` starts at
index 12), both wrapped with the default font stack. -/
theorem claim_C8_wrapping_witness :
    (("<table".toList.isPrefixOf (lowerList (pyStrip "<table></table>".toList)) = true ∧
      countOcc "<body>".toList "<table></table>".toList = 0 ∧
      countOcc "<body>".toList (fontOverrideStyle (fontCss none)) = 0) ∧
      "<!doctype html>".toList.isPrefixOf
          (wrap_table_fragment "<table></table>".toList none) = true ∧
      countOcc "<body>".toList (wrap_table_fragment "<table></table>".toList none) = 1) ∧
    ((("<!doctype".toList.isPrefixOf
          (lowerList (pyStrip "<html><head></head><body></body></html>".toList)) = true ∨
        "<html".toList.isPrefixOf
          (lowerList (pyStrip "<html><head></head><body></body></html>".toList)) = true) ∧
      findSub "</head>".toList
          (lowerList "<html><head></head><body></body></html>".toList) = some 12 ∧
      countOcc "<html".toList (fontOverrideStyle (fontCss none)) = 0 ∧
      countOcc "<body".toList (fontOverrideStyle (fontCss none)) = 0) ∧
      wrap_table_fragment "<html><head></head><body></body></html>".toList none
          = ("<html><head></head><body></body></html>".toList).take 12 ++
            fontOverrideStyle (fontCss none) ++
            ("<html><head></head><body></body></html>".toList).drop 12 ∧
      countOcc "<html".toList
          (wrap_table_fragment "<html><head></head><body></body></html>".toList none)
        = countOcc "<html".toList "<html><head></head><body></body></html>".toList ∧
      countOcc "<body".toList
          (wrap_table_fragment "<html><head></head><body></body></html>".toList none)
        = countOcc "<body".toList "<html><head></head><body></body></html>".toList) :=
  ⟨⟨⟨by decide, by decide, by decide⟩,
    claim_C8_wrapping.1 "<table></table>".toList none (by decide) (by decide) (by decide)⟩,
   ⟨⟨Or.inr (by decide), by decide, by decide, by decide⟩,
    claim_C8_wrapping.2 "<html><head></head><body></body></html>".toList none 12
      (Or.inr (by decide)) (by decide) (by decide) (by decide)⟩⟩


/-! ## extract_clean_table (extract_table.py): the C6 idempotence development -/


/-- Character references decoded by the model: the five basic named
references (with semicolon).  `html.unescape` knows many more; markup using
them is outside the modelled fragment, which is enough for the idempotence
question because the serializer only ever emits these five. -/
def entStep (rest : List Char) : Option (Char × List Char) :=
  if "lt;".toList.isPrefixOf rest then some ('<', rest.drop 3)
  else if "gt;".toList.isPrefixOf rest then some ('>', rest.drop 3)
  else if "amp;".toList.isPrefixOf rest then some ('&', rest.drop 4)
  else if "quot;".toList.isPrefixOf rest then some ('"', rest.drop 5)
  else if "apos;".toList.isPrefixOf rest then some ('\x27', rest.drop 5)
  else none

def decodeGo : ℕ → List Char → List Char
  | 0, _ => []
  | _ + 1, [] => []
  | fuel + 1, c1 :: rest =>
      if c1 = '&' then
        match entStep rest with
        | some (d, rest2) => d :: decodeGo fuel rest2
        | none => '&' :: decodeGo fuel rest
      else c1 :: decodeGo fuel rest

def decodeEntities (s : List Char) : List Char := decodeGo s.length.succ s

/-- The minimal output formatter of BeautifulSoup: `&`, `<`, `>` escaped. -/
def escChar (c : Char) : List Char :=
  if c = '&' then "&amp;".toList
  else if c = '<' then "&lt;".toList
  else if c = '>' then "&gt;".toList
  else [c]

def escText (s : List Char) : List Char := s.flatMap escChar

/-- Additionally escape `"` (used when an attribute value is double-quoted). -/
def escCharQ (c : Char) : List Char :=
  if c = '"' then "&quot;".toList else escChar c

def escTextQ (s : List Char) : List Char := s.flatMap escCharQ

/-- Tag-name continuation characters, `tagfind_tolerant`:
everything but `\t\n\r\f\x20/>` and NUL. -/
def isTagRest (c : Char) : Bool :=
  !(c = '\t' || c = '\n' || c = '\r' || c = '\x0c' || c = ' ' || c = '/' ||
    c = '>' || c = '\x00')

def isAsciiLetter (c : Char) : Bool :=
  ('a' ≤ c && c ≤ 'z') || ('A' ≤ c && c ≤ 'Z')

/-- First character of an attribute name: `[^\s/>]`. -/
def isAttrNameFirst (c : Char) : Bool :=
  !(isPySpace c || c = '/' || c = '>')

/-- Continuation of an attribute name: `[^\s/=>]`. -/
def isAttrNameRest (c : Char) : Bool :=
  !(isPySpace c || c = '/' || c = '=' || c = '>')

/-- One parser token. -/
inductive Tok where
  | text (s : List Char)
  | open_ (tag : List Char) (attrs : List (List Char × Option (List Char)))
      (selfClosing : Bool)
  | close (tag : List Char)
  | comment (s : List Char)
  | decl (s : List Char)
  deriving Repr, DecidableEq

/-- Split at the first occurrence of `pat`, returning the part before and
the part after the occurrence. -/
def splitOnSub (pat : List Char) : List Char → Option (List Char × List Char)
  | [] => if pat.isPrefixOf ([] : List Char) then some ([], []) else none
  | c :: rest =>
      if pat.isPrefixOf (c :: rest) then some ([], (c :: rest).drop pat.length)
      else (splitOnSub pat rest).map (fun p => (c :: p.1, p.2))

/-- Skip attribute separators: whitespace and `/` not followed by `>`. -/
def skipSep : List Char → List Char
  | [] => []
  | c :: rest =>
      if isPySpace c then skipSep rest
      else if c = '/' && rest.head? ≠ some '>' then skipSep rest
      else c :: rest

/-- Parse the attribute list of a start tag (after the tag name), returning
the attributes, the self-closing flag and the remaining input after `>`. -/
def attrLoop : ℕ → List Char → List (List Char × Option (List Char)) →
    Option (List (List Char × Option (List Char)) × Bool × List Char)
  | 0, _, _ => none
  | fuel + 1, s, acc =>
      match skipSep s with
      | [] => none
      | c :: rest =>
          if c = '>' then some (acc.reverse, false, rest)
          else if c = '/' && rest.head? = some '>' then
            some (acc.reverse, true, rest.tail)
          else if isAttrNameFirst c then
            let name := c :: rest.takeWhile isAttrNameRest
            let rest1 := rest.drop (rest.takeWhile isAttrNameRest).length
            let rest2 := rest1.dropWhile isPySpace
            match rest2 with
            | d :: rest3 =>
                if d = '=' then
                  let rest4 := (rest3.dropWhile (· = '=')).dropWhile isPySpace
                  match rest4 with
                  | q :: rest5 =>
                      if q = '\x27' || q = '"' then
                        let v := rest5.takeWhile (· ≠ q)
                        match rest5.drop v.length with
                        | _ :: rest6 =>
                            attrLoop fuel rest6
                              ((lowerList name, some (decodeEntities v)) :: acc)
                        | [] => none
                      else
                        let v := rest4.takeWhile (fun c => !(isPySpace c || c = '>'))
                        attrLoop fuel (rest4.drop v.length)
                          ((lowerList name, some (decodeEntities v)) :: acc)
                  | [] =>
                      attrLoop fuel rest4
                        ((lowerList name, some (decodeEntities [])) :: acc)
                else
                  attrLoop fuel rest2 ((lowerList name, none) :: acc)
            | [] =>
                attrLoop fuel rest2 ((lowerList name, none) :: acc)
          else none

def flushText (acc : List Char) (toks : List Tok) : List Tok :=
  if acc = [] then toks else Tok.text (decodeEntities acc.reverse) :: toks

/-- Take characters up to (not including) the first `>`; also return the
rest after the `>`.  `none` when there is no `>`. -/
def upToGt : List Char → Option (List Char × List Char)
  | [] => none
  | c :: rest =>
      if c = '>' then some ([], rest)
      else (upToGt rest).map (fun p => (c :: p.1, p.2))

/-- The tokenizer: a model of `html.parser` (with `convert_charrefs=True`)
on a well-formed fragment of HTML; constructs outside the fragment
(processing instructions, marked sections, `script` and `style` start tags,
whose content the real parser reads in CDATA mode, unterminated constructs,
malformed start tags) yield `none`.
`acc` holds the pending text run, reversed. -/
def tokGo : ℕ → List Char → List Char → Option (List Tok)
  | 0, _, _ => none
  | _ + 1, [], acc => some (flushText acc [])
  | fuel + 1, c :: rest, acc =>
      if c = '<' then
        if "!--".toList.isPrefixOf rest then
          match splitOnSub "-->".toList (rest.drop 3) with
          | none => none
          | some (content, rest2) =>
              (tokGo fuel rest2 []).map
                (fun ts => flushText acc (Tok.comment content :: ts))
        else
          match rest with
          | [] => some (flushText ('<' :: acc) [])
          | c2 :: rest2 =>
              if c2 = '!' then
                if rest2.head? = some '[' then none
                else if "doctype".toList.isPrefixOf (lowerList (rest2.take 7)) then
                  match upToGt rest2 with
                  | none => none
                  | some (content, rest3) =>
                      (tokGo fuel rest3 []).map
                        (fun ts => flushText acc (Tok.decl content :: ts))
                else
                  match upToGt rest2 with
                  | none => none
                  | some (content, rest3) =>
                      (tokGo fuel rest3 []).map
                        (fun ts => flushText acc (Tok.comment content :: ts))
              else if c2 = '/' then
                match rest2 with
                | [] => none
                | c3 :: rest3 =>
                    if c3 = '>' then tokGo fuel rest3 acc
                    else if isAsciiLetter c3 then
                      let name := c3 :: rest3.takeWhile isTagRest
                      match upToGt (rest3.drop (rest3.takeWhile isTagRest).length) with
                      | none => none
                      | some (_, rest4) =>
                          (tokGo fuel rest4 []).map
                            (fun ts => flushText acc (Tok.close (lowerList name) :: ts))
                    else
                      match upToGt rest2 with
                      | none => none
                      | some (content, rest4) =>
                          (tokGo fuel rest4 []).map
                            (fun ts =>
                              flushText acc (Tok.comment ('/' :: content) :: ts))
              else if c2 = '?' then none
              else if isAsciiLetter c2 then
                let name := c2 :: rest2.takeWhile isTagRest
                let rest3 := rest2.drop (rest2.takeWhile isTagRest).length
                if lowerList name = "script".toList ∨ lowerList name = "style".toList then
                  none
                else
                  match attrLoop rest3.length.succ rest3 [] with
                  | none => none
                  | some (attrs, selfClosing, rest4) =>
                      (tokGo fuel rest4 []).map
                        (fun ts =>
                          flushText acc
                            (Tok.open_ (lowerList name) attrs selfClosing :: ts))
              else tokGo fuel rest ('<' :: acc)
      else tokGo fuel rest (c :: acc)

def tokenize (s : List Char) : Option (List Tok) :=
  tokGo (s.length + 1) s []

mutual
inductive HtmlNode where
  | elem (tag : List Char) (attrs : List (List Char × Option (List Char)))
      (children : NodeL)
  | text (s : List Char)
  | comment (s : List Char)
  | decl (s : List Char)

/-- A list of sibling nodes; a type of its own, mutual with `HtmlNode`, so
that recursion through the children of an element is structural. -/
inductive NodeL where
  | nil
  | cons (n : HtmlNode) (rest : NodeL)
end

def ofList : List HtmlNode → NodeL
  | [] => NodeL.nil
  | n :: rest => NodeL.cons n (ofList rest)

def appendNL : NodeL → NodeL → NodeL
  | NodeL.nil, ys => ys
  | NodeL.cons x xs, ys => NodeL.cons x (appendNL xs ys)

def isNilNL : NodeL → Bool
  | NodeL.nil => true
  | NodeL.cons _ _ => false

/-- The empty-element (void) tags of BeautifulSoup's HTML tree builder. -/
def voidTags : List (List Char) :=
  ["area".toList, "base".toList, "basefont".toList, "bgsound".toList,
   "br".toList, "col".toList, "command".toList, "embed".toList,
   "frame".toList, "hr".toList, "image".toList, "img".toList,
   "input".toList, "isindex".toList, "keygen".toList, "link".toList,
   "menuitem".toList, "meta".toList, "nextid".toList, "param".toList,
   "source".toList, "spacer".toList, "track".toList, "wbr".toList]

/-- Insert an attribute, replacing the value of an existing name
(the default duplicate-attribute policy of the html.parser tree builder). -/
def insertAttr (attrs : List (List Char × Option (List Char)))
    (a : List Char × Option (List Char)) : List (List Char × Option (List Char)) :=
  if attrs.any (fun b => b.1 = a.1) then
    attrs.map (fun b => if b.1 = a.1 then (b.1, a.2) else b)
  else attrs ++ [a]

def dedupAttrs (attrs : List (List Char × Option (List Char))) :
    List (List Char × Option (List Char)) :=
  attrs.foldl insertAttr []

/-- One open element on the builder stack: tag, attributes, and the
children collected so far (in reverse order). -/
abbrev Frame := List Char × List (List Char × Option (List Char)) × List HtmlNode

/-- Attach a finished node: to the innermost open element, or to the
top-level accumulator when the stack is empty. -/
def attach (n : HtmlNode) : List Frame → List HtmlNode → List Frame × List HtmlNode
  | [], top => ([], n :: top)
  | (t, a, cs) :: stack, top => ((t, a, n :: cs) :: stack, top)

/-- Close open elements up to and including the innermost one named `name`
(`BeautifulSoup._popToTag`); `p` is the already-closed node waiting to be
attached to the next frame.  The caller checks that a matching frame exists. -/
def popGo (name : List Char) (p : HtmlNode) :
    List Frame → List HtmlNode → List Frame × List HtmlNode
  | [], top => ([], p :: top)
  | (t, a, cs) :: stack, top =>
      let node := HtmlNode.elem t a (ofList (p :: cs).reverse)
      if t = name then attach node stack top
      else popGo name node stack top

def popToTag (name : List Char) : List Frame → List HtmlNode → List Frame × List HtmlNode
  | [], top => ([], top)
  | (t, a, cs) :: stack, top =>
      let node := HtmlNode.elem t a (ofList cs.reverse)
      if t = name then attach node stack top
      else popGo name node stack top

def closeAllGo (p : HtmlNode) : List Frame → List HtmlNode → List HtmlNode
  | [], top => p :: top
  | (t, a, cs) :: stack, top => closeAllGo (HtmlNode.elem t a (ofList (p :: cs).reverse)) stack top

def closeAll : List Frame → List HtmlNode → List HtmlNode
  | [], top => top
  | (t, a, cs) :: stack, top => closeAllGo (HtmlNode.elem t a (ofList cs.reverse)) stack top

/-- `value or \x27\x27` (`BeautifulSoupHTMLParser.handle_starttag`): a bare
attribute gets the empty string as its value. -/
def fixAttrVals (attrs : List (List Char × Option (List Char))) :
    List (List Char × Option (List Char)) :=
  attrs.map (fun a => (a.1, some (a.2.getD [])))

/-- The tree builder: a model of BeautifulSoup's HTMLParserTreeBuilder.
End tags with no matching open element are ignored; elements left open at
the end of input are closed. -/
def buildGo : List Tok → List Frame → List HtmlNode → List HtmlNode
  | [], stack, top => (closeAll stack top).reverse
  | Tok.text s :: toks, stack, top =>
      match attach (HtmlNode.text s) stack top with
      | (stack2, top2) => buildGo toks stack2 top2
  | Tok.comment s :: toks, stack, top =>
      match attach (HtmlNode.comment s) stack top with
      | (stack2, top2) => buildGo toks stack2 top2
  | Tok.decl s :: toks, stack, top =>
      match attach (HtmlNode.decl s) stack top with
      | (stack2, top2) => buildGo toks stack2 top2
  | Tok.open_ t attrs selfClosing :: toks, stack, top =>
      if selfClosing || voidTags.contains t then
        match attach (HtmlNode.elem t (dedupAttrs (fixAttrVals attrs)) NodeL.nil) stack top with
        | (stack2, top2) => buildGo toks stack2 top2
      else
        buildGo toks ((t, dedupAttrs (fixAttrVals attrs), []) :: stack) top
  | Tok.close t :: toks, stack, top =>
      if stack.any (fun f => f.1 = t) then
        match popToTag t stack top with
        | (stack2, top2) => buildGo toks stack2 top2
      else
        buildGo toks stack top

def parseHtml (s : List Char) : Option (List HtmlNode) :=
  (tokenize s).map (fun toks => buildGo toks [] [])

/-- `soup.find("table")`: the first `table` element in document order. -/
def orO (a b : Option HtmlNode) : Option HtmlNode :=
  match a with
  | some n => some n
  | none => b

mutual
def findTableN : HtmlNode → Option HtmlNode
  | HtmlNode.elem t a cs =>
      if t = "table".toList then some (HtmlNode.elem t a cs)
      else findTableC cs
  | _ => none

def findTableC : NodeL → Option HtmlNode
  | NodeL.nil => none
  | NodeL.cons n rest => orO (findTableN n) (findTableC rest)
end

def findTableL : List HtmlNode → Option HtmlNode
  | [] => none
  | n :: rest => orO (findTableN n) (findTableL rest)

def STYLE_ATTRIBUTES : List (List Char) :=
  ["style".toList, "class".toList, "id".toList, "align".toList,
   "valign".toList, "width".toList, "height".toList, "bgcolor".toList,
   "border".toList, "cellpadding".toList, "cellspacing".toList]

/-- The inline presentational tags unwrapped by `extract_clean_table`. -/
def styleTags : List (List Char) :=
  ["strong".toList, "b".toList, "i".toList, "em".toList, "u".toList,
   "span".toList, "font".toList, "mark".toList, "small".toList,
   "big".toList, "sub".toList, "sup".toList, "s".toList, "strike".toList,
   "del".toList, "ins".toList, "abbr".toList, "cite".toList,
   "code".toList, "kbd".toList, "samp".toList, "var".toList]

def filterAttrs (attrs : List (List Char × Option (List Char))) :
    List (List Char × Option (List Char)) :=
  attrs.filter (fun a => !(STYLE_ATTRIBUTES.contains a.1))

/-- Delete the listed style attributes from every element. -/
def removeAttrsF : NodeL → NodeL
  | NodeL.nil => NodeL.nil
  | NodeL.cons (HtmlNode.elem t a cs) rest =>
      NodeL.cons (HtmlNode.elem t (filterAttrs a) (removeAttrsF cs)) (removeAttrsF rest)
  | NodeL.cons n rest => NodeL.cons n (removeAttrsF rest)

/-- `decompose()` every element with the given tag. -/
def dropTagF (name : List Char) : NodeL → NodeL
  | NodeL.nil => NodeL.nil
  | NodeL.cons (HtmlNode.elem t a cs) rest =>
      if t = name then dropTagF name rest
      else NodeL.cons (HtmlNode.elem t a (dropTagF name cs)) (dropTagF name rest)
  | NodeL.cons n rest => NodeL.cons n (dropTagF name rest)

/-- `unwrap()` every element whose tag is in the list: the element is
removed and its children take its place. -/
def unwrapF (names : List (List Char)) : NodeL → NodeL
  | NodeL.nil => NodeL.nil
  | NodeL.cons (HtmlNode.elem t a cs) rest =>
      if names.contains t then appendNL (unwrapF names cs) (unwrapF names rest)
      else NodeL.cons (HtmlNode.elem t a (unwrapF names cs)) (unwrapF names rest)
  | NodeL.cons n rest => NodeL.cons n (unwrapF names rest)

/-- `extract()` every comment node. -/
def dropCommentsF : NodeL → NodeL
  | NodeL.nil => NodeL.nil
  | NodeL.cons (HtmlNode.elem t a cs) rest =>
      NodeL.cons (HtmlNode.elem t a (dropCommentsF cs)) (dropCommentsF rest)
  | NodeL.cons (HtmlNode.comment _) rest => dropCommentsF rest
  | NodeL.cons n rest => NodeL.cons n (dropCommentsF rest)

/-- `re.sub(r"\s+", " ", text)`: collapse every whitespace run to one space. -/
def collapseWs : List Char → List Char
  | [] => []
  | [c] => if isPySpace c then [' '] else [c]
  | c1 :: c2 :: rest =>
      if isPySpace c1 && isPySpace c2 then collapseWs (c2 :: rest)
      else (if isPySpace c1 then ' ' else c1) :: collapseWs (c2 :: rest)

/-- `normalize_text` of extract_table.py. -/
def normalize_text (s : List Char) : List Char := pyStrip (collapseWs s)

/-- The text-normalization pass: every string node (plain text, and a
stray doctype, which BeautifulSoup also treats as a `NavigableString` and
replaces with plain text) is normalized, empty results are removed. -/
def cleanTextsF : NodeL → NodeL
  | NodeL.nil => NodeL.nil
  | NodeL.cons (HtmlNode.elem t a cs) rest =>
      NodeL.cons (HtmlNode.elem t a (cleanTextsF cs)) (cleanTextsF rest)
  | NodeL.cons (HtmlNode.text s) rest =>
      if normalize_text s = [] then cleanTextsF rest
      else NodeL.cons (HtmlNode.text (normalize_text s)) (cleanTextsF rest)
  | NodeL.cons (HtmlNode.decl s) rest =>
      if normalize_text s = [] then cleanTextsF rest
      else NodeL.cons (HtmlNode.text (normalize_text s)) (cleanTextsF rest)
  | NodeL.cons n rest => NodeL.cons n (cleanTextsF rest)

/-- All tree-rewriting passes of `extract_clean_table`, in source order,
applied to the children of the table element (and the attribute pass to
the table itself). -/
def cleanChildren (cs : NodeL) : NodeL :=
  cleanTextsF (dropCommentsF (unwrapF styleTags (dropTagF "caption".toList
    (unwrapF ["thead".toList, "tbody".toList, "tfoot".toList]
      (dropTagF "br".toList (dropTagF "style".toList (removeAttrsF cs)))))))

def cleanTable : HtmlNode → HtmlNode
  | HtmlNode.elem t a cs => HtmlNode.elem t (filterAttrs a) (cleanChildren cs)
  | n => n

/-- Lexicographic comparison of attribute names (Python `sorted`). -/
def listLe (a b : List Char) : Bool :=
  match a, b with
  | [], _ => true
  | _ :: _, [] => false
  | c :: a2, d :: b2 => if c = d then listLe a2 b2 else decide (c < d)

def insSorted (x : List Char × Option (List Char)) :
    List (List Char × Option (List Char)) → List (List Char × Option (List Char))
  | [] => [x]
  | y :: ys => if listLe x.1 y.1 then x :: y :: ys else y :: insSorted x ys

/-- Python `sorted` on the attribute items (stable; names are distinct, so
any correct sort gives the same list). -/
def sortAttrs (attrs : List (List Char × Option (List Char))) :
    List (List Char × Option (List Char)) :=
  attrs.foldr insSorted []

/-- `EntitySubstitution.quoted_attribute_value` over the escaped value. -/
def quoteAttr (v : List Char) : List Char :=
  let vq := escText v
  if vq.contains '"' && !(vq.contains '\x27') then '\x27' :: (vq ++ ['\x27'])
  else '"' :: (escTextQ v ++ ['"'])

def serializeAttrs (attrs : List (List Char × Option (List Char))) : List Char :=
  (sortAttrs attrs).flatMap (fun a =>
    ' ' :: (a.1 ++ match a.2 with
      | none => []
      | some v => '=' :: quoteAttr v))

/-- `str(tag)` with the minimal formatter. -/
def serializeF : NodeL → List Char
  | NodeL.nil => []
  | NodeL.cons (HtmlNode.elem t a cs) rest =>
      (if voidTags.contains t && isNilNL cs then
        '<' :: (t ++ serializeAttrs a ++ "/>".toList)
      else
        '<' :: (t ++ serializeAttrs a ++ ">".toList ++ serializeF cs
          ++ "</".toList ++ t ++ ">".toList))
      ++ serializeF rest
  | NodeL.cons (HtmlNode.text s) rest => escText s ++ serializeF rest
  | NodeL.cons (HtmlNode.comment s) rest =>
      "<!--".toList ++ s ++ "-->".toList ++ serializeF rest
  | NodeL.cons (HtmlNode.decl s) rest =>
      "<!".toList ++ s ++ ">".toList ++ serializeF rest

def serializeNode (n : HtmlNode) : List Char := serializeF (NodeL.cons n NodeL.nil)

/-- The loop of `remove_whitespace`: `re.sub(r">\s+<", "><", html)`. -/
def rmWsF : ℕ → List Char → List Char
  | 0, s => s
  | _ + 1, [] => []
  | fuel + 1, c :: rest =>
      if c = '>' then
        let ws := rest.takeWhile isPySpace
        if ws ≠ [] && (rest.drop ws.length).head? = some '<' then
          '>' :: rmWsF fuel (rest.drop ws.length)
        else '>' :: rmWsF fuel rest
      else c :: rmWsF fuel rest

/-- `remove_whitespace` of extract_table.py. -/
def remove_whitespace (s : List Char) : List Char :=
  pyStrip (rmWsF s.length s)

/-- `extract_clean_table` of extract_table.py: parse, locate the first
table, rewrite it, serialize, strip inter-tag whitespace.  `none` when no
table is present or the markup falls outside the modelled fragment. -/
def extract_clean_table (s : List Char) : Option (List Char) :=
  match parseHtml s with
  | none => none
  | some forest =>
      match findTableL forest with
      | none => none
      | some tbl => some (remove_whitespace (serializeNode (cleanTable tbl)))

-- ## Definitions used by the verification (not part of the modelled source)

def toListNL : NodeL → List HtmlNode
  | NodeL.nil => []
  | NodeL.cons n rest => n :: toListNL rest

def isText : HtmlNode → Bool
  | HtmlNode.text _ => true
  | _ => false

def headIsText : NodeL → Bool
  | NodeL.nil => false
  | NodeL.cons n _ => isText n

/-- A tag name as produced by the tokenizer: nonempty, a lower-case ASCII
letter first, tag-name characters after it, everything lower case. -/
def tagOk : List Char → Prop
  | [] => False
  | c :: rest =>
      isAsciiLetter c = true ∧ Char.toLower c = c ∧
      ∀ d ∈ rest, isTagRest d = true ∧ Char.toLower d = d

/-- An attribute name as produced by the tokenizer: nonempty, lower case,
an attribute-name character in every position. -/
def attrNameOk : List Char → Prop
  | [] => False
  | c :: rest =>
      isAttrNameFirst c = true ∧ Char.toLower c = c ∧
      ∀ d ∈ rest, isAttrNameRest d = true ∧ Char.toLower d = d

/-- An attribute as stored in the tree: a well-formed name and a present
(`some`) value. -/
def attrOk (x : List Char × Option (List Char)) : Prop :=
  attrNameOk x.1 ∧ ∃ v, x.2 = some v

def attrsOk (l : List (List Char × Option (List Char))) : Prop :=
  (∀ x ∈ l, attrOk x) ∧ (l.map Prod.fst).Nodup

def attrsSorted (l : List (List Char × Option (List Char))) : Prop :=
  List.Chain' (fun x y => listLe x.1 y.1 = true) l

/-- A normalized text: any whitespace is a single ASCII space with
non-whitespace on both sides. -/
def isNormed (s : List Char) : Prop :=
  (∀ c ∈ s, isPySpace c = true → c = ' ') ∧
  List.Chain' (fun a b => ¬(isPySpace a = true ∧ isPySpace b = true)) s ∧
  (∀ c, s.head? = some c → isPySpace c = false) ∧
  (∀ c, s.getLast? = some c → isPySpace c = false)

/-- The flags of the tree predicate `goodN`/`goodC`: which cleaning passes
have already run. -/
structure TreeP where
  attrsClean : Bool
  noTags : List (List Char)
  noComment : Bool
  textNormed : Bool
  noDecl : Bool

def elemOkP (p : TreeP) (t : List Char)
    (a : List (List Char × Option (List Char))) (cs : NodeL) : Prop :=
  tagOk t ∧ attrsOk a ∧
  (p.attrsClean = true → ∀ x ∈ a, x.1 ∉ STYLE_ATTRIBUTES) ∧
  t ∉ p.noTags ∧ (voidTags.contains t = true → cs = NodeL.nil)

mutual
def goodN (p : TreeP) : HtmlNode → Prop
  | HtmlNode.elem t a cs => elemOkP p t a cs ∧ goodC p cs
  | HtmlNode.text s => p.textNormed = true → (isNormed s ∧ s ≠ [])
  | HtmlNode.comment _ => p.noComment = false
  | HtmlNode.decl _ => p.noDecl = false

def goodC (p : TreeP) : NodeL → Prop
  | NodeL.nil => True
  | NodeL.cons n rest => goodN p n ∧ goodC p rest
end

/-- The flags after parsing: `script` and `style` start tags are rejected
by the tokenizer, nothing else is guaranteed. -/
def parsedP : TreeP :=
  ⟨false, ["script".toList, "style".toList], false, false, false⟩

/-- The flags after all cleaning passes of `extract_clean_table`. -/
def cleanedP : TreeP :=
  ⟨true,
   styleTags ++ ["caption".toList, "thead".toList, "tbody".toList,
     "tfoot".toList, "br".toList, "script".toList, "style".toList],
   true, true, true⟩

mutual
def sortedN : HtmlNode → Prop
  | HtmlNode.elem _ a cs => attrsSorted a ∧ sortedC cs
  | _ => True

def sortedC : NodeL → Prop
  | NodeL.nil => True
  | NodeL.cons n rest => sortedN n ∧ sortedC rest
end

mutual
def noAdjN : HtmlNode → Prop
  | HtmlNode.elem _ _ cs => noAdjC cs
  | _ => True

def noAdjC : NodeL → Prop
  | NodeL.nil => True
  | NodeL.cons n rest =>
      noAdjN n ∧ noAdjC rest ∧ (isText n = true → headIsText rest = false)
end

mutual
/-- The canonical form the second parse produces from the serialization of
a clean tree: attributes sorted, adjacent text nodes merged. -/
def canonN : HtmlNode → HtmlNode
  | HtmlNode.elem t a cs => HtmlNode.elem t (sortAttrs a) (canonC cs)
  | n => n

def canonC : NodeL → NodeL
  | NodeL.nil => NodeL.nil
  | NodeL.cons (HtmlNode.text s) rest => mergeT s rest
  | NodeL.cons n rest => NodeL.cons (canonN n) (canonC rest)

def mergeT (s : List Char) : NodeL → NodeL
  | NodeL.nil => NodeL.cons (HtmlNode.text s) NodeL.nil
  | NodeL.cons (HtmlNode.text s2) rest => mergeT (s ++ s2) rest
  | NodeL.cons n rest =>
      NodeL.cons (HtmlNode.text s) (NodeL.cons (canonN n) (canonC rest))
end

mutual
/-- The token list that the serialization of a clean tree scans back to. -/
def toksN : HtmlNode → List Tok
  | HtmlNode.elem t a cs =>
      if voidTags.contains t && isNilNL cs then [Tok.open_ t a true]
      else Tok.open_ t a false :: (toksC cs ++ [Tok.close t])
  | HtmlNode.text s => [Tok.text s]
  | HtmlNode.comment s => [Tok.comment s]
  | HtmlNode.decl s => [Tok.decl s]

def toksC : NodeL → List Tok
  | NodeL.nil => []
  | NodeL.cons n rest => toksN n ++ toksC rest
end

/-- What the tokenizer guarantees about a token. -/
def tokOk : Tok → Prop
  | Tok.open_ t attrs _ =>
      tagOk t ∧ t ≠ "script".toList ∧ t ≠ "style".toList ∧
      ∀ x ∈ attrs, attrNameOk x.1
  | _ => True

/-- What the builder maintains about an open frame. -/
def frameOk (f : Frame) : Prop :=
  tagOk f.1 ∧ f.1 ≠ "script".toList ∧ f.1 ≠ "style".toList ∧
  voidTags.contains f.1 = false ∧ attrsOk f.2.1 ∧
  ∀ n ∈ f.2.2, goodN parsedP n

/-- One serialized attribute (the body of the `flatMap` in `serializeAttrs`). -/
def serAttr1 (x : List Char × Option (List Char)) : List Char :=
  ' ' :: (x.1 ++ match x.2 with
    | none => []
    | some v => '=' :: quoteAttr v)

/-- Attach each node of a list in order (the builder's effect on a run of
already-finished nodes). -/
def addAll : NodeL → List Frame → List HtmlNode → List Frame × List HtmlNode
  | NodeL.nil, stack, top => (stack, top)
  | NodeL.cons n rest, stack, top =>
      match attach n stack top with
      | (s2, t2) => addAll rest s2 t2
-- ## Character-level lemmas

theorem toNat_ofNat_valid (n : Nat) (hv : n.isValidChar) : (Char.ofNat n).toNat = n := by
  rw [Char.ofNat, dif_pos hv]
  rfl

theorem char_le_iff_toNat_le {a b : Char} : a ≤ b ↔ a.toNat ≤ b.toNat := Iff.rfl

theorem char_eq_iff_toNat_eq (c d : Char) : c = d ↔ c.toNat = d.toNat := by
  constructor
  · exact fun h => h ▸ rfl
  · intro h
    have h2 := congrArg Char.ofNat h
    rwa [Char.ofNat_toNat, Char.ofNat_toNat] at h2

theorem toLower_toLower (c : Char) : Char.toLower (Char.toLower c) = Char.toLower c := by
  unfold Char.toLower
  dsimp only
  by_cases h : c.toNat ≥ 65 ∧ c.toNat ≤ 90
  · rw [if_pos h]
    have hv : (c.toNat + 32).isValidChar := Or.inl (by omega)
    rw [toNat_ofNat_valid _ hv]
    rw [if_neg (by omega)]
  · rw [if_neg h, if_neg h]

theorem toLower_cases (c : Char) :
    (¬(65 ≤ c.toNat ∧ c.toNat ≤ 90) ∧ Char.toLower c = c) ∨
    ((Char.toLower c).toNat = c.toNat + 32 ∧ 65 ≤ c.toNat ∧ c.toNat ≤ 90) := by
  unfold Char.toLower
  dsimp only
  by_cases h : c.toNat ≥ 65 ∧ c.toNat ≤ 90
  · right
    rw [if_pos h]
    have hv : (c.toNat + 32).isValidChar := Or.inl (by omega)
    exact ⟨toNat_ofNat_valid _ hv, h.1, h.2⟩
  · left
    exact ⟨h, by rw [if_neg h]⟩

theorem isPySpace_toNat {c : Char} (h : isPySpace c = true) :
    c.toNat = 32 ∨ c.toNat = 9 ∨ c.toNat = 10 ∨ c.toNat = 13 ∨ c.toNat = 11 ∨
    c.toNat = 12 ∨ c.toNat = 28 ∨ c.toNat = 29 ∨ c.toNat = 30 ∨ c.toNat = 31 ∨
    c.toNat = 133 ∨ c.toNat = 160 ∨ c.toNat = 5760 ∨
    (8192 ≤ c.toNat ∧ c.toNat ≤ 8202) ∨ c.toNat = 8232 ∨ c.toNat = 8233 ∨
    c.toNat = 8239 ∨ c.toNat = 8287 ∨ c.toNat = 12288 := by
  simp only [isPySpace, Bool.or_eq_true, decide_eq_true_eq, Bool.and_eq_true,
    char_eq_iff_toNat_eq, char_le_iff_toNat_le, Char.reduceToNat] at h
  omega

theorem not_isPySpace_of_range {c : Char} (h1 : 33 ≤ c.toNat) (h2 : c.toNat ≤ 122) :
    isPySpace c = false := by
  cases hps : isPySpace c with
  | false => rfl
  | true => have := isPySpace_toNat hps; omega

theorem isPySpace_space : isPySpace ' ' = true := by decide

theorem isAsciiLetter_toNat {c : Char} (h : isAsciiLetter c = true) :
    (97 ≤ c.toNat ∧ c.toNat ≤ 122) ∨ (65 ≤ c.toNat ∧ c.toNat ≤ 90) := by
  simp only [isAsciiLetter, Bool.or_eq_true, Bool.and_eq_true, decide_eq_true_eq,
    char_le_iff_toNat_le, Char.reduceToNat] at h
  omega

theorem isAsciiLetter_of_range {c : Char} (h1 : 97 ≤ c.toNat) (h2 : c.toNat ≤ 122) :
    isAsciiLetter c = true := by
  simp only [isAsciiLetter, Bool.or_eq_true, Bool.and_eq_true, decide_eq_true_eq,
    char_le_iff_toNat_le, Char.reduceToNat]
  omega

theorem isTagRest_of_range {c : Char} (h1 : 97 ≤ c.toNat) (h2 : c.toNat ≤ 122) :
    isTagRest c = true := by
  simp only [isTagRest, Bool.not_eq_true', Bool.or_eq_false_iff,
    decide_eq_false_iff_not, char_eq_iff_toNat_eq, Char.reduceToNat]
  omega

theorem isAttrNameFirst_of_range {c : Char} (h1 : 97 ≤ c.toNat) (h2 : c.toNat ≤ 122) :
    isAttrNameFirst c = true := by
  simp only [isAttrNameFirst, Bool.not_eq_true', Bool.or_eq_false_iff,
    decide_eq_false_iff_not, char_eq_iff_toNat_eq, Char.reduceToNat]
  exact ⟨⟨not_isPySpace_of_range (by omega) h2, by omega⟩, by omega⟩

theorem isAttrNameRest_of_range {c : Char} (h1 : 97 ≤ c.toNat) (h2 : c.toNat ≤ 122) :
    isAttrNameRest c = true := by
  simp only [isAttrNameRest, Bool.not_eq_true', Bool.or_eq_false_iff,
    decide_eq_false_iff_not, char_eq_iff_toNat_eq, Char.reduceToNat]
  exact ⟨⟨⟨not_isPySpace_of_range (by omega) h2, by omega⟩, by omega⟩, by omega⟩

theorem isAsciiLetter_toLower {c : Char} (h : isAsciiLetter c = true) :
    isAsciiLetter (Char.toLower c) = true := by
  rcases toLower_cases c with ⟨_, hc⟩ | ⟨he, h1, h2⟩
  · rwa [hc]
  · exact isAsciiLetter_of_range (by omega) (by omega)

theorem isTagRest_toLower {c : Char} (h : isTagRest c = true) :
    isTagRest (Char.toLower c) = true := by
  rcases toLower_cases c with ⟨_, hc⟩ | ⟨he, h1, h2⟩
  · rwa [hc]
  · exact isTagRest_of_range (by omega) (by omega)

theorem isAttrNameFirst_toLower {c : Char} (h : isAttrNameFirst c = true) :
    isAttrNameFirst (Char.toLower c) = true := by
  rcases toLower_cases c with ⟨_, hc⟩ | ⟨he, h1, h2⟩
  · rwa [hc]
  · exact isAttrNameFirst_of_range (by omega) (by omega)

theorem isAttrNameRest_toLower {c : Char} (h : isAttrNameRest c = true) :
    isAttrNameRest (Char.toLower c) = true := by
  rcases toLower_cases c with ⟨_, hc⟩ | ⟨he, h1, h2⟩
  · rwa [hc]
  · exact isAttrNameRest_of_range (by omega) (by omega)

theorem lower_letter_range {c : Char} (hl : isAsciiLetter c = true)
    (hf : Char.toLower c = c) : 97 ≤ c.toNat ∧ c.toNat ≤ 122 := by
  rcases toLower_cases c with ⟨hr, _⟩ | ⟨he, h1, h2⟩
  · rcases isAsciiLetter_toNat hl with h | h
    · exact h
    · omega
  · exfalso
    rw [hf] at he
    omega

theorem lowerList_idem (s : List Char) : lowerList (lowerList s) = lowerList s := by
  simp only [lowerList, List.map_map]
  exact List.map_congr_left fun c _ => toLower_toLower c

-- ## Entity escaping and decoding

theorem entStep_some_length {rest : List Char} {d : Char} {r2 : List Char}
    (h : entStep rest = some (d, r2)) : r2.length ≤ rest.length := by
  unfold entStep at h
  split_ifs at h <;>
    (injection h with h2; cases h2; simp [List.length_drop])

theorem decodeGo_congr : ∀ f1 : ℕ, ∀ f2 : ℕ, ∀ s : List Char,
    s.length < f1 → s.length < f2 → decodeGo f1 s = decodeGo f2 s := by
  intro f1
  induction f1 with
  | zero => intro f2 s h1 _; omega
  | succ n ih =>
    intro f2 s h1 h2
    cases f2 with
    | zero => omega
    | succ m =>
      cases s with
      | nil => rfl
      | cons c rest =>
        simp only [decodeGo]
        by_cases hc : c = '&'
        · rw [if_pos hc, if_pos hc]
          cases he : entStep rest with
          | none =>
            dsimp only
            simp only [List.length_cons] at h1 h2
            rw [ih m rest (by omega) (by omega)]
          | some p =>
            obtain ⟨d, r2⟩ := p
            have hl := entStep_some_length he
            dsimp only
            simp only [List.length_cons] at h1 h2
            rw [ih m r2 (by omega) (by omega)]
        · rw [if_neg hc, if_neg hc]
          simp only [List.length_cons] at h1 h2
          rw [ih m rest (by omega) (by omega)]

theorem decodeGo_escText (s r : List Char) : ∀ fuel : ℕ,
    (escText s ++ r).length < fuel →
    decodeGo fuel (escText s ++ r) = s ++ decodeGo (r.length + 1) r := by
  induction s with
  | nil =>
    intro fuel h
    simp only [escText, List.flatMap_nil, List.nil_append] at h ⊢
    exact decodeGo_congr fuel (r.length + 1) r h (by omega)
  | cons c s2 ih =>
    intro fuel h
    have hesc : escText (c :: s2) = escChar c ++ escText s2 := by
      simp [escText, List.flatMap_cons]
    rw [hesc, List.append_assoc] at h ⊢
    by_cases hamp : c = '&'
    · subst hamp
      rw [show escChar '&' = ['&', 'a', 'm', 'p', ';'] from by decide] at h ⊢
      simp only [List.cons_append, List.nil_append, List.length_cons] at h ⊢
      cases fuel with
      | zero => omega
      | succ n =>
        rw [decodeGo, if_pos rfl,
          show entStep ('a' :: 'm' :: 'p' :: ';' :: (escText s2 ++ r)) =
            some ('&', escText s2 ++ r) from by simp [entStep, List.isPrefixOf]]
        dsimp only
        rw [ih n (by omega)]
    · by_cases hlt : c = '<'
      · subst hlt
        rw [show escChar '<' = ['&', 'l', 't', ';'] from by decide] at h ⊢
        simp only [List.cons_append, List.nil_append, List.length_cons] at h ⊢
        cases fuel with
        | zero => omega
        | succ n =>
          rw [decodeGo, if_pos rfl,
            show entStep ('l' :: 't' :: ';' :: (escText s2 ++ r)) =
              some ('<', escText s2 ++ r) from by simp [entStep, List.isPrefixOf]]
          dsimp only
          rw [ih n (by omega)]
      · by_cases hgt : c = '>'
        · subst hgt
          rw [show escChar '>' = ['&', 'g', 't', ';'] from by decide] at h ⊢
          simp only [List.cons_append, List.nil_append, List.length_cons] at h ⊢
          cases fuel with
          | zero => omega
          | succ n =>
            rw [decodeGo, if_pos rfl,
              show entStep ('g' :: 't' :: ';' :: (escText s2 ++ r)) =
                some ('>', escText s2 ++ r) from by simp [entStep, List.isPrefixOf]]
            dsimp only
            rw [ih n (by omega)]
        · rw [show escChar c = [c] from by simp [escChar, hamp, hlt, hgt]] at h ⊢
          simp only [List.cons_append, List.nil_append, List.length_cons] at h ⊢
          cases fuel with
          | zero => omega
          | succ n =>
            rw [decodeGo, if_neg hamp]
            rw [ih n (by omega)]

theorem decode_escText (s : List Char) : decodeEntities (escText s) = s := by
  have h := decodeGo_escText s []
    (((escText s ++ ([] : List Char)).length + 1)) (by omega)
  simp only [List.append_nil, List.length_nil] at h
  rw [decodeEntities, Nat.succ_eq_add_one, h]
  simp [decodeGo]

theorem decodeGo_escTextQ (s r : List Char) : ∀ fuel : ℕ,
    (escTextQ s ++ r).length < fuel →
    decodeGo fuel (escTextQ s ++ r) = s ++ decodeGo (r.length + 1) r := by
  induction s with
  | nil =>
    intro fuel h
    simp only [escTextQ, List.flatMap_nil, List.nil_append] at h ⊢
    exact decodeGo_congr fuel (r.length + 1) r h (by omega)
  | cons c s2 ih =>
    intro fuel h
    have hesc : escTextQ (c :: s2) = escCharQ c ++ escTextQ s2 := by
      simp [escTextQ, List.flatMap_cons]
    rw [hesc, List.append_assoc] at h ⊢
    by_cases hq : c = '"'
    · subst hq
      rw [show escCharQ '"' = ['&', 'q', 'u', 'o', 't', ';'] from by decide] at h ⊢
      simp only [List.cons_append, List.nil_append, List.length_cons] at h ⊢
      cases fuel with
      | zero => omega
      | succ n =>
        rw [decodeGo, if_pos rfl,
          show entStep ('q' :: 'u' :: 'o' :: 't' :: ';' :: (escTextQ s2 ++ r)) =
            some ('"', escTextQ s2 ++ r) from by simp [entStep, List.isPrefixOf]]
        dsimp only
        rw [ih n (by omega)]
    · rw [show escCharQ c = escChar c from by simp [escCharQ, hq]] at h ⊢
      by_cases hamp : c = '&'
      · subst hamp
        rw [show escChar '&' = ['&', 'a', 'm', 'p', ';'] from by decide] at h ⊢
        simp only [List.cons_append, List.nil_append, List.length_cons] at h ⊢
        cases fuel with
        | zero => omega
        | succ n =>
          rw [decodeGo, if_pos rfl,
            show entStep ('a' :: 'm' :: 'p' :: ';' :: (escTextQ s2 ++ r)) =
              some ('&', escTextQ s2 ++ r) from by simp [entStep, List.isPrefixOf]]
          dsimp only
          rw [ih n (by omega)]
      · by_cases hlt : c = '<'
        · subst hlt
          rw [show escChar '<' = ['&', 'l', 't', ';'] from by decide] at h ⊢
          simp only [List.cons_append, List.nil_append, List.length_cons] at h ⊢
          cases fuel with
          | zero => omega
          | succ n =>
            rw [decodeGo, if_pos rfl,
              show entStep ('l' :: 't' :: ';' :: (escTextQ s2 ++ r)) =
                some ('<', escTextQ s2 ++ r) from by simp [entStep, List.isPrefixOf]]
            dsimp only
            rw [ih n (by omega)]
        · by_cases hgt : c = '>'
          · subst hgt
            rw [show escChar '>' = ['&', 'g', 't', ';'] from by decide] at h ⊢
            simp only [List.cons_append, List.nil_append, List.length_cons] at h ⊢
            cases fuel with
            | zero => omega
            | succ n =>
              rw [decodeGo, if_pos rfl,
                show entStep ('g' :: 't' :: ';' :: (escTextQ s2 ++ r)) =
                  some ('>', escTextQ s2 ++ r) from by simp [entStep, List.isPrefixOf]]
              dsimp only
              rw [ih n (by omega)]
          · rw [show escChar c = [c] from by simp [escChar, hamp, hlt, hgt]] at h ⊢
            simp only [List.cons_append, List.nil_append, List.length_cons] at h ⊢
            cases fuel with
            | zero => omega
            | succ n =>
              rw [decodeGo, if_neg hamp]
              rw [ih n (by omega)]

theorem escText_append (a b : List Char) :
    escText (a ++ b) = escText a ++ escText b := by
  simp [escText]

theorem escChar_ne_nil (c : Char) : escChar c ≠ [] := by
  unfold escChar
  split_ifs <;> simp

theorem escText_ne_nil {s : List Char} (h : s ≠ []) : escText s ≠ [] := by
  cases s with
  | nil => exact absurd rfl h
  | cons c rest =>
    simp only [escText, List.flatMap_cons]
    intro hc
    rcases List.append_eq_nil.mp hc with ⟨h1, _⟩
    exact escChar_ne_nil c h1

theorem mem_escChar_ranges {c d : Char} (h : d ∈ escChar c) :
    d = c ∨ d ∈ ['&', 'a', 'm', 'p', 'l', 't', 'g', ';'] := by
  unfold escChar at h
  split_ifs at h with h1 h2 h3
  · fin_cases h <;> exact Or.inr (by decide)
  · fin_cases h <;> exact Or.inr (by decide)
  · fin_cases h <;> exact Or.inr (by decide)
  · left; simpa using h

theorem escText_no_ltgt {s : List Char} {d : Char} (h : d ∈ escText s) :
    d ≠ '<' ∧ d ≠ '>' := by
  simp only [escText, List.mem_flatMap] at h
  obtain ⟨c, _, hc⟩ := h
  unfold escChar at hc
  split_ifs at hc with h1 h2 h3
  · fin_cases hc <;> exact (by decide)
  · fin_cases hc <;> exact (by decide)
  · fin_cases hc <;> exact (by decide)
  · simp only [List.mem_singleton] at hc
    subst hc
    exact ⟨h2, h3⟩

theorem escTextQ_no_ltgt_quot {s : List Char} {d : Char} (h : d ∈ escTextQ s) :
    d ≠ '<' ∧ d ≠ '>' ∧ d ≠ '"' := by
  simp only [escTextQ, List.mem_flatMap] at h
  obtain ⟨c, _, hc⟩ := h
  unfold escCharQ escChar at hc
  split_ifs at hc with h0 h1 h2 h3
  · fin_cases hc <;> exact (by decide)
  · fin_cases hc <;> exact (by decide)
  · fin_cases hc <;> exact (by decide)
  · fin_cases hc <;> exact (by decide)
  · simp only [List.mem_singleton] at hc
    subst hc
    exact ⟨h2, h3, h0⟩

theorem apos_not_mem_escText {s : List Char} (h : '\x27' ∉ s) :
    '\x27' ∉ escText s := by
  intro hm
  simp only [escText, List.mem_flatMap] at hm
  obtain ⟨c, hcs, hc⟩ := hm
  rcases mem_escChar_ranges hc with he | he
  · exact h (he ▸ hcs)
  · revert he
    decide

theorem escText_head_not_ws {c : Char} {s : List Char} (h : isPySpace c = false) :
    ∀ d, (escText (c :: s)).head? = some d → isPySpace d = false := by
  intro d hd
  simp only [escText, List.flatMap_cons] at hd
  by_cases h1 : c = '&'
  · subst h1
    rw [show escChar '&' = ['&', 'a', 'm', 'p', ';'] from by decide] at hd
    simp only [List.cons_append, List.head?_cons, Option.some.injEq] at hd
    rw [← hd]; decide
  · by_cases h2 : c = '<'
    · subst h2
      rw [show escChar '<' = ['&', 'l', 't', ';'] from by decide] at hd
      simp only [List.cons_append, List.head?_cons, Option.some.injEq] at hd
      rw [← hd]; decide
    · by_cases h3 : c = '>'
      · subst h3
        rw [show escChar '>' = ['&', 'g', 't', ';'] from by decide] at hd
        simp only [List.cons_append, List.head?_cons, Option.some.injEq] at hd
        rw [← hd]; decide
      · rw [show escChar c = [c] from by simp [escChar, h1, h2, h3]] at hd
        simp only [List.singleton_append, List.head?_cons, Option.some.injEq] at hd
        rwa [← hd]

-- ## normalize_text theory

theorem collapseWs_id : ∀ s : List Char,
    (∀ c ∈ s, isPySpace c = true → c = ' ') →
    List.Chain' (fun a b => ¬(isPySpace a = true ∧ isPySpace b = true)) s →
    collapseWs s = s
  | [], _, _ => rfl
  | [c], h1, _ => by
    simp only [collapseWs]
    by_cases hc : isPySpace c = true
    · rw [if_pos hc, h1 c (by simp) hc]
    · rw [if_neg hc]
  | c1 :: c2 :: rest, h1, h2 => by
    rw [List.chain'_cons] at h2
    simp only [collapseWs]
    have hnb : (isPySpace c1 && isPySpace c2) = false := by
      cases ha : isPySpace c1 <;> cases hb : isPySpace c2 <;> simp_all
    rw [if_neg (by simp [hnb])]
    rw [collapseWs_id (c2 :: rest) (fun c hc hw => h1 c (by simp [hc]) hw) h2.2]
    by_cases hw : isPySpace c1 = true
    · rw [if_pos hw, h1 c1 (by simp) hw]
    · rw [if_neg hw]

theorem collapseWs_head : ∀ (c : Char) (rest : List Char),
    (collapseWs (c :: rest)).head? = some (if isPySpace c then ' ' else c)
  | c, [] => by
    simp only [collapseWs]
    by_cases hc : isPySpace c = true
    · rw [if_pos hc, if_pos hc]; rfl
    · rw [if_neg hc, if_neg hc]; rfl
  | c, c2 :: rest2 => by
    simp only [collapseWs]
    by_cases hb : (isPySpace c && isPySpace c2) = true
    · rw [if_pos hb]
      have hc := (Bool.and_eq_true _ _).mp hb
      rw [collapseWs_head c2 rest2]
      rw [if_pos hc.1, if_pos hc.2]
    · rw [if_neg hb]
      rfl

theorem collapseWs_all_space : ∀ s : List Char,
    ∀ c ∈ collapseWs s, isPySpace c = true → c = ' '
  | [] => by simp [collapseWs]
  | [c] => by
    simp only [collapseWs]
    by_cases hc : isPySpace c = true
    · rw [if_pos hc]; simp
    · rw [if_neg hc]
      intro d hd hw
      simp only [List.mem_singleton] at hd
      subst hd
      rw [hw] at hc
      exact absurd rfl hc
  | c1 :: c2 :: rest => by
    simp only [collapseWs]
    by_cases hb : (isPySpace c1 && isPySpace c2) = true
    · rw [if_pos hb]
      exact collapseWs_all_space (c2 :: rest)
    · rw [if_neg hb]
      intro d hd hw
      rcases List.mem_cons.mp hd with hd | hd
      · subst hd
        by_cases h1 : isPySpace c1 = true
        · rw [if_pos h1] at hw ⊢
        · rw [if_neg h1] at hw
          rw [hw] at h1
          exact absurd rfl h1
      · exact collapseWs_all_space (c2 :: rest) d hd hw

theorem collapseWs_chain : ∀ s : List Char,
    List.Chain' (fun a b => ¬(isPySpace a = true ∧ isPySpace b = true)) (collapseWs s)
  | [] => by simp [collapseWs]
  | [c] => by
    simp only [collapseWs]
    by_cases hc : isPySpace c = true
    · rw [if_pos hc]; simp
    · rw [if_neg hc]; simp
  | c1 :: c2 :: rest => by
    simp only [collapseWs]
    by_cases hb : (isPySpace c1 && isPySpace c2) = true
    · rw [if_pos hb]
      exact collapseWs_chain (c2 :: rest)
    · rw [if_neg hb]
      rw [List.chain'_cons']
      refine ⟨?_, collapseWs_chain (c2 :: rest)⟩
      intro y hy
      rw [collapseWs_head c2 rest] at hy
      injection hy with hy
      subst hy
      simp only [Bool.and_eq_true] at hb
      intro hcontra
      by_cases h1 : isPySpace c1 = true
      · have h2 : isPySpace c2 = false := by
          cases h : isPySpace c2
          · rfl
          · exact absurd ⟨h1, h⟩ hb
        have hc2 := hcontra.2
        rw [if_neg (by rw [h2]; simp)] at hc2
        rw [h2] at hc2
        exact absurd hc2 (by simp)
      · have hcl := hcontra.1
        rw [if_neg h1] at hcl
        exact absurd hcl h1

theorem collapseWs_ne_nil {s : List Char} (h : s ≠ []) : collapseWs s ≠ [] := by
  cases s with
  | nil => exact absurd rfl h
  | cons c rest =>
    intro hc
    have := collapseWs_head c rest
    rw [hc] at this
    exact absurd this (by simp)

theorem dropWhile_head_not (p : Char → Bool) : ∀ l : List Char,
    ∀ c, (l.dropWhile p).head? = some c → p c = false
  | [], c => by simp [List.dropWhile]
  | a :: l, c => by
    cases ha : p a with
    | true =>
      rw [List.dropWhile_cons_of_pos ha]
      exact dropWhile_head_not p l c
    | false =>
      rw [List.dropWhile_cons_of_neg (by simp [ha])]
      intro h
      injection h with h
      subst h
      exact ha

theorem dropWhile_id_of_head {p : Char → Bool} {l : List Char}
    (h : ∀ c, l.head? = some c → p c = false) : l.dropWhile p = l := by
  cases l with
  | nil => rfl
  | cons a l =>
    rw [List.dropWhile_cons_of_neg (by rw [h a rfl]; simp)]

theorem pyStrip_id {s : List Char}
    (hh : ∀ c, s.head? = some c → isPySpace c = false)
    (hl : ∀ c, s.getLast? = some c → isPySpace c = false) : pyStrip s = s := by
  unfold pyStrip
  rw [dropWhile_id_of_head hh]
  rw [dropWhile_id_of_head (by
    intro c hc
    rw [List.head?_reverse] at hc
    exact hl c hc)]
  exact List.reverse_reverse s

theorem pyStrip_infix (s : List Char) : pyStrip s <:+: s := by
  unfold pyStrip
  have h1 : s.dropWhile isPySpace <:+ s := List.dropWhile_suffix _
  have h2 : (s.dropWhile isPySpace).reverse.dropWhile isPySpace <:+
      (s.dropWhile isPySpace).reverse := List.dropWhile_suffix _
  have h3 := List.reverse_prefix.mpr h2
  rw [List.reverse_reverse] at h3
  exact (h3.isInfix).trans h1.isInfix

theorem pyStrip_head {s : List Char} :
    ∀ c, (pyStrip s).head? = some c → isPySpace c = false := by
  intro c hc
  have h2 : (s.dropWhile isPySpace).reverse.dropWhile isPySpace <:+
      (s.dropWhile isPySpace).reverse := List.dropWhile_suffix _
  have h3 := List.reverse_prefix.mpr h2
  rw [List.reverse_reverse] at h3
  obtain ⟨t, ht⟩ := h3
  unfold pyStrip at hc
  apply dropWhile_head_not isPySpace s c
  rw [← ht]
  cases hcw : ((s.dropWhile isPySpace).reverse.dropWhile isPySpace).reverse with
  | nil =>
    rw [hcw] at hc
    exact absurd hc (by simp)
  | cons a l =>
    rw [hcw] at hc
    simp only [List.head?_cons, Option.some.injEq] at hc
    rw [← hc]
    simp

theorem pyStrip_last {s : List Char} :
    ∀ c, (pyStrip s).getLast? = some c → isPySpace c = false := by
  intro c hc
  unfold pyStrip at hc
  rw [List.getLast?_reverse] at hc
  exact dropWhile_head_not isPySpace _ c hc

theorem isNormed_normalize {s : List Char} (h : normalize_text s ≠ []) :
    isNormed (normalize_text s) := by
  unfold normalize_text at *
  have hinf : pyStrip (collapseWs s) <:+: collapseWs s := pyStrip_infix _
  refine ⟨?_, ?_, pyStrip_head, pyStrip_last⟩
  · intro c hc hw
    exact collapseWs_all_space s c (hinf.subset hc) hw
  · exact List.Chain'.infix (collapseWs_chain s) hinf

theorem isNormed_id {s : List Char} (h : isNormed s) : normalize_text s = s := by
  obtain ⟨h1, h2, h3, h4⟩ := h
  unfold normalize_text
  rw [collapseWs_id s h1 h2]
  exact pyStrip_id h3 h4

theorem getLast_append_ne {α : Type} {l1 l2 : List α} (h : l2 ≠ []) :
    (l1 ++ l2).getLast? = l2.getLast? := by
  rw [← List.head?_reverse, ← List.head?_reverse, List.reverse_append]
  cases hr : l2.reverse with
  | nil =>
    have : l2 = [] := by
      have := congrArg List.reverse hr
      simpa using this
    exact absurd this h
  | cons a t => simp [hr]

theorem isNormed_append {s1 s2 : List Char} (h1 : isNormed s1) (h2 : isNormed s2)
    (hn1 : s1 ≠ []) (hn2 : s2 ≠ []) : isNormed (s1 ++ s2) := by
  obtain ⟨a1, b1, c1, d1⟩ := h1
  obtain ⟨a2, b2, c2, d2⟩ := h2
  refine ⟨?_, ?_, ?_, ?_⟩
  · intro c hc
    rcases List.mem_append.mp hc with h | h
    · exact a1 c h
    · exact a2 c h
  · rw [List.chain'_append]
    refine ⟨b1, b2, ?_⟩
    intro x hx y hy
    intro hcontra
    have := d1 x hx
    rw [this] at hcontra
    exact absurd hcontra.1 (by simp)
  · intro c hc
    cases s1 with
    | nil => exact absurd rfl hn1
    | cons a t =>
      simp only [List.cons_append, List.head?_cons, Option.some.injEq] at hc
      rw [← hc]
      exact c1 a rfl
  · intro c hc
    rw [getLast_append_ne hn2] at hc
    exact d2 c hc

-- ## Reading back serialized fragments: takeWhile / upToGt

theorem takeWhile_app {p : Char → Bool} : ∀ l r : List Char,
    (∀ c ∈ l, p c = true) → (∀ c, r.head? = some c → p c = false) →
    (l ++ r).takeWhile p = l
  | [], r, _, hr => by
    cases r with
    | nil => rfl
    | cons a t =>
      rw [List.nil_append, List.takeWhile_cons_of_neg (by rw [hr a rfl]; simp)]
  | c :: l, r, hl, hr => by
    rw [List.cons_append, List.takeWhile_cons_of_pos (hl c (by simp))]
    rw [takeWhile_app l r (fun d hd => hl d (by simp [hd])) hr]

theorem dropLen_app {p : Char → Bool} (l r : List Char)
    (hl : ∀ c ∈ l, p c = true) (hr : ∀ c, r.head? = some c → p c = false) :
    (l ++ r).drop ((l ++ r).takeWhile p).length = r := by
  rw [takeWhile_app l r hl hr]
  exact List.drop_left l r

theorem upToGt_app : ∀ l r : List Char, (∀ c ∈ l, c ≠ '>') →
    upToGt (l ++ '>' :: r) = some (l, r)
  | [], r, _ => by
    rw [List.nil_append, upToGt, if_pos rfl]
  | c :: l, r, hl => by
    rw [List.cons_append, upToGt, if_neg (hl c (by simp))]
    rw [upToGt_app l r (fun d hd => hl d (by simp [hd]))]
    rfl

-- ## The insertion sort on attributes

theorem char_lt_iff_toNat_lt {a b : Char} : a < b ↔ a.toNat < b.toNat := Iff.rfl

theorem listLe_total : ∀ a b : List Char, listLe a b = true ∨ listLe b a = true
  | [], _ => Or.inl rfl
  | _ :: _, [] => Or.inr rfl
  | c :: a, d :: b => by
    by_cases hcd : c = d
    · subst hcd
      rw [listLe, listLe, if_pos rfl, if_pos rfl]
      exact listLe_total a b
    · rw [listLe, listLe, if_neg hcd, if_neg (fun h => hcd h.symm)]
      rcases Nat.lt_trichotomy c.toNat d.toNat with h | h | h
      · left; simp [char_lt_iff_toNat_lt, h]
      · exact absurd ((char_eq_iff_toNat_eq c d).mpr h) hcd
      · right; simp [char_lt_iff_toNat_lt, h]

theorem insSorted_head (x : List Char × Option (List Char))
    (l : List (List Char × Option (List Char))) :
    (insSorted x l).head? = some x ∨ (insSorted x l).head? = l.head?
  := by
  cases l with
  | nil => left; rfl
  | cons y ys =>
    rw [insSorted]
    by_cases h : listLe x.1 y.1 = true
    · left; rw [if_pos h]; rfl
    · right; rw [if_neg h]; rfl

theorem insSorted_chain {x : List Char × Option (List Char)} :
    ∀ {l : List (List Char × Option (List Char))},
    attrsSorted l → attrsSorted (insSorted x l)
  | [], _ => by simp [insSorted, attrsSorted]
  | y :: ys, h => by
    rw [attrsSorted] at h ⊢
    rw [insSorted]
    by_cases hle : listLe x.1 y.1 = true
    · rw [if_pos hle]
      exact List.chain'_cons.mpr ⟨hle, h⟩
    · rw [if_neg hle]
      rw [List.chain'_cons']
      constructor
      · intro z hz
        rcases insSorted_head x ys with hh | hh
        · rw [hh] at hz
          injection hz with hz
          subst hz
          rcases listLe_total x.1 y.1 with h1 | h1
          · exact absurd h1 hle
          · exact h1
        · rw [hh] at hz
          exact (List.chain'_cons'.mp h).1 z hz
      · exact insSorted_chain ((List.chain'_cons'.mp h).2)

theorem sortAttrs_sorted : ∀ l : List (List Char × Option (List Char)),
    attrsSorted (sortAttrs l)
  | [] => by simp [sortAttrs, attrsSorted]
  | x :: l => by
    rw [sortAttrs, List.foldr_cons]
    exact insSorted_chain (sortAttrs_sorted l)

theorem insSorted_perm (x : List Char × Option (List Char)) :
    ∀ l : List (List Char × Option (List Char)), List.Perm (insSorted x l) (x :: l)
  | [] => List.Perm.refl _
  | y :: ys => by
    rw [insSorted]
    by_cases hle : listLe x.1 y.1 = true
    · rw [if_pos hle]
    · rw [if_neg hle]
      exact ((insSorted_perm x ys).cons y).trans (List.Perm.swap x y ys)

theorem sortAttrs_perm : ∀ l : List (List Char × Option (List Char)),
    List.Perm (sortAttrs l) l
  | [] => List.Perm.refl _
  | x :: l => by
    rw [sortAttrs, List.foldr_cons]
    exact (insSorted_perm x _).trans ((sortAttrs_perm l).cons x)

theorem sortAttrs_id : ∀ {l : List (List Char × Option (List Char))},
    attrsSorted l → sortAttrs l = l
  | [], _ => rfl
  | x :: l, h => by
    rw [sortAttrs, List.foldr_cons]
    have ht : sortAttrs l = l := sortAttrs_id ((List.chain'_cons'.mp h).2)
    rw [show List.foldr insSorted [] l = sortAttrs l from rfl, ht]
    cases l with
    | nil => rfl
    | cons y ys =>
      rw [insSorted]
      rw [if_pos ((List.chain'_cons'.mp h).1 y rfl)]

-- ## The cleaning passes and the tree predicate

theorem filterAttrs_id {a : List (List Char × Option (List Char))}
    (h : ∀ x ∈ a, x.1 ∉ STYLE_ATTRIBUTES) : filterAttrs a = a := by
  unfold filterAttrs
  rw [List.filter_eq_self]
  intro x hx
  have := h x hx
  simp only [Bool.not_eq_true']
  cases hc : STYLE_ATTRIBUTES.contains x.1
  · rfl
  · exact absurd (List.elem_iff.mp hc) this

theorem filterAttrs_attrsOk {a : List (List Char × Option (List Char))}
    (h : attrsOk a) : attrsOk (filterAttrs a) := by
  obtain ⟨h1, h2⟩ := h
  constructor
  · intro x hx
    exact h1 x (List.mem_of_mem_filter hx)
  · exact h2.sublist (List.Sublist.map _ (List.filter_sublist a))

theorem filterAttrs_clean {a : List (List Char × Option (List Char))} :
    ∀ x ∈ filterAttrs a, x.1 ∉ STYLE_ATTRIBUTES := by
  intro x hx
  have := List.of_mem_filter hx
  simp only [Bool.not_eq_true'] at this
  intro hmem
  rw [show STYLE_ATTRIBUTES.contains x.1 = List.elem x.1 STYLE_ATTRIBUTES from rfl,
    List.elem_iff.mpr hmem] at this
  exact absurd this (by simp)

theorem goodC_appendNL {p : TreeP} : ∀ {a b : NodeL},
    goodC p a → goodC p b → goodC p (appendNL a b)
  | NodeL.nil, _, _, hb => hb
  | NodeL.cons n rest, b, ha, hb => by
    rw [appendNL, goodC]
    rw [goodC] at ha
    exact ⟨ha.1, goodC_appendNL ha.2 hb⟩

mutual
theorem goodN_mono {p p2 : TreeP}
    (hA : p2.attrsClean = true → p.attrsClean = true)
    (hT : ∀ t ∈ p2.noTags, t ∈ p.noTags)
    (hC : p2.noComment = true → p.noComment = true)
    (hN : p2.textNormed = true → p.textNormed = true)
    (hD : p2.noDecl = true → p.noDecl = true) :
    ∀ n : HtmlNode, goodN p n → goodN p2 n
  | HtmlNode.elem t a cs, h => by
    rw [goodN] at h ⊢
    obtain ⟨⟨e1, e2, e3, e4, e5⟩, hcs⟩ := h
    exact ⟨⟨e1, e2, fun hc x hx => e3 (hA hc) x hx, fun hm => e4 (hT t hm), e5⟩,
      goodC_mono hA hT hC hN hD cs hcs⟩
  | HtmlNode.text s, h => by
    rw [goodN] at h ⊢
    exact fun hn => h (hN hn)
  | HtmlNode.comment s, h => by
    rw [goodN] at h ⊢
    cases hc : p2.noComment
    · rfl
    · rw [hC hc] at h
      exact absurd h (by simp)
  | HtmlNode.decl s, h => by
    rw [goodN] at h ⊢
    cases hc : p2.noDecl
    · rfl
    · rw [hD hc] at h
      exact absurd h (by simp)

theorem goodC_mono {p p2 : TreeP}
    (hA : p2.attrsClean = true → p.attrsClean = true)
    (hT : ∀ t ∈ p2.noTags, t ∈ p.noTags)
    (hC : p2.noComment = true → p.noComment = true)
    (hN : p2.textNormed = true → p.textNormed = true)
    (hD : p2.noDecl = true → p.noDecl = true) :
    ∀ cs : NodeL, goodC p cs → goodC p2 cs
  | NodeL.nil, _ => trivial
  | NodeL.cons n rest, h => by
    rw [goodC] at h ⊢
    exact ⟨goodN_mono hA hT hC hN hD n h.1, goodC_mono hA hT hC hN hD rest h.2⟩
end

theorem removeAttrsF_good {p : TreeP} : ∀ cs : NodeL, goodC p cs →
    goodC { p with attrsClean := true } (removeAttrsF cs)
  | NodeL.nil, _ => trivial
  | NodeL.cons (HtmlNode.elem t a cs) rest, h => by
    rw [goodC, goodN] at h
    obtain ⟨⟨⟨e1, e2, e3, e4, e5⟩, hcs⟩, hrest⟩ := h
    rw [removeAttrsF, goodC, goodN]
    refine ⟨⟨⟨e1, filterAttrs_attrsOk e2, ?_, e4, ?_⟩,
      removeAttrsF_good cs hcs⟩, removeAttrsF_good rest hrest⟩
    · intro _ x hx
      exact filterAttrs_clean x hx
    · intro hv
      rw [e5 hv]
      rfl
  | NodeL.cons (HtmlNode.text s) rest, h => by
    rw [goodC, goodN] at h
    exact ⟨h.1, removeAttrsF_good rest h.2⟩
  | NodeL.cons (HtmlNode.comment s) rest, h => by
    rw [goodC, goodN] at h
    exact ⟨h.1, removeAttrsF_good rest h.2⟩
  | NodeL.cons (HtmlNode.decl s) rest, h => by
    rw [goodC, goodN] at h
    exact ⟨h.1, removeAttrsF_good rest h.2⟩

theorem dropTagF_good {p : TreeP} (name : List Char) : ∀ cs : NodeL, goodC p cs →
    goodC { p with noTags := name :: p.noTags } (dropTagF name cs)
  | NodeL.nil, _ => trivial
  | NodeL.cons (HtmlNode.elem t a cs) rest, h => by
    rw [goodC, goodN] at h
    obtain ⟨⟨⟨e1, e2, e3, e4, e5⟩, hcs⟩, hrest⟩ := h
    rw [dropTagF]
    by_cases ht : t = name
    · rw [if_pos ht]
      exact dropTagF_good name rest hrest
    · rw [if_neg ht, goodC, goodN]
      refine ⟨⟨⟨e1, e2, e3, ?_, ?_⟩, dropTagF_good name cs hcs⟩,
        dropTagF_good name rest hrest⟩
      · intro hm
        rcases List.mem_cons.mp hm with hm | hm
        · exact ht hm
        · exact e4 hm
      · intro hv
        rw [e5 hv]
        rfl
  | NodeL.cons (HtmlNode.text s) rest, h => by
    rw [goodC, goodN] at h
    exact ⟨h.1, dropTagF_good name rest h.2⟩
  | NodeL.cons (HtmlNode.comment s) rest, h => by
    rw [goodC, goodN] at h
    exact ⟨h.1, dropTagF_good name rest h.2⟩
  | NodeL.cons (HtmlNode.decl s) rest, h => by
    rw [goodC, goodN] at h
    exact ⟨h.1, dropTagF_good name rest h.2⟩

theorem unwrapF_good {p : TreeP} (ns : List (List Char)) : ∀ cs : NodeL, goodC p cs →
    goodC { p with noTags := ns ++ p.noTags } (unwrapF ns cs)
  | NodeL.nil, _ => trivial
  | NodeL.cons (HtmlNode.elem t a cs) rest, h => by
    rw [goodC, goodN] at h
    obtain ⟨⟨⟨e1, e2, e3, e4, e5⟩, hcs⟩, hrest⟩ := h
    rw [unwrapF]
    by_cases ht : ns.contains t = true
    · rw [if_pos ht]
      exact goodC_appendNL (unwrapF_good ns cs hcs) (unwrapF_good ns rest hrest)
    · rw [if_neg ht, goodC, goodN]
      refine ⟨⟨⟨e1, e2, e3, ?_, ?_⟩, unwrapF_good ns cs hcs⟩,
        unwrapF_good ns rest hrest⟩
      · intro hm
        rcases List.mem_append.mp hm with hm | hm
        · exact ht (List.elem_iff.mpr hm)
        · exact e4 hm
      · intro hv
        rw [e5 hv]
        rfl
  | NodeL.cons (HtmlNode.text s) rest, h => by
    rw [goodC, goodN] at h
    exact ⟨h.1, unwrapF_good ns rest h.2⟩
  | NodeL.cons (HtmlNode.comment s) rest, h => by
    rw [goodC, goodN] at h
    exact ⟨h.1, unwrapF_good ns rest h.2⟩
  | NodeL.cons (HtmlNode.decl s) rest, h => by
    rw [goodC, goodN] at h
    exact ⟨h.1, unwrapF_good ns rest h.2⟩

theorem dropCommentsF_good {p : TreeP} : ∀ cs : NodeL, goodC p cs →
    goodC { p with noComment := true } (dropCommentsF cs)
  | NodeL.nil, _ => trivial
  | NodeL.cons (HtmlNode.elem t a cs) rest, h => by
    rw [goodC, goodN] at h
    obtain ⟨⟨⟨e1, e2, e3, e4, e5⟩, hcs⟩, hrest⟩ := h
    rw [dropCommentsF, goodC, goodN]
    refine ⟨⟨⟨e1, e2, e3, e4, ?_⟩, dropCommentsF_good cs hcs⟩,
      dropCommentsF_good rest hrest⟩
    intro hv
    rw [e5 hv]
    rfl
  | NodeL.cons (HtmlNode.text s) rest, h => by
    rw [goodC, goodN] at h
    exact ⟨h.1, dropCommentsF_good rest h.2⟩
  | NodeL.cons (HtmlNode.comment s) rest, h => by
    rw [goodC] at h
    exact dropCommentsF_good rest h.2
  | NodeL.cons (HtmlNode.decl s) rest, h => by
    rw [goodC, goodN] at h
    exact ⟨h.1, dropCommentsF_good rest h.2⟩

theorem cleanTextsF_good {p : TreeP} : ∀ cs : NodeL, goodC p cs →
    goodC { p with textNormed := true, noDecl := true } (cleanTextsF cs)
  | NodeL.nil, _ => trivial
  | NodeL.cons (HtmlNode.elem t a cs) rest, h => by
    rw [goodC, goodN] at h
    obtain ⟨⟨⟨e1, e2, e3, e4, e5⟩, hcs⟩, hrest⟩ := h
    rw [cleanTextsF, goodC, goodN]
    refine ⟨⟨⟨e1, e2, e3, e4, ?_⟩, cleanTextsF_good cs hcs⟩,
      cleanTextsF_good rest hrest⟩
    intro hv
    rw [e5 hv]
    rfl
  | NodeL.cons (HtmlNode.text s) rest, h => by
    rw [goodC] at h
    rw [cleanTextsF]
    by_cases hn : normalize_text s = []
    · rw [if_pos hn]
      exact cleanTextsF_good rest h.2
    · rw [if_neg hn, goodC, goodN]
      exact ⟨fun _ => ⟨isNormed_normalize hn, hn⟩, cleanTextsF_good rest h.2⟩
  | NodeL.cons (HtmlNode.comment s) rest, h => by
    rw [goodC, goodN] at h
    exact ⟨h.1, cleanTextsF_good rest h.2⟩
  | NodeL.cons (HtmlNode.decl s) rest, h => by
    rw [goodC] at h
    rw [cleanTextsF]
    by_cases hn : normalize_text s = []
    · rw [if_pos hn]
      exact cleanTextsF_good rest h.2
    · rw [if_neg hn, goodC, goodN]
      exact ⟨fun _ => ⟨isNormed_normalize hn, hn⟩, cleanTextsF_good rest h.2⟩

theorem removeAttrsF_id {p : TreeP} (hp : p.attrsClean = true) : ∀ cs : NodeL,
    goodC p cs → removeAttrsF cs = cs
  | NodeL.nil, _ => rfl
  | NodeL.cons (HtmlNode.elem t a cs) rest, h => by
    rw [goodC, goodN] at h
    obtain ⟨⟨⟨e1, e2, e3, e4, e5⟩, hcs⟩, hrest⟩ := h
    rw [removeAttrsF, filterAttrs_id (e3 hp), removeAttrsF_id hp cs hcs,
      removeAttrsF_id hp rest hrest]
  | NodeL.cons (HtmlNode.text s) rest, h => by
    rw [goodC] at h
    show NodeL.cons _ (removeAttrsF rest) = _
    rw [removeAttrsF_id hp rest h.2]
  | NodeL.cons (HtmlNode.comment s) rest, h => by
    rw [goodC] at h
    show NodeL.cons _ (removeAttrsF rest) = _
    rw [removeAttrsF_id hp rest h.2]
  | NodeL.cons (HtmlNode.decl s) rest, h => by
    rw [goodC] at h
    show NodeL.cons _ (removeAttrsF rest) = _
    rw [removeAttrsF_id hp rest h.2]

theorem dropTagF_id {p : TreeP} {name : List Char} (hp : name ∈ p.noTags) :
    ∀ cs : NodeL, goodC p cs → dropTagF name cs = cs
  | NodeL.nil, _ => rfl
  | NodeL.cons (HtmlNode.elem t a cs) rest, h => by
    rw [goodC, goodN] at h
    obtain ⟨⟨⟨e1, e2, e3, e4, e5⟩, hcs⟩, hrest⟩ := h
    rw [dropTagF, if_neg (fun ht : t = name => e4 (by rw [ht]; exact hp)), dropTagF_id hp cs hcs,
      dropTagF_id hp rest hrest]
  | NodeL.cons (HtmlNode.text s) rest, h => by
    rw [goodC] at h
    show NodeL.cons _ (dropTagF name rest) = _
    rw [dropTagF_id hp rest h.2]
  | NodeL.cons (HtmlNode.comment s) rest, h => by
    rw [goodC] at h
    show NodeL.cons _ (dropTagF name rest) = _
    rw [dropTagF_id hp rest h.2]
  | NodeL.cons (HtmlNode.decl s) rest, h => by
    rw [goodC] at h
    show NodeL.cons _ (dropTagF name rest) = _
    rw [dropTagF_id hp rest h.2]

theorem unwrapF_id {p : TreeP} {ns : List (List Char)}
    (hp : ∀ n ∈ ns, n ∈ p.noTags) : ∀ cs : NodeL, goodC p cs → unwrapF ns cs = cs
  | NodeL.nil, _ => rfl
  | NodeL.cons (HtmlNode.elem t a cs) rest, h => by
    rw [goodC, goodN] at h
    obtain ⟨⟨⟨e1, e2, e3, e4, e5⟩, hcs⟩, hrest⟩ := h
    rw [unwrapF, if_neg (fun ht => e4 (hp t (List.elem_iff.mp ht))),
      unwrapF_id hp cs hcs, unwrapF_id hp rest hrest]
  | NodeL.cons (HtmlNode.text s) rest, h => by
    rw [goodC] at h
    show NodeL.cons _ (unwrapF ns rest) = _
    rw [unwrapF_id hp rest h.2]
  | NodeL.cons (HtmlNode.comment s) rest, h => by
    rw [goodC] at h
    show NodeL.cons _ (unwrapF ns rest) = _
    rw [unwrapF_id hp rest h.2]
  | NodeL.cons (HtmlNode.decl s) rest, h => by
    rw [goodC] at h
    show NodeL.cons _ (unwrapF ns rest) = _
    rw [unwrapF_id hp rest h.2]

theorem dropCommentsF_id {p : TreeP} (hp : p.noComment = true) : ∀ cs : NodeL,
    goodC p cs → dropCommentsF cs = cs
  | NodeL.nil, _ => rfl
  | NodeL.cons (HtmlNode.elem t a cs) rest, h => by
    rw [goodC, goodN] at h
    obtain ⟨⟨⟨e1, e2, e3, e4, e5⟩, hcs⟩, hrest⟩ := h
    rw [dropCommentsF, dropCommentsF_id hp cs hcs, dropCommentsF_id hp rest hrest]
  | NodeL.cons (HtmlNode.text s) rest, h => by
    rw [goodC] at h
    show NodeL.cons _ (dropCommentsF rest) = _
    rw [dropCommentsF_id hp rest h.2]
  | NodeL.cons (HtmlNode.comment s) rest, h => by
    rw [goodC, goodN] at h
    rw [hp] at h
    exact absurd h.1 (by simp)
  | NodeL.cons (HtmlNode.decl s) rest, h => by
    rw [goodC] at h
    show NodeL.cons _ (dropCommentsF rest) = _
    rw [dropCommentsF_id hp rest h.2]

theorem cleanTextsF_id {p : TreeP} (hp1 : p.textNormed = true)
    (hp2 : p.noDecl = true) : ∀ cs : NodeL, goodC p cs → cleanTextsF cs = cs
  | NodeL.nil, _ => rfl
  | NodeL.cons (HtmlNode.elem t a cs) rest, h => by
    rw [goodC, goodN] at h
    obtain ⟨⟨⟨e1, e2, e3, e4, e5⟩, hcs⟩, hrest⟩ := h
    rw [cleanTextsF, cleanTextsF_id hp1 hp2 cs hcs, cleanTextsF_id hp1 hp2 rest hrest]
  | NodeL.cons (HtmlNode.text s) rest, h => by
    rw [goodC, goodN] at h
    obtain ⟨hs1, hs2⟩ := h.1 hp1
    rw [cleanTextsF, isNormed_id hs1, if_neg hs2, cleanTextsF_id hp1 hp2 rest h.2]
  | NodeL.cons (HtmlNode.comment s) rest, h => by
    rw [goodC] at h
    show NodeL.cons _ (cleanTextsF rest) = _
    rw [cleanTextsF_id hp1 hp2 rest h.2]
  | NodeL.cons (HtmlNode.decl s) rest, h => by
    rw [goodC, goodN] at h
    rw [hp2] at h
    exact absurd h.1 (by simp)

-- ## Parser-side invariants

theorem attrNameOk_lower {c : Char} {rest : List Char}
    (hc : isAttrNameFirst c = true) (hr : ∀ d ∈ rest, isAttrNameRest d = true) :
    attrNameOk (lowerList (c :: rest)) := by
  rw [show lowerList (c :: rest) = Char.toLower c :: lowerList rest from rfl]
  refine ⟨isAttrNameFirst_toLower hc, toLower_toLower c, ?_⟩
  intro d hd
  simp only [lowerList, List.mem_map] at hd
  obtain ⟨e, he, hde⟩ := hd
  subst hde
  exact ⟨isAttrNameRest_toLower (hr e he), toLower_toLower e⟩

theorem tagOk_lower {c : Char} {rest : List Char}
    (hc : isAsciiLetter c = true) (hr : ∀ d ∈ rest, isTagRest d = true) :
    tagOk (lowerList (c :: rest)) := by
  rw [show lowerList (c :: rest) = Char.toLower c :: lowerList rest from rfl]
  refine ⟨isAsciiLetter_toLower hc, toLower_toLower c, ?_⟩
  intro d hd
  simp only [lowerList, List.mem_map] at hd
  obtain ⟨e, he, hde⟩ := hd
  subst hde
  exact ⟨isTagRest_toLower (hr e he), toLower_toLower e⟩

theorem attrLoop_names : ∀ (fuel : ℕ) (s : List Char)
    (acc : List (List Char × Option (List Char)))
    (out : List (List Char × Option (List Char)) × Bool × List Char),
    attrLoop fuel s acc = some out →
    (∀ x ∈ acc, attrNameOk x.1) → ∀ x ∈ out.1, attrNameOk x.1 := by
  intro fuel
  induction fuel with
  | zero => intro s acc out h; exact absurd h (by simp [attrLoop])
  | succ n ih =>
    intro s acc out h hacc
    rw [attrLoop] at h
    split at h
    · exact absurd h (by simp)
    next c rest hskip =>
      split_ifs at h with h1 h2 h3
      · injection h with h
        subst h
        intro x hx
        exact hacc x (List.mem_reverse.mp hx)
      · injection h with h
        subst h
        intro x hx
        exact hacc x (List.mem_reverse.mp hx)
      · have hname : attrNameOk (lowerList (c :: rest.takeWhile isAttrNameRest)) :=
          attrNameOk_lower h3 (fun d hd => List.mem_takeWhile_imp hd)
        have hcons : ∀ v : Option (List Char), ∀ x ∈
            ((lowerList (c :: rest.takeWhile isAttrNameRest), v) :: acc), attrNameOk x.1 := by
          intro v x hx
          rcases List.mem_cons.mp hx with hx | hx
          · subst hx; exact hname
          · exact hacc x hx
        dsimp only at h
        split at h
        next d rest3 hr2 =>
          split at h
          next h4 =>
            split at h
            next q rest5 hr4 =>
              split at h
              next h5 =>
                split at h
                next head rest6 hd6 => exact ih _ _ _ h (hcons _)
                next hd6 => exact absurd h (by simp)
              next h5 => exact ih _ _ _ h (hcons _)
            next hr4 => exact ih _ _ _ h (hcons _)
          next h4 => exact ih _ _ _ h (hcons _)
        next hr2 => exact ih _ _ _ h (hcons _)

theorem flushText_mem {acc : List Char} {ts : List Tok} {tok : Tok}
    (h : tok ∈ flushText acc ts) :
    tok = Tok.text (decodeEntities acc.reverse) ∨ tok ∈ ts := by
  unfold flushText at h
  split_ifs at h
  · exact Or.inr h
  · rcases List.mem_cons.mp h with h | h
    · exact Or.inl h
    · exact Or.inr h

theorem tokOk_flush {acc : List Char} {ts : List Tok}
    (hts : ∀ tok ∈ ts, tokOk tok) : ∀ tok ∈ flushText acc ts, tokOk tok := by
  intro tok htok
  rcases flushText_mem htok with h | h
  · rw [h]; exact trivial
  · exact hts tok h

theorem tokGo_tokOk : ∀ (fuel : ℕ) (s acc : List Char) (ts : List Tok),
    tokGo fuel s acc = some ts → ∀ tok ∈ ts, tokOk tok := by
  intro fuel
  induction fuel with
  | zero => intro s acc ts h; exact absurd h (by simp [tokGo])
  | succ n ih =>
    intro s acc ts h
    cases s with
    | nil =>
      simp only [tokGo] at h
      injection h with h
      subst h
      exact tokOk_flush (by intro tok htok; exact absurd htok (by simp))
    | cons c rest =>
      simp only [tokGo] at h
      split_ifs at h with hlt hcm
      · -- comment  <!--
        split at h
        · exact absurd h (by simp)
        next content rest2 hsplit =>
          obtain ⟨ts1, hts1, hmap⟩ := Option.map_eq_some'.mp h
          subst hmap
          exact tokOk_flush (by
            intro tok htok
            rcases List.mem_cons.mp htok with h2 | h2
            · rw [h2]; exact trivial
            · exact ih _ _ _ hts1 tok h2)
      · -- c = '<' but not a comment opener
        split at h
        next =>
          injection h with h
          subst h
          exact tokOk_flush (by intro tok htok; exact absurd htok (by simp))
        next c2 rest2 =>
          split_ifs at h with hbang hbrack hdoc hslash hq hletter hss
          · -- doctype
            split at h
            · exact absurd h (by simp)
            next content rest3 hgt =>
              obtain ⟨ts1, hts1, hmap⟩ := Option.map_eq_some'.mp h
              subst hmap
              exact tokOk_flush (by
                intro tok htok
                rcases List.mem_cons.mp htok with h2 | h2
                · rw [h2]; exact trivial
                · exact ih _ _ _ hts1 tok h2)
          · -- bogus comment after <!
            split at h
            · exact absurd h (by simp)
            next content rest3 hgt =>
              obtain ⟨ts1, hts1, hmap⟩ := Option.map_eq_some'.mp h
              subst hmap
              exact tokOk_flush (by
                intro tok htok
                rcases List.mem_cons.mp htok with h2 | h2
                · rw [h2]; exact trivial
                · exact ih _ _ _ hts1 tok h2)
          · -- </ ...
            split at h
            next => exact absurd h (by simp)
            next c3 rest3 =>
              split_ifs at h with hgt2 hlet2
              · exact ih _ _ _ h
              · split at h
                · exact absurd h (by simp)
                next p rest4 hgt3 =>
                  obtain ⟨ts1, hts1, hmap⟩ := Option.map_eq_some'.mp h
                  subst hmap
                  exact tokOk_flush (by
                    intro tok htok
                    rcases List.mem_cons.mp htok with h2 | h2
                    · rw [h2]; exact trivial
                    · exact ih _ _ _ hts1 tok h2)
              · split at h
                · exact absurd h (by simp)
                next content rest4 hgt3 =>
                  obtain ⟨ts1, hts1, hmap⟩ := Option.map_eq_some'.mp h
                  subst hmap
                  exact tokOk_flush (by
                    intro tok htok
                    rcases List.mem_cons.mp htok with h2 | h2
                    · rw [h2]; exact trivial
                    · exact ih _ _ _ hts1 tok h2)
          · -- start tag
            split at h
            next hal => exact absurd h (by simp)
            next attrs sc rest4 hal =>
              obtain ⟨ts1, hts1, hmap⟩ := Option.map_eq_some'.mp h
              subst hmap
              refine tokOk_flush (by
                intro tok htok
                rcases List.mem_cons.mp htok with h2 | h2
                · rw [h2]
                  refine ⟨tagOk_lower hletter
                    (fun d hd => List.mem_takeWhile_imp hd), ?_, ?_, ?_⟩
                  · intro hc
                    exact hss (Or.inl hc)
                  · intro hc
                    exact hss (Or.inr hc)
                  · exact attrLoop_names _ _ _ _ hal (by simp)
                · exact ih _ _ _ hts1 tok h2)
          · exact ih _ _ _ h
      · exact ih _ _ _ h

-- ## Builder invariants

theorem map_fst_insertAttr (acc : List (List Char × Option (List Char)))
    (a : List Char × Option (List Char)) (h : acc.any (fun b => b.1 = a.1) = true) :
    (insertAttr acc a).map Prod.fst = acc.map Prod.fst := by
  unfold insertAttr
  rw [if_pos h, List.map_map]
  apply List.map_congr_left
  intro b _
  by_cases hb : b.1 = a.1
  · simp [hb]
  · simp [hb]

theorem insertAttr_attrsOk {acc : List (List Char × Option (List Char))}
    {a : List Char × Option (List Char)} (hacc : attrsOk acc)
    (ha : attrNameOk a.1 ∧ ∃ v, a.2 = some v) : attrsOk (insertAttr acc a) := by
  obtain ⟨h1, h2⟩ := hacc
  by_cases hany : acc.any (fun b => b.1 = a.1) = true
  · constructor
    · intro x hx
      unfold insertAttr at hx
      rw [if_pos hany] at hx
      obtain ⟨b, hb, hbx⟩ := List.mem_map.mp hx
      by_cases hba : b.1 = a.1
      · rw [if_pos hba] at hbx
        subst hbx
        exact ⟨(h1 b hb).1, ha.2⟩
      · rw [if_neg hba] at hbx
        subst hbx
        exact h1 b hb
    · rw [map_fst_insertAttr acc a hany]
      exact h2
  · unfold insertAttr
    rw [if_neg hany]
    constructor
    · intro x hx
      rcases List.mem_append.mp hx with hx | hx
      · exact h1 x hx
      · rw [List.mem_singleton.mp hx]
        exact ha
    · rw [List.map_append]
      rw [List.nodup_append]
      refine ⟨h2, List.nodup_singleton _, ?_⟩
      intro y hy
      simp only [List.map_cons, List.map_nil, List.mem_singleton]
      intro hya
      obtain ⟨b, hb, hby⟩ := List.mem_map.mp hy
      apply hany
      rw [List.any_eq_true]
      exact ⟨b, hb, by rw [hby, hya]; simp⟩

theorem foldl_insertAttr_ok : ∀ (l acc : List (List Char × Option (List Char))),
    attrsOk acc → (∀ x ∈ l, attrNameOk x.1 ∧ ∃ v, x.2 = some v) →
    attrsOk (l.foldl insertAttr acc)
  | [], acc, hacc, _ => hacc
  | x :: l, acc, hacc, hl => by
    rw [List.foldl_cons]
    exact foldl_insertAttr_ok l _ (insertAttr_attrsOk hacc (hl x (by simp)))
      (fun y hy => hl y (by simp [hy]))

theorem dedup_fix_attrsOk {attrs : List (List Char × Option (List Char))}
    (h : ∀ x ∈ attrs, attrNameOk x.1) :
    attrsOk (dedupAttrs (fixAttrVals attrs)) := by
  apply foldl_insertAttr_ok
  · exact ⟨by simp, by simp⟩
  · intro x hx
    obtain ⟨y, hy, hyx⟩ := List.mem_map.mp hx
    subst hyx
    exact ⟨h y hy, _, rfl⟩

theorem goodC_ofList {p : TreeP} : ∀ {l : List HtmlNode},
    (∀ n ∈ l, goodN p n) → goodC p (ofList l)
  | [], _ => trivial
  | n :: l, h => by
    rw [ofList, goodC]
    exact ⟨h n (by simp), goodC_ofList (fun m hm => h m (by simp [hm]))⟩

theorem goodN_elem_of_frame {t : List Char} {a : List (List Char × Option (List Char))}
    {l : List HtmlNode} (h1 : tagOk t) (h2 : t ≠ "script".toList)
    (h3 : t ≠ "style".toList) (h4 : voidTags.contains t = false) (h5 : attrsOk a)
    (hl : ∀ n ∈ l, goodN parsedP n) :
    goodN parsedP (HtmlNode.elem t a (ofList l)) := by
  rw [goodN]
  refine ⟨⟨h1, h5, ?_, ?_, ?_⟩, goodC_ofList hl⟩
  · intro hc
    exact absurd hc (by simp [parsedP])
  · intro hm
    rcases List.mem_cons.mp hm with hm | hm
    · exact h2 hm
    · rw [List.mem_singleton.mp hm]  at h3
      exact h3 rfl
  · intro hv
    rw [h4] at hv
    exact absurd hv (by simp)

theorem attach_inv {n : HtmlNode} {stack : List Frame} {top : List HtmlNode}
    (hn : goodN parsedP n) (hs : ∀ f ∈ stack, frameOk f)
    (ht : ∀ m ∈ top, goodN parsedP m) :
    (∀ f ∈ (attach n stack top).1, frameOk f) ∧
    (∀ m ∈ (attach n stack top).2, goodN parsedP m) := by
  cases stack with
  | nil =>
    refine ⟨by simp [attach], ?_⟩
    intro m hm
    rw [attach] at hm
    rcases List.mem_cons.mp hm with hm | hm
    · rw [hm]; exact hn
    · exact ht m hm
  | cons f stack =>
    obtain ⟨t, a, cs⟩ := f
    refine ⟨?_, ht⟩
    intro f2 hf2
    rw [attach] at hf2
    rcases List.mem_cons.mp hf2 with hf2 | hf2
    · rw [hf2]
      have hf := hs (t, a, cs) (by simp)
      obtain ⟨k1, k2, k3, k4, k5, k6⟩ := hf
      refine ⟨k1, k2, k3, k4, k5, ?_⟩
      intro m hm
      rcases List.mem_cons.mp hm with hm | hm
      · rw [hm]; exact hn
      · exact k6 m hm
    · exact hs f2 (by simp [hf2])

theorem frame_node_good {t : List Char} {a : List (List Char × Option (List Char))}
    {cs : List HtmlNode} (hf : frameOk (t, a, cs))
    {l : List HtmlNode} (hl : ∀ n ∈ l, goodN parsedP n) :
    goodN parsedP (HtmlNode.elem t a (ofList l)) := by
  obtain ⟨k1, k2, k3, k4, k5, _⟩ := hf
  exact goodN_elem_of_frame k1 k2 k3 k4 k5 hl

theorem popGo_inv (name : List Char) : ∀ (stack : List Frame) (top : List HtmlNode)
    (p : HtmlNode), goodN parsedP p → (∀ f ∈ stack, frameOk f) →
    (∀ m ∈ top, goodN parsedP m) →
    (∀ f ∈ (popGo name p stack top).1, frameOk f) ∧
    (∀ m ∈ (popGo name p stack top).2, goodN parsedP m)
  | [], top, p, hp, hs, ht => by
    rw [popGo]
    refine ⟨by simp, ?_⟩
    intro m hm
    rcases List.mem_cons.mp hm with hm | hm
    · rw [hm]; exact hp
    · exact ht m hm
  | (t, a, cs) :: stack, top, p, hp, hs, ht => by
    rw [popGo]
    have hface := hs (t, a, cs) (by simp)
    have hnode : goodN parsedP (HtmlNode.elem t a (ofList (p :: cs).reverse)) := by
      apply frame_node_good hface
      intro m hm
      rw [List.mem_reverse] at hm
      rcases List.mem_cons.mp hm with hm | hm
      · rw [hm]; exact hp
      · exact hface.2.2.2.2.2 m hm
    by_cases htn : t = name
    · rw [if_pos htn]
      exact attach_inv hnode (fun f hf => hs f (by simp [hf])) ht
    · rw [if_neg htn]
      exact popGo_inv name stack top _ hnode (fun f hf => hs f (by simp [hf])) ht

theorem popToTag_inv (name : List Char) (stack : List Frame) (top : List HtmlNode)
    (hs : ∀ f ∈ stack, frameOk f) (ht : ∀ m ∈ top, goodN parsedP m) :
    (∀ f ∈ (popToTag name stack top).1, frameOk f) ∧
    (∀ m ∈ (popToTag name stack top).2, goodN parsedP m) := by
  cases stack with
  | nil => exact ⟨by simp [popToTag], by rw [popToTag]; exact ht⟩
  | cons f stack =>
    obtain ⟨t, a, cs⟩ := f
    rw [popToTag]
    have hface := hs (t, a, cs) (by simp)
    have hnode : goodN parsedP (HtmlNode.elem t a (ofList cs.reverse)) := by
      apply frame_node_good hface
      intro m hm
      rw [List.mem_reverse] at hm
      exact hface.2.2.2.2.2 m hm
    by_cases htn : t = name
    · rw [if_pos htn]
      exact attach_inv hnode (fun f hf => hs f (by simp [hf])) ht
    · rw [if_neg htn]
      exact popGo_inv name stack top _ hnode (fun f hf => hs f (by simp [hf])) ht

theorem closeAllGo_inv : ∀ (stack : List Frame) (top : List HtmlNode) (p : HtmlNode),
    goodN parsedP p → (∀ f ∈ stack, frameOk f) → (∀ m ∈ top, goodN parsedP m) →
    ∀ m ∈ closeAllGo p stack top, goodN parsedP m
  | [], top, p, hp, _, ht => by
    rw [closeAllGo]
    intro m hm
    rcases List.mem_cons.mp hm with hm | hm
    · rw [hm]; exact hp
    · exact ht m hm
  | (t, a, cs) :: stack, top, p, hp, hs, ht => by
    rw [closeAllGo]
    have hface := hs (t, a, cs) (by simp)
    apply closeAllGo_inv stack top _ ?_ (fun f hf => hs f (by simp [hf])) ht
    apply frame_node_good hface
    intro m hm
    rw [List.mem_reverse] at hm
    rcases List.mem_cons.mp hm with hm | hm
    · rw [hm]; exact hp
    · exact hface.2.2.2.2.2 m hm

theorem closeAll_inv (stack : List Frame) (top : List HtmlNode)
    (hs : ∀ f ∈ stack, frameOk f) (ht : ∀ m ∈ top, goodN parsedP m) :
    ∀ m ∈ closeAll stack top, goodN parsedP m := by
  cases stack with
  | nil => rw [closeAll]; exact ht
  | cons f stack =>
    obtain ⟨t, a, cs⟩ := f
    rw [closeAll]
    have hface := hs (t, a, cs) (by simp)
    apply closeAllGo_inv stack top _ ?_ (fun f hf => hs f (by simp [hf])) ht
    apply frame_node_good hface
    intro m hm
    rw [List.mem_reverse] at hm
    exact hface.2.2.2.2.2 m hm

theorem buildGo_good : ∀ (toks : List Tok) (stack : List Frame) (top : List HtmlNode),
    (∀ tok ∈ toks, tokOk tok) → (∀ f ∈ stack, frameOk f) →
    (∀ m ∈ top, goodN parsedP m) → ∀ n ∈ buildGo toks stack top, goodN parsedP n
  | [], stack, top, _, hs, ht => by
    rw [buildGo]
    intro n hn
    rw [List.mem_reverse] at hn
    exact closeAll_inv stack top hs ht n hn
  | Tok.text s :: toks, stack, top, htok, hs, ht => by
    rw [buildGo]
    have hinv := attach_inv (n := HtmlNode.text s) (by rw [goodN]; intro hc; exact absurd hc (by simp [parsedP])) hs ht
    exact buildGo_good toks _ _ (fun tok htk => htok tok (by simp [htk])) hinv.1 hinv.2
  | Tok.comment s :: toks, stack, top, htok, hs, ht => by
    rw [buildGo]
    have hinv := attach_inv (n := HtmlNode.comment s) (by rw [goodN]; rfl) hs ht
    exact buildGo_good toks _ _ (fun tok htk => htok tok (by simp [htk])) hinv.1 hinv.2
  | Tok.decl s :: toks, stack, top, htok, hs, ht => by
    rw [buildGo]
    have hinv := attach_inv (n := HtmlNode.decl s) (by rw [goodN]; rfl) hs ht
    exact buildGo_good toks _ _ (fun tok htk => htok tok (by simp [htk])) hinv.1 hinv.2
  | Tok.open_ t attrs sc :: toks, stack, top, htok, hs, ht => by
    rw [buildGo]
    have hot := htok (Tok.open_ t attrs sc) (by simp)
    rw [tokOk] at hot
    obtain ⟨o1, o2, o3, o4⟩ := hot
    have hattrs : attrsOk (dedupAttrs (fixAttrVals attrs)) :=
      dedup_fix_attrsOk (fun x hx => o4 x hx)
    by_cases hvc : (sc || voidTags.contains t) = true
    · rw [if_pos hvc]
      have hnode : goodN parsedP (HtmlNode.elem t (dedupAttrs (fixAttrVals attrs)) NodeL.nil) := by
        rw [goodN]
        refine ⟨⟨o1, hattrs, ?_, ?_, fun _ => rfl⟩, trivial⟩
        · intro hc
          exact absurd hc (by simp [parsedP])
        · intro hm
          rcases List.mem_cons.mp hm with hm | hm
          · exact o2 hm
          · rw [List.mem_singleton.mp hm] at o3
            exact o3 rfl
      have hinv := attach_inv hnode hs ht
      exact buildGo_good toks _ _ (fun tok htk => htok tok (by simp [htk])) hinv.1 hinv.2
    · rw [if_neg hvc]
      apply buildGo_good toks _ _ (fun tok htk => htok tok (by simp [htk])) ?_ ht
      intro f hf
      rcases List.mem_cons.mp hf with hf | hf
      · rw [hf]
        refine ⟨o1, o2, o3, ?_, hattrs, by simp⟩
        simp only [Bool.or_eq_true] at hvc
        cases hc : voidTags.contains t
        · rfl
        · exact absurd (Or.inr hc) hvc
      · exact hs f hf
  | Tok.close t :: toks, stack, top, htok, hs, ht => by
    rw [buildGo]
    by_cases hany : stack.any (fun f => f.1 = t) = true
    · rw [if_pos hany]
      have hinv := popToTag_inv t stack top hs ht
      exact buildGo_good toks _ _ (fun tok htk => htok tok (by simp [htk])) hinv.1 hinv.2
    · rw [if_neg hany]
      exact buildGo_good toks _ _ (fun tok htk => htok tok (by simp [htk])) hs ht

theorem parseHtml_good {s : List Char} {F : List HtmlNode}
    (h : parseHtml s = some F) : ∀ n ∈ F, goodN parsedP n := by
  unfold parseHtml at h
  obtain ⟨toks, htoks, hmap⟩ := Option.map_eq_some'.mp h
  subst hmap
  exact buildGo_good toks [] [] (tokGo_tokOk _ _ _ _ htoks) (by simp) (by simp)

-- ## find("table")

mutual
theorem findTableN_good : ∀ n : HtmlNode, ∀ m : HtmlNode,
    findTableN n = some m → goodN parsedP n →
    goodN parsedP m ∧ ∃ a cs, m = HtmlNode.elem "table".toList a cs
  | HtmlNode.elem t a cs, m, h, hg => by
    rw [findTableN] at h
    by_cases ht : t = "table".toList
    · rw [if_pos ht] at h
      injection h with h
      subst h
      exact ⟨hg, a, cs, by rw [ht]⟩
    · rw [if_neg ht] at h
      rw [goodN] at hg
      exact findTableC_good cs m h hg.2
  | HtmlNode.text s, m, h, _ => by exact absurd h (by simp [show findTableN (HtmlNode.text s) = none from rfl])
  | HtmlNode.comment s, m, h, _ => by exact absurd h (by simp [show findTableN (HtmlNode.comment s) = none from rfl])
  | HtmlNode.decl s, m, h, _ => by exact absurd h (by simp [show findTableN (HtmlNode.decl s) = none from rfl])

theorem findTableC_good : ∀ cs : NodeL, ∀ m : HtmlNode,
    findTableC cs = some m → goodC parsedP cs →
    goodN parsedP m ∧ ∃ a cs2, m = HtmlNode.elem "table".toList a cs2
  | NodeL.nil, m, h, _ => by rw [findTableC] at h; exact absurd h (by simp)
  | NodeL.cons n rest, m, h, hg => by
    rw [findTableC] at h
    rw [goodC] at hg
    rw [orO.eq_def] at h
    split at h
    next n2 hn2 =>
      injection h with h
      subst h
      exact findTableN_good n n2 hn2 hg.1
    next hn2 =>
      exact findTableC_good rest m h hg.2
end

theorem findTableL_good : ∀ (F : List HtmlNode) (m : HtmlNode),
    findTableL F = some m → (∀ n ∈ F, goodN parsedP n) →
    goodN parsedP m ∧ ∃ a cs, m = HtmlNode.elem "table".toList a cs
  | [], m, h, _ => by rw [findTableL] at h; exact absurd h (by simp)
  | n :: rest, m, h, hg => by
    rw [findTableL] at h
    rw [orO.eq_def] at h
    split at h
    next n2 hn2 =>
      injection h with h
      subst h
      exact findTableN_good n n2 hn2 (hg n (by simp))
    next hn2 =>
      exact findTableL_good rest m h (fun k hk => hg k (by simp [hk]))

-- ## The canonical form: serialization equality and properties

theorem sortAttrs_attrsOk {a : List (List Char × Option (List Char))}
    (h : attrsOk a) : attrsOk (sortAttrs a) := by
  obtain ⟨h1, h2⟩ := h
  constructor
  · intro x hx
    exact h1 x ((sortAttrs_perm a).mem_iff.mp hx)
  · exact h2.perm ((sortAttrs_perm a).map Prod.fst).symm

theorem sortAttrs_clean {a : List (List Char × Option (List Char))}
    (h : ∀ x ∈ a, x.1 ∉ STYLE_ATTRIBUTES) :
    ∀ x ∈ sortAttrs a, x.1 ∉ STYLE_ATTRIBUTES := by
  intro x hx
  exact h x ((sortAttrs_perm a).mem_iff.mp hx)

theorem serializeAttrs_sort (a : List (List Char × Option (List Char))) :
    serializeAttrs (sortAttrs a) = serializeAttrs a := by
  unfold serializeAttrs
  rw [sortAttrs_id (sortAttrs_sorted a)]

theorem isText_canonN : ∀ n : HtmlNode, isText (canonN n) = isText n
  | HtmlNode.elem _ _ _ => rfl
  | HtmlNode.text _ => rfl
  | HtmlNode.comment _ => rfl
  | HtmlNode.decl _ => rfl

theorem mergeT_ne_nil : ∀ (s : List Char) (rest : NodeL), mergeT s rest ≠ NodeL.nil
  | s, NodeL.nil => by rw [mergeT]; intro h; cases h
  | s, NodeL.cons (HtmlNode.text s2) rest => by
    rw [mergeT]
    exact mergeT_ne_nil (s ++ s2) rest
  | s, NodeL.cons (HtmlNode.elem t a cs) rest => by intro h; cases h
  | s, NodeL.cons (HtmlNode.comment s2) rest => by intro h; cases h
  | s, NodeL.cons (HtmlNode.decl s2) rest => by intro h; cases h

theorem isNil_canonC : ∀ cs : NodeL, isNilNL (canonC cs) = isNilNL cs
  | NodeL.nil => rfl
  | NodeL.cons (HtmlNode.text s) rest => by
    rw [canonC]
    cases hm : mergeT s rest with
    | nil => exact absurd hm (mergeT_ne_nil s rest)
    | cons a b => rfl
  | NodeL.cons (HtmlNode.elem t a cs) rest => rfl
  | NodeL.cons (HtmlNode.comment s) rest => rfl
  | NodeL.cons (HtmlNode.decl s) rest => rfl

theorem serializeF_nil : serializeF NodeL.nil = [] := rfl

theorem serializeF_elem (t : List Char) (a : List (List Char × Option (List Char)))
    (cs rest : NodeL) : serializeF (NodeL.cons (HtmlNode.elem t a cs) rest) =
    (if voidTags.contains t && isNilNL cs then
      '<' :: (t ++ serializeAttrs a ++ "/>".toList)
    else
      '<' :: (t ++ serializeAttrs a ++ ">".toList ++ serializeF cs
        ++ "</".toList ++ t ++ ">".toList)) ++ serializeF rest := rfl

theorem serializeF_text (s : List Char) (rest : NodeL) :
    serializeF (NodeL.cons (HtmlNode.text s) rest) = escText s ++ serializeF rest := rfl

theorem serializeF_comment (s : List Char) (rest : NodeL) :
    serializeF (NodeL.cons (HtmlNode.comment s) rest) =
    "<!--".toList ++ s ++ "-->".toList ++ serializeF rest := rfl

theorem serializeF_decl (s : List Char) (rest : NodeL) :
    serializeF (NodeL.cons (HtmlNode.decl s) rest) =
    "<!".toList ++ s ++ ">".toList ++ serializeF rest := rfl

theorem canonC_text (s : List Char) (rest : NodeL) :
    canonC (NodeL.cons (HtmlNode.text s) rest) = mergeT s rest := rfl

theorem canonC_elem (t : List Char) (a : List (List Char × Option (List Char)))
    (cs rest : NodeL) : canonC (NodeL.cons (HtmlNode.elem t a cs) rest) =
    NodeL.cons (HtmlNode.elem t (sortAttrs a) (canonC cs)) (canonC rest) := rfl

theorem canonC_comment (s : List Char) (rest : NodeL) :
    canonC (NodeL.cons (HtmlNode.comment s) rest) =
    NodeL.cons (HtmlNode.comment s) (canonC rest) := rfl

theorem canonC_decl (s : List Char) (rest : NodeL) :
    canonC (NodeL.cons (HtmlNode.decl s) rest) =
    NodeL.cons (HtmlNode.decl s) (canonC rest) := rfl

theorem canonN_elem (t : List Char) (a : List (List Char × Option (List Char)))
    (cs : NodeL) : canonN (HtmlNode.elem t a cs) =
    HtmlNode.elem t (sortAttrs a) (canonC cs) := rfl

theorem mergeT_nil (s : List Char) :
    mergeT s NodeL.nil = NodeL.cons (HtmlNode.text s) NodeL.nil := rfl

theorem mergeT_text (s s2 : List Char) (rest : NodeL) :
    mergeT s (NodeL.cons (HtmlNode.text s2) rest) = mergeT (s ++ s2) rest := rfl

theorem mergeT_elem (s t : List Char) (a : List (List Char × Option (List Char)))
    (cs rest : NodeL) : mergeT s (NodeL.cons (HtmlNode.elem t a cs) rest) =
    NodeL.cons (HtmlNode.text s)
      (NodeL.cons (HtmlNode.elem t (sortAttrs a) (canonC cs)) (canonC rest)) := rfl

theorem mergeT_comment (s s2 : List Char) (rest : NodeL) :
    mergeT s (NodeL.cons (HtmlNode.comment s2) rest) =
    NodeL.cons (HtmlNode.text s) (NodeL.cons (HtmlNode.comment s2) (canonC rest)) := rfl

theorem mergeT_decl (s s2 : List Char) (rest : NodeL) :
    mergeT s (NodeL.cons (HtmlNode.decl s2) rest) =
    NodeL.cons (HtmlNode.text s) (NodeL.cons (HtmlNode.decl s2) (canonC rest)) := rfl

mutual
theorem serCanonC : ∀ cs : NodeL, serializeF (canonC cs) = serializeF cs
  | NodeL.nil => rfl
  | NodeL.cons (HtmlNode.text s) rest => by
    rw [canonC_text, serMergeT s rest, serializeF_text]
  | NodeL.cons (HtmlNode.elem t a cs) rest => by
    rw [canonC_elem, serializeF_elem, serializeF_elem,
      serializeAttrs_sort, isNil_canonC, serCanonC cs, serCanonC rest]
  | NodeL.cons (HtmlNode.comment s) rest => by
    rw [canonC_comment, serializeF_comment, serializeF_comment, serCanonC rest]
  | NodeL.cons (HtmlNode.decl s) rest => by
    rw [canonC_decl, serializeF_decl, serializeF_decl, serCanonC rest]

theorem serMergeT : ∀ (s : List Char) (rest : NodeL),
    serializeF (mergeT s rest) = escText s ++ serializeF rest
  | s, NodeL.nil => by
    rw [mergeT_nil, serializeF_text]
  | s, NodeL.cons (HtmlNode.text s2) rest => by
    rw [mergeT_text, serMergeT (s ++ s2) rest, serializeF_text,
      show escText (s ++ s2) = escText s ++ escText s2 from by simp [escText]]
    simp [List.append_assoc]
  | s, NodeL.cons (HtmlNode.elem t a cs) rest => by
    rw [mergeT_elem, serializeF_text, serializeF_elem, serializeF_elem,
      serializeAttrs_sort, isNil_canonC, serCanonC cs, serCanonC rest]
  | s, NodeL.cons (HtmlNode.comment s2) rest => by
    rw [mergeT_comment, serializeF_text, serializeF_comment, serializeF_comment,
      serCanonC rest]
  | s, NodeL.cons (HtmlNode.decl s2) rest => by
    rw [mergeT_decl, serializeF_text, serializeF_decl, serializeF_decl, serCanonC rest]
end

theorem serCanonN : ∀ n : HtmlNode,
    serializeF (NodeL.cons (canonN n) NodeL.nil) = serializeF (NodeL.cons n NodeL.nil)
  | HtmlNode.elem t a cs => by
    rw [canonN_elem, serializeF_elem, serializeF_elem,
      serializeAttrs_sort, isNil_canonC, serCanonC cs]
  | HtmlNode.text s => rfl
  | HtmlNode.comment s => rfl
  | HtmlNode.decl s => rfl

mutual
theorem canonN_good {p : TreeP} (hp : p.textNormed = true) :
    ∀ n : HtmlNode, goodN p n → goodN p (canonN n)
  | HtmlNode.elem t a cs, h => by
    rw [goodN] at h
    obtain ⟨⟨e1, e2, e3, e4, e5⟩, hcs⟩ := h
    rw [canonN_elem, goodN]
    refine ⟨⟨e1, sortAttrs_attrsOk e2, ?_, e4, ?_⟩, canonC_good hp cs hcs⟩
    · intro hc
      exact sortAttrs_clean (e3 hc)
    · intro hv
      rw [e5 hv]
      rfl
  | HtmlNode.text s, h => h
  | HtmlNode.comment s, h => h
  | HtmlNode.decl s, h => h

theorem canonC_good {p : TreeP} (hp : p.textNormed = true) :
    ∀ cs : NodeL, goodC p cs → goodC p (canonC cs)
  | NodeL.nil, _ => trivial
  | NodeL.cons (HtmlNode.text s) rest, h => by
    rw [goodC] at h
    rw [canonC_text]
    have hs := h.1 hp
    exact mergeT_good hp s rest hs.1 hs.2 h.2
  | NodeL.cons (HtmlNode.elem t a cs) rest, h => by
    rw [goodC] at h
    rw [canonC_elem]
    rw [goodC]
    exact ⟨canonN_good hp (HtmlNode.elem t a cs) h.1, canonC_good hp rest h.2⟩
  | NodeL.cons (HtmlNode.comment s) rest, h => by
    rw [goodC] at h
    rw [canonC_comment, goodC]
    exact ⟨h.1, canonC_good hp rest h.2⟩
  | NodeL.cons (HtmlNode.decl s) rest, h => by
    rw [goodC] at h
    rw [canonC_decl, goodC]
    exact ⟨h.1, canonC_good hp rest h.2⟩

theorem mergeT_good {p : TreeP} (hp : p.textNormed = true) :
    ∀ (s : List Char) (rest : NodeL), isNormed s → s ≠ [] → goodC p rest →
    goodC p (mergeT s rest)
  | s, NodeL.nil, hn, hne, _ => by
    rw [mergeT_nil, goodC, goodN]
    exact ⟨fun _ => ⟨hn, hne⟩, trivial⟩
  | s, NodeL.cons (HtmlNode.text s2) rest, hn, hne, h => by
    rw [goodC] at h
    rw [mergeT_text]
    have hs2 := h.1 hp
    exact mergeT_good hp (s ++ s2) rest (isNormed_append hn hs2.1 hne hs2.2)
      (by simp [hne]) h.2
  | s, NodeL.cons (HtmlNode.elem t a cs) rest, hn, hne, h => by
    rw [goodC] at h
    rw [mergeT_elem, goodC, goodC]
    refine ⟨fun _ => ⟨hn, hne⟩, ?_, canonC_good hp rest h.2⟩
    rw [show HtmlNode.elem t (sortAttrs a) (canonC cs) = canonN (HtmlNode.elem t a cs) from rfl]
    exact canonN_good hp _ h.1
  | s, NodeL.cons (HtmlNode.comment s2) rest, hn, hne, h => by
    rw [goodC] at h
    rw [mergeT_comment, goodC, goodC]
    exact ⟨fun _ => ⟨hn, hne⟩, h.1, canonC_good hp rest h.2⟩
  | s, NodeL.cons (HtmlNode.decl s2) rest, hn, hne, h => by
    rw [goodC] at h
    rw [mergeT_decl, goodC, goodC]
    exact ⟨fun _ => ⟨hn, hne⟩, h.1, canonC_good hp rest h.2⟩
end

mutual
theorem canonN_sorted : ∀ n : HtmlNode, sortedN (canonN n)
  | HtmlNode.elem t a cs => by
    rw [canonN_elem, sortedN]
    exact ⟨sortAttrs_sorted a, canonC_sorted cs⟩
  | HtmlNode.text s => trivial
  | HtmlNode.comment s => trivial
  | HtmlNode.decl s => trivial

theorem canonC_sorted : ∀ cs : NodeL, sortedC (canonC cs)
  | NodeL.nil => trivial
  | NodeL.cons (HtmlNode.text s) rest => by
    rw [canonC_text]
    exact mergeT_sorted s rest
  | NodeL.cons (HtmlNode.elem t a cs) rest => by
    rw [canonC_elem, sortedC]
    exact ⟨canonN_sorted (HtmlNode.elem t a cs), canonC_sorted rest⟩
  | NodeL.cons (HtmlNode.comment s) rest => by
    rw [canonC_comment, sortedC]
    exact ⟨trivial, canonC_sorted rest⟩
  | NodeL.cons (HtmlNode.decl s) rest => by
    rw [canonC_decl, sortedC]
    exact ⟨trivial, canonC_sorted rest⟩

theorem mergeT_sorted : ∀ (s : List Char) (rest : NodeL), sortedC (mergeT s rest)
  | s, NodeL.nil => by
    rw [mergeT_nil, sortedC]
    exact ⟨trivial, trivial⟩
  | s, NodeL.cons (HtmlNode.text s2) rest => by
    rw [mergeT_text]
    exact mergeT_sorted (s ++ s2) rest
  | s, NodeL.cons (HtmlNode.elem t a cs) rest => by
    rw [mergeT_elem, sortedC, sortedC]
    exact ⟨trivial, canonN_sorted (HtmlNode.elem t a cs), canonC_sorted rest⟩
  | s, NodeL.cons (HtmlNode.comment s2) rest => by
    rw [mergeT_comment, sortedC, sortedC]
    exact ⟨trivial, trivial, canonC_sorted rest⟩
  | s, NodeL.cons (HtmlNode.decl s2) rest => by
    rw [mergeT_decl, sortedC, sortedC]
    exact ⟨trivial, trivial, canonC_sorted rest⟩
end

mutual
theorem canonN_noAdj : ∀ n : HtmlNode, noAdjN (canonN n)
  | HtmlNode.elem t a cs => by
    rw [canonN_elem, noAdjN]
    exact canonC_noAdj cs
  | HtmlNode.text s => trivial
  | HtmlNode.comment s => trivial
  | HtmlNode.decl s => trivial

theorem canonC_noAdj : ∀ cs : NodeL, noAdjC (canonC cs)
  | NodeL.nil => trivial
  | NodeL.cons (HtmlNode.text s) rest => by
    rw [canonC_text]
    exact mergeT_noAdj s rest
  | NodeL.cons (HtmlNode.elem t a cs) rest => by
    rw [canonC_elem, noAdjC]
    refine ⟨canonN_noAdj (HtmlNode.elem t a cs), canonC_noAdj rest, ?_⟩
    intro hx
    exact absurd hx (by simp [isText])
  | NodeL.cons (HtmlNode.comment s) rest => by
    rw [canonC_comment, noAdjC]
    exact ⟨trivial, canonC_noAdj rest, fun hx => absurd hx (by simp [isText])⟩
  | NodeL.cons (HtmlNode.decl s) rest => by
    rw [canonC_decl, noAdjC]
    exact ⟨trivial, canonC_noAdj rest, fun hx => absurd hx (by simp [isText])⟩

theorem mergeT_noAdj : ∀ (s : List Char) (rest : NodeL), noAdjC (mergeT s rest)
  | s, NodeL.nil => by
    rw [mergeT_nil, noAdjC]
    exact ⟨trivial, trivial, fun _ => rfl⟩
  | s, NodeL.cons (HtmlNode.text s2) rest => by
    rw [mergeT_text]
    exact mergeT_noAdj (s ++ s2) rest
  | s, NodeL.cons (HtmlNode.elem t a cs) rest => by
    rw [mergeT_elem, noAdjC, noAdjC]
    refine ⟨trivial, ⟨?_, canonC_noAdj rest, ?_⟩, ?_⟩
    · rw [show HtmlNode.elem t (sortAttrs a) (canonC cs) =
        canonN (HtmlNode.elem t a cs) from rfl]
      exact canonN_noAdj (HtmlNode.elem t a cs)
    · intro hx
      exact absurd hx (by simp [isText])
    · intro _
      rfl
  | s, NodeL.cons (HtmlNode.comment s2) rest => by
    rw [mergeT_comment, noAdjC, noAdjC]
    exact ⟨trivial, ⟨trivial, canonC_noAdj rest, fun hx => absurd hx (by simp [isText])⟩,
      fun _ => rfl⟩
  | s, NodeL.cons (HtmlNode.decl s2) rest => by
    rw [mergeT_decl, noAdjC, noAdjC]
    exact ⟨trivial, ⟨trivial, canonC_noAdj rest, fun hx => absurd hx (by simp [isText])⟩,
      fun _ => rfl⟩
end

-- ## remove_whitespace is the identity on the serialization of a clean tree

theorem rmWsF_id : ∀ (fuel : ℕ) (s : List Char),
    List.Chain' (fun a b => a = '>' → isPySpace b = false) s → rmWsF fuel s = s
  | 0, s, _ => rfl
  | fuel + 1, [], _ => rfl
  | fuel + 1, c :: rest, h => by
    have hh := (List.chain'_cons'.mp h).1
    have ht := (List.chain'_cons'.mp h).2
    rw [rmWsF]
    by_cases hc : c = '>'
    · rw [if_pos hc]
      have htw : rest.takeWhile isPySpace = [] := by
        cases rest with
        | nil => rfl
        | cons b r =>
          rw [List.takeWhile_cons_of_neg]
          rw [hh b rfl hc]
          simp
      rw [htw]
      rw [if_neg (by simp)]
      rw [rmWsF_id fuel rest ht, hc]
    · rw [if_neg hc]
      rw [rmWsF_id fuel rest ht]

theorem chainP_of_no_gt : ∀ {l : List Char}, (∀ c ∈ l, ¬c = '>') →
    List.Chain' (fun a b => a = '>' → isPySpace b = false) l
  | [], _ => trivial
  | c :: l, h => by
    rw [List.chain'_cons']
    refine ⟨?_, chainP_of_no_gt (fun d hd => h d (by simp [hd]))⟩
    intro b _ hc
    exact absurd hc (h c (by simp))

theorem chainP_append {x y : List Char}
    (hx : List.Chain' (fun a b => a = '>' → isPySpace b = false) x)
    (hy : List.Chain' (fun a b => a = '>' → isPySpace b = false) y)
    (hhead : ∀ b, y.head? = some b → isPySpace b = false) :
    List.Chain' (fun a b => a = '>' → isPySpace b = false) (x ++ y) := by
  rw [List.chain'_append]
  exact ⟨hx, hy, fun a _ b hb _ => hhead b hb⟩

theorem headNonWs_append {x y : List Char}
    (hx : ∀ b, x.head? = some b → isPySpace b = false)
    (hy : ∀ b, y.head? = some b → isPySpace b = false) :
    ∀ b, (x ++ y).head? = some b → isPySpace b = false := by
  cases x with
  | nil => exact hy
  | cons c l =>
    intro b hb
    simp only [List.cons_append, List.head?_cons, Option.some.injEq] at hb
    subst hb
    exact hx c rfl

theorem attrNameFirst_ne_gt {c : Char} (h : isAttrNameFirst c = true) : ¬c = '>' := by
  intro hc
  subst hc
  exact absurd h (by decide)

theorem attrNameRest_ne_gt {c : Char} (h : isAttrNameRest c = true) : ¬c = '>' := by
  intro hc
  subst hc
  exact absurd h (by decide)

theorem isTagRest_ne_gt {c : Char} (h : isTagRest c = true) : ¬c = '>' := by
  intro hc
  subst hc
  exact absurd h (by decide)

theorem isAsciiLetter_ne_gt {c : Char} (h : isAsciiLetter c = true) : ¬c = '>' := by
  intro hc
  subst hc
  exact absurd h (by decide)

theorem quoteAttr_no_gt {v : List Char} : ∀ c ∈ quoteAttr v, ¬c = '>' := by
  intro c hc
  unfold quoteAttr at hc
  dsimp only at hc
  split_ifs at hc with h1
  · rcases List.mem_cons.mp hc with hc | hc
    · rw [hc]; decide
    · rcases List.mem_append.mp hc with hc | hc
      · exact (escText_no_ltgt hc).2
      · rw [List.mem_singleton.mp hc]; decide
  · rcases List.mem_cons.mp hc with hc | hc
    · rw [hc]; decide
    · rcases List.mem_append.mp hc with hc | hc
      · exact (escTextQ_no_ltgt_quot hc).2.1
      · rw [List.mem_singleton.mp hc]; decide

theorem serializeAttrs_no_gt {a : List (List Char × Option (List Char))}
    (h : attrsOk a) : ∀ c ∈ serializeAttrs a, ¬c = '>' := by
  intro c hc
  unfold serializeAttrs at hc
  rw [List.mem_flatMap] at hc
  obtain ⟨x, hx, hcx⟩ := hc
  have hxok := h.1 x ((sortAttrs_perm a).mem_iff.mp hx)
  rcases List.mem_cons.mp hcx with hcx | hcx
  · rw [hcx]; decide
  · rcases List.mem_append.mp hcx with hcx | hcx
    · obtain ⟨n1, hn⟩ := hxok
      cases hname : x.1 with
      | nil => rw [hname] at n1; exact absurd n1 (by rw [show attrNameOk [] = False from rfl]; simp)
      | cons c0 nrest =>
        rw [hname] at hcx n1
        rw [attrNameOk] at n1
        rcases List.mem_cons.mp hcx with hcx | hcx
        · rw [hcx]
          intro hg
          exact absurd (hg ▸ n1.1) (by decide)
        · exact attrNameRest_ne_gt (n1.2.2 c hcx).1
    · obtain ⟨_, v, hv⟩ := hxok
      rw [hv] at hcx
      simp only at hcx
      rcases List.mem_cons.mp hcx with hcx | hcx
      · rw [hcx]; decide
      · exact quoteAttr_no_gt c hcx
  
theorem tag_no_gt {t : List Char} (h : tagOk t) : ∀ c ∈ t, ¬c = '>' := by
  intro c hc
  cases t with
  | nil => exact absurd hc (by simp)
  | cons c0 rest =>
    rw [tagOk] at h
    rcases List.mem_cons.mp hc with hc | hc
    · rw [hc]
      exact isAsciiLetter_ne_gt h.1
    · exact isTagRest_ne_gt (h.2.2 c hc).1

theorem serChainC {p : TreeP} (hp1 : p.textNormed = true) (hp2 : p.noComment = true)
    (hp3 : p.noDecl = true) : ∀ cs : NodeL, goodC p cs →
    List.Chain' (fun a b => a = '>' → isPySpace b = false) (serializeF cs) ∧
    (∀ b, (serializeF cs).head? = some b → isPySpace b = false)
  | NodeL.nil, _ => ⟨trivial, by intro b hb; exact absurd hb (by simp [serializeF_nil])⟩
  | NodeL.cons (HtmlNode.elem t a cs) rest, h => by
    rw [goodC, goodN] at h
    obtain ⟨⟨⟨e1, e2, e3, e4, e5⟩, hcs⟩, hrest⟩ := h
    obtain ⟨ihc, ihh⟩ := serChainC hp1 hp2 hp3 cs hcs
    obtain ⟨ihrc, ihrh⟩ := serChainC hp1 hp2 hp3 rest hrest
    rw [serializeF_elem]
    have hnogt1 : ∀ c ∈ ('<' :: (t ++ serializeAttrs a ++ ['/'])), ¬c = '>' := by
      intro c hc
      rcases List.mem_cons.mp hc with hc | hc
      · rw [hc]; decide
      · rcases List.mem_append.mp hc with hc | hc
        · rcases List.mem_append.mp hc with hc | hc
          · exact tag_no_gt e1 c hc
          · exact serializeAttrs_no_gt e2 c hc
        · rw [List.mem_singleton.mp hc]; decide
    have hnogt2 : ∀ c ∈ ('<' :: (t ++ serializeAttrs a)), ¬c = '>' := by
      intro c hc
      rcases List.mem_cons.mp hc with hc | hc
      · rw [hc]; decide
      · rcases List.mem_append.mp hc with hc | hc
        · exact tag_no_gt e1 c hc
        · exact serializeAttrs_no_gt e2 c hc
    have hnogt3 : ∀ c ∈ ('<' :: '/' :: t), ¬c = '>' := by
      intro c hc
      rcases List.mem_cons.mp hc with hc | hc
      · rw [hc]; decide
      · rcases List.mem_cons.mp hc with hc | hc
        · rw [hc]; decide
        · exact tag_no_gt e1 c hc
    have hchif : List.Chain' (fun a b => a = '>' → isPySpace b = false)
        ((if voidTags.contains t && isNilNL cs then
          '<' :: (t ++ serializeAttrs a ++ "/>".toList)
        else
          '<' :: (t ++ serializeAttrs a ++ ">".toList ++ serializeF cs
            ++ "</".toList ++ t ++ ">".toList))) := by
      by_cases hv : (voidTags.contains t && isNilNL cs) = true
      · rw [if_pos hv]
        rw [show '<' :: (t ++ serializeAttrs a ++ "/>".toList) =
          ('<' :: (t ++ serializeAttrs a ++ ['/'])) ++ ['>'] from by
            simp [List.append_assoc]]
        exact chainP_append (chainP_of_no_gt hnogt1) (by simp)
          (by intro b hb; simp at hb; rw [← hb]; decide)
      · rw [if_neg hv]
        rw [show '<' :: (t ++ serializeAttrs a ++ ">".toList ++ serializeF cs
            ++ "</".toList ++ t ++ ">".toList) =
          ('<' :: (t ++ serializeAttrs a)) ++
            ('>' :: (serializeF cs ++ (('<' :: '/' :: t) ++ ['>']))) from by
            simp [List.append_assoc]]
        apply chainP_append (chainP_of_no_gt hnogt2)
        · rw [List.chain'_cons']
          constructor
          · intro b hb _
            refine headNonWs_append ihh ?_ b hb
            intro b2 hb2
            simp only [List.cons_append, List.head?_cons, Option.some.injEq] at hb2
            rw [← hb2]; decide
          · apply chainP_append ihc
            · exact chainP_append (chainP_of_no_gt hnogt3) (by simp)
                (by intro b hb; simp at hb; rw [← hb]; decide)
            · intro b hb
              simp only [List.cons_append, List.head?_cons, Option.some.injEq] at hb
              rw [← hb]; decide
        · intro b hb
          simp only [List.head?_cons, Option.some.injEq] at hb
          rw [← hb]; decide
    refine ⟨chainP_append hchif ihrc ihrh, ?_⟩
    intro b hb
    by_cases hv : (voidTags.contains t && isNilNL cs) = true
    · rw [if_pos hv] at hb
      simp only [List.cons_append, List.head?_cons, Option.some.injEq] at hb
      rw [← hb]; decide
    · rw [if_neg hv] at hb
      simp only [List.cons_append, List.head?_cons, Option.some.injEq] at hb
      rw [← hb]; decide
  | NodeL.cons (HtmlNode.text s) rest, h => by
    rw [goodC, goodN] at h
    obtain ⟨hs, hrest⟩ := h
    obtain ⟨⟨hn1, hn2, hn3, hn4⟩, hne⟩ := hs hp1
    obtain ⟨ihrc, ihrh⟩ := serChainC hp1 hp2 hp3 rest hrest
    rw [serializeF_text]
    constructor
    · apply chainP_append (chainP_of_no_gt (fun c hc => (escText_no_ltgt hc).2)) ihrc ihrh
    · cases hse : s with
      | nil => exact absurd hse hne
      | cons c s2 =>
        apply headNonWs_append ?_ ihrh
        exact escText_head_not_ws (hn3 c (by rw [hse]; rfl))
  | NodeL.cons (HtmlNode.comment s) rest, h => by
    rw [goodC, goodN] at h
    rw [hp2] at h
    exact absurd h.1 (by simp)
  | NodeL.cons (HtmlNode.decl s) rest, h => by
    rw [goodC, goodN] at h
    rw [hp3] at h
    exact absurd h.1 (by simp)

-- ## Re-tokenizing a serialization

theorem serializeAttrs_eq (a : List (List Char × Option (List Char))) :
    serializeAttrs a = (sortAttrs a).flatMap serAttr1 := rfl

theorem lowerList_fixed_pointwise : ∀ {l : List Char},
    (∀ d ∈ l, Char.toLower d = d) → lowerList l = l
  | [], _ => rfl
  | c :: l, h => by
    show Char.toLower c :: lowerList l = c :: l
    rw [h c (by simp), lowerList_fixed_pointwise (fun d hd => h d (by simp [hd]))]

theorem lowerList_fixed_of_tagOk {t : List Char} (h : tagOk t) : lowerList t = t := by
  cases t with
  | nil => rfl
  | cons c rest =>
    rw [tagOk] at h
    exact lowerList_fixed_pointwise (by
      intro d hd
      rcases List.mem_cons.mp hd with hd | hd
      · rw [hd]; exact h.2.1
      · exact (h.2.2 d hd).2)

theorem lowerList_fixed_of_attrName {n : List Char} (h : attrNameOk n) :
    lowerList n = n := by
  cases n with
  | nil => rfl
  | cons c rest =>
    rw [attrNameOk] at h
    exact lowerList_fixed_pointwise (by
      intro d hd
      rcases List.mem_cons.mp hd with hd | hd
      · rw [hd]; exact h.2.1
      · exact (h.2.2 d hd).2)

theorem tagOk_head_facts {c : Char} {rest : List Char} (h : tagOk (c :: rest)) :
    97 ≤ c.toNat ∧ c.toNat ≤ 122 := by
  rw [tagOk] at h
  exact lower_letter_range h.1 h.2.1

theorem tokRun : ∀ (u : List Char), (∀ c ∈ u, ¬c = '<') →
    ∀ (fuel : ℕ) (r acc : List Char),
    tokGo (u.length + fuel) (u ++ r) acc = tokGo fuel r (u.reverse ++ acc)
  | [], _, fuel, r, acc => by simp
  | c :: u, h, fuel, r, acc => by
    have hne : ¬c = '<' := h c (by simp)
    rw [show (c :: u).length + fuel = (u.length + fuel) + 1 from by simp; omega]
    rw [List.cons_append]
    simp only [tokGo]
    rw [if_neg hne]
    rw [tokRun u (fun d hd => h d (by simp [hd])) fuel r (c :: acc)]
    congr 1
    simp

theorem skipSep_space (z : List Char) : skipSep (' ' :: z) = skipSep z := by
  rw [skipSep, if_pos (by decide)]

theorem skipSep_stop {c : Char} (z : List Char) (h1 : isPySpace c = false)
    (h2 : ¬c = '/') : skipSep (c :: z) = c :: z := by
  rw [skipSep, if_neg (by simp [h1]), if_neg (by simp [h2])]

theorem flatMap_serAttr1_length (l : List (List Char × Option (List Char))) :
    l.length ≤ (l.flatMap serAttr1).length := by
  induction l with
  | nil => simp
  | cons x l ih =>
    rw [List.flatMap_cons]
    rw [show serAttr1 x = ' ' :: (x.1 ++ match x.2 with
      | none => []
      | some v => '=' :: quoteAttr v) from rfl]
    simp only [List.length_append, List.length_cons]
    omega

theorem decode_escTextQ (s : List Char) : decodeEntities (escTextQ s) = s := by
  have h := decodeGo_escTextQ s []
    (((escTextQ s ++ ([] : List Char)).length + 1)) (by omega)
  simp only [List.append_nil, List.length_nil] at h
  rw [decodeEntities, Nat.succ_eq_add_one, h]
  simp [decodeGo]

theorem attrNameFirst_not_ws {c : Char} (h : isAttrNameFirst c = true) :
    isPySpace c = false := by
  rw [isAttrNameFirst, Bool.not_eq_true', Bool.or_eq_false_iff,
    Bool.or_eq_false_iff] at h
  exact h.1.1

theorem attrNameFirst_ne_slash {c : Char} (h : isAttrNameFirst c = true) :
    ¬c = '/' := by
  rw [isAttrNameFirst, Bool.not_eq_true', Bool.or_eq_false_iff,
    Bool.or_eq_false_iff] at h
  intro hc
  rw [hc] at h
  exact absurd h.1.2 (by decide)

theorem attrNameRest_ne_eq {c : Char} (h : isAttrNameRest c = true) : ¬c = '=' := by
  intro hc
  subst hc
  exact absurd h (by decide)

theorem contains_false_not_mem {l : List Char} {c : Char}
    (h : l.contains c = false) : c ∉ l := by
  intro hm
  rw [show l.contains c = List.elem c l from rfl, List.elem_iff.mpr hm] at h
  exact absurd h (by simp)

theorem attrLoop_flat_gen (sc : Bool) (r T : List Char)
    (hbase : ∀ (acc : List (List Char × Option (List Char))) (fuel : ℕ),
      1 ≤ fuel → attrLoop fuel T acc = some (acc.reverse, sc, r)) :
    ∀ (l acc : List (List Char × Option (List Char))) (fuel : ℕ),
    (∀ x ∈ l, attrOk x) → l.length + 1 ≤ fuel →
    attrLoop fuel (l.flatMap serAttr1 ++ T) acc = some (acc.reverse ++ l, sc, r)
  | [], acc, fuel, _, hf => by
    rw [List.flatMap_nil, List.nil_append, hbase acc fuel (by omega)]
    simp
  | x :: l, acc, fuel, hl, hf => by
    cases fuel with
    | zero => simp at hf
    | succ f =>
      have hx := hl x (by simp)
      obtain ⟨hname, v, hv⟩ := hx
      cases hx1 : x.1 with
      | nil =>
        rw [hx1] at hname
        exact absurd hname (by rw [show attrNameOk [] = False from rfl]; simp)
      | cons c0 n2 =>
        rw [hx1] at hname
        rw [attrNameOk] at hname
        obtain ⟨hc0, hc0l, hrest⟩ := hname
        have hnm : attrNameOk (c0 :: n2) := ⟨hc0, hc0l, hrest⟩
        have hser : serAttr1 x = ' ' :: (x.1 ++ '=' :: quoteAttr v) := by
          rw [serAttr1, hv]
        rw [List.flatMap_cons, hser, hx1, List.append_assoc]
        have hin : (' ' :: ((c0 :: n2) ++ '=' :: quoteAttr v)) ++
            (l.flatMap serAttr1 ++ T) =
            ' ' :: (c0 :: (n2 ++ ('=' :: (quoteAttr v ++ (l.flatMap serAttr1 ++ T))))) := by
          simp [List.append_assoc]
        rw [hin, attrLoop]
        rw [skipSep_space, skipSep_stop _ (attrNameFirst_not_ws hc0)
          (attrNameFirst_ne_slash hc0)]
        dsimp only
        rw [if_neg (attrNameFirst_ne_gt hc0)]
        rw [if_neg (by
          rw [Bool.and_eq_true]
          intro hcontra
          exact attrNameFirst_ne_slash hc0 (by
            have h2 := hcontra.1
            simpa using h2))]
        rw [if_pos hc0]
        have htw : (n2 ++ ('=' :: (quoteAttr v ++ (l.flatMap serAttr1 ++ T)))).takeWhile
              isAttrNameRest = n2 := by
          exact takeWhile_app n2 _ (fun d hd => (hrest d hd).1)
            (by
              intro d hd
              simp only [List.head?_cons, Option.some.injEq] at hd
              rw [← hd]
              decide)
        have hdr : (n2 ++ ('=' :: (quoteAttr v ++ (l.flatMap serAttr1 ++ T)))).drop
              n2.length = '=' :: (quoteAttr v ++ (l.flatMap serAttr1 ++ T)) := by
          rw [List.drop_left n2]
        rw [htw, hdr]
        rw [List.dropWhile_cons_of_neg (by decide)]
        dsimp only
        rw [if_pos rfl]
        have hrec := attrLoop_flat_gen sc r T hbase l (((c0 :: n2), some v) :: acc) f
          (fun y hy => hl y (by simp [hy])) (by
            simp only [List.length_cons] at hf ⊢
            omega)
        have hxx : ((c0 :: n2, some v) : List Char × Option (List Char)) = x := by
          rw [← hx1, ← hv]
        by_cases hq : ((escText v).contains '"' && !(escText v).contains '\x27') = true
        · have hQ : quoteAttr v = '\x27' :: (escText v ++ ['\x27']) := by
            rw [quoteAttr]
            rw [if_pos hq]
          rw [hQ]
          have hsh : ('\x27' :: (escText v ++ ['\x27'])) ++ (l.flatMap serAttr1 ++ T) =
              '\x27' :: (escText v ++ ('\x27' :: (l.flatMap serAttr1 ++ T))) := by
            simp [List.append_assoc]
          rw [hsh]
          rw [List.dropWhile_cons_of_neg (by decide),
            List.dropWhile_cons_of_neg (by decide)]
          dsimp only
          rw [if_pos (by decide)]
          have hnm2 : '\x27' ∉ escText v := by
            rw [Bool.and_eq_true, Bool.not_eq_true'] at hq
            exact contains_false_not_mem hq.2
          have htw2 : (escText v ++ ('\x27' :: (l.flatMap serAttr1 ++ T))).takeWhile
                (fun x => decide (x ≠ '\x27')) = escText v := by
            apply takeWhile_app
            · intro c hc
              simp only [decide_eq_true_eq, ne_eq]
              intro hcq
              exact hnm2 (hcq ▸ hc)
            · intro d hd
              simp only [List.head?_cons, Option.some.injEq] at hd
              rw [← hd]
              simp
          rw [htw2]
          rw [List.drop_left (escText v)]
          dsimp only
          rw [lowerList_fixed_of_attrName hnm, decode_escText]
          rw [hrec]
          rw [List.reverse_cons, List.append_assoc]
          rw [show ([((c0 : Char) :: n2, some v)] ++ l :
            List (List Char × Option (List Char))) = (c0 :: n2, some v) :: l from rfl]
          rw [hxx]
        · have hQ : quoteAttr v = '"' :: (escTextQ v ++ ['"']) := by
            rw [quoteAttr]
            rw [if_neg hq]
          rw [hQ]
          have hsh : ('"' :: (escTextQ v ++ ['"'])) ++ (l.flatMap serAttr1 ++ T) =
              '"' :: (escTextQ v ++ ('"' :: (l.flatMap serAttr1 ++ T))) := by
            simp [List.append_assoc]
          rw [hsh]
          rw [List.dropWhile_cons_of_neg (by decide),
            List.dropWhile_cons_of_neg (by decide)]
          dsimp only
          rw [if_pos (by decide)]
          have htw2 : (escTextQ v ++ ('"' :: (l.flatMap serAttr1 ++ T))).takeWhile
                (fun x => decide (x ≠ '"')) = escTextQ v := by
            apply takeWhile_app
            · intro c hc
              simp only [decide_eq_true_eq, ne_eq]
              intro hcq
              exact (escTextQ_no_ltgt_quot hc).2.2 hcq
            · intro d hd
              simp only [List.head?_cons, Option.some.injEq] at hd
              rw [← hd]
              simp
          rw [htw2]
          rw [List.drop_left (escTextQ v)]
          dsimp only
          rw [lowerList_fixed_of_attrName hnm, decode_escTextQ]
          rw [hrec]
          rw [List.reverse_cons, List.append_assoc]
          rw [show ([((c0 : Char) :: n2, some v)] ++ l :
            List (List Char × Option (List Char))) = (c0 :: n2, some v) :: l from rfl]
          rw [hxx]

theorem attrLoop_base_gt (r : List Char) :
    ∀ (acc : List (List Char × Option (List Char))) (fuel : ℕ),
    1 ≤ fuel → attrLoop fuel ('>' :: r) acc = some (acc.reverse, false, r) := by
  intro acc fuel hf
  cases fuel with
  | zero => omega
  | succ f =>
    rw [attrLoop]
    rw [skipSep_stop r (by decide) (by decide)]
    dsimp only
    rw [if_pos rfl]

theorem attrLoop_base_slash (r : List Char) :
    ∀ (acc : List (List Char × Option (List Char))) (fuel : ℕ),
    1 ≤ fuel → attrLoop fuel ('/' :: '>' :: r) acc = some (acc.reverse, true, r) := by
  intro acc fuel hf
  cases fuel with
  | zero => omega
  | succ f =>
    rw [attrLoop]
    rw [show skipSep ('/' :: '>' :: r) = '/' :: '>' :: r from by
      rw [skipSep, if_neg (by decide), if_neg (by simp)]]
    dsimp only
    rw [if_neg (by decide), if_pos (by simp)]
    rfl

theorem letter_ne_of_toNat {c : Char} (h1 : 97 ≤ c.toNat) (h2 : c.toNat ≤ 122)
    {d : Char} (hd : d.toNat < 97 ∨ 122 < d.toNat) : ¬c = d := by
  intro he
  rw [char_eq_iff_toNat_eq] at he
  omega

theorem bang_prefix_false {c : Char} (rest : List Char) (h : ¬c = '!') :
    ("!--".toList.isPrefixOf (c :: rest)) = false := by
  rw [show "!--".toList = ['!', '-', '-'] from rfl]
  simp only [List.isPrefixOf]
  rw [show ('!' == c) = false from by
    cases hb : '!' == c
    · rfl
    · exact absurd (beq_iff_eq.mp hb).symm h]
  rfl

theorem tokClose (t : List Char) (ht : tagOk t) (fuel : ℕ) (r acc : List Char) :
    tokGo (fuel + 1) ('<' :: '/' :: (t ++ '>' :: r)) acc =
      (tokGo fuel r []).map (fun ts => flushText acc (Tok.close t :: ts)) := by
  cases t with
  | nil => exact absurd ht (by rw [show tagOk [] = False from rfl]; simp)
  | cons th tt =>
    rw [tagOk] at ht
    obtain ⟨hletter, hlow, htt⟩ := ht
    have hrange := lower_letter_range hletter hlow
    simp only [tokGo]
    rw [if_true]
    rw [bang_prefix_false _ (by decide)]
    rw [if_neg (by simp)]
    rw [if_neg (by decide), if_true]
    rw [List.cons_append]
    dsimp only
    rw [if_neg (isAsciiLetter_ne_gt hletter), if_pos hletter]
    rw [takeWhile_app tt _ (fun d hd => (htt d hd).1) (by
      intro d hd
      simp only [List.head?_cons, Option.some.injEq] at hd
      rw [← hd]
      decide)]
    rw [List.drop_left tt]
    rw [upToGt, if_pos rfl]
    dsimp only
    rw [lowerList_fixed_of_tagOk (show tagOk (th :: tt) from ⟨hletter, hlow, htt⟩)]

theorem tokOpen (t : List Char) (ht : tagOk t)
    (hs1 : ¬t = "script".toList) (hs2 : ¬t = "style".toList)
    (a : List (List Char × Option (List Char))) (ha : ∀ x ∈ a, attrOk x)
    (hsorted : attrsSorted a) (sc : Bool) (fuel : ℕ) (r acc : List Char) :
    tokGo (fuel + 1) ('<' :: (t ++ serializeAttrs a ++
        (if sc then '/' :: '>' :: r else '>' :: r))) acc =
      (tokGo fuel r []).map (fun ts => flushText acc (Tok.open_ t a sc :: ts)) := by
  cases t with
  | nil => exact absurd ht (by rw [show tagOk [] = False from rfl]; simp)
  | cons th tt =>
    have ht2 := ht
    rw [tagOk] at ht
    obtain ⟨hletter, hlow, htt⟩ := ht
    have hrange := lower_letter_range hletter hlow
    rw [serializeAttrs_eq, sortAttrs_id hsorted]
    have hhead : ∀ d, (a.flatMap serAttr1 ++
        (if sc then '/' :: '>' :: r else '>' :: r)).head? = some d →
        isTagRest d = false := by
      intro d hd
      cases a with
      | nil =>
        rw [List.flatMap_nil, List.nil_append] at hd
        cases sc with
        | true =>
          rw [if_pos rfl] at hd
          simp only [List.head?_cons, Option.some.injEq] at hd
          rw [← hd]; decide
        | false =>
          rw [if_neg (by simp)] at hd
          simp only [List.head?_cons, Option.some.injEq] at hd
          rw [← hd]; decide
      | cons x l =>
        rw [List.flatMap_cons] at hd
        rw [show serAttr1 x = ' ' :: (x.1 ++ match x.2 with
          | none => []
          | some v => '=' :: quoteAttr v) from rfl] at hd
        simp only [List.cons_append, List.head?_cons, Option.some.injEq] at hd
        rw [← hd]; decide
    simp only [tokGo]
    rw [if_true]
    rw [List.cons_append, List.cons_append]
    rw [bang_prefix_false _ (letter_ne_of_toNat hrange.1 hrange.2 (by decide))]
    rw [if_neg (by simp)]
    dsimp only
    rw [if_neg (letter_ne_of_toNat hrange.1 hrange.2 (by decide))]
    rw [if_neg (letter_ne_of_toNat hrange.1 hrange.2 (by decide))]
    rw [if_neg (letter_ne_of_toNat hrange.1 hrange.2 (by decide))]
    rw [if_pos hletter]
    rw [List.append_assoc]
    rw [takeWhile_app tt _ (fun d hd => (htt d hd).1) hhead]
    rw [List.drop_left tt]
    rw [lowerList_fixed_of_tagOk ht2]
    rw [if_neg (by
      intro hor
      rcases hor with hor | hor
      · exact hs1 hor
      · exact hs2 hor)]
    have hbase : ∀ (acc2 : List (List Char × Option (List Char))) (fuel2 : ℕ),
        1 ≤ fuel2 → attrLoop fuel2 (if sc then '/' :: '>' :: r else '>' :: r) acc2 =
          some (acc2.reverse, sc, r) := by
      cases sc with
      | true =>
        intro acc2 fuel2 hf2
        rw [if_pos rfl]
        exact attrLoop_base_slash r acc2 fuel2 hf2
      | false =>
        intro acc2 fuel2 hf2
        rw [if_neg (by simp)]
        exact attrLoop_base_gt r acc2 fuel2 hf2
    rw [attrLoop_flat_gen sc r _ hbase a [] _ ha (by
      have := flatMap_serAttr1_length a
      simp only [List.length_append]
      omega)]
    simp

theorem flushText_nil (ts : List Tok) : flushText [] ts = ts := by
  rw [flushText, if_pos rfl]

theorem flushText_esc {s : List Char} (hne : s ≠ []) (ts : List Tok) :
    flushText (escText s).reverse ts = Tok.text s :: ts := by
  rw [flushText, if_neg (by
    intro hc
    have h2 := congrArg List.reverse hc
    rw [List.reverse_reverse] at h2
    exact escText_ne_nil hne (by simpa using h2))]
  rw [List.reverse_reverse, decode_escText]

theorem toksC_nil : toksC NodeL.nil = [] := rfl

theorem toksC_cons (n : HtmlNode) (rest : NodeL) :
    toksC (NodeL.cons n rest) = toksN n ++ toksC rest := rfl

theorem toksN_elem (t : List Char) (a : List (List Char × Option (List Char)))
    (cs : NodeL) : toksN (HtmlNode.elem t a cs) =
    (if voidTags.contains t && isNilNL cs then [Tok.open_ t a true]
     else Tok.open_ t a false :: (toksC cs ++ [Tok.close t])) := rfl

theorem toksN_text (s : List Char) : toksN (HtmlNode.text s) = [Tok.text s] := rfl

theorem script_mem_cleaned : "script".toList ∈ cleanedP.noTags := by decide

theorem style_mem_cleaned : "style".toList ∈ cleanedP.noTags := by decide

theorem tokSerC : ∀ (cs : NodeL), goodC cleanedP cs → sortedC cs → noAdjC cs →
    ∀ (r : List Char) (ts : List Tok) (fr : ℕ),
    (∀ (acc2 : List Char) (fuel2 : ℕ), fr ≤ fuel2 →
      tokGo fuel2 r acc2 = some (flushText acc2 ts)) →
    ∀ (acc : List Char) (fuel : ℕ), (serializeF cs).length + fr ≤ fuel →
    (headIsText cs = true → acc = []) →
    tokGo fuel (serializeF cs ++ r) acc = some (flushText acc (toksC cs ++ ts))
  | NodeL.nil, _, _, _, r, ts, fr, hr, acc, fuel, hfuel, _ => by
    rw [serializeF_nil, List.nil_append, toksC_nil, List.nil_append]
    exact hr acc fuel (by rw [serializeF_nil] at hfuel; simpa using hfuel)
  | NodeL.cons (HtmlNode.elem t a cs) rest, hg, hsort, hadj, r, ts, fr, hr, acc, fuel,
      hfuel, _ => by
    rw [goodC, goodN] at hg
    obtain ⟨⟨⟨e1, e2, e3, e4, e5⟩, hcs⟩, hrest⟩ := hg
    rw [sortedC, sortedN] at hsort
    rw [noAdjC] at hadj
    have hs1 : ¬t = "script".toList := fun hc => e4 (hc ▸ script_mem_cleaned)
    have hs2 : ¬t = "style".toList := fun hc => e4 (hc ▸ style_mem_cleaned)
    rw [serializeF_elem] at hfuel ⊢
    rw [toksC_cons, toksN_elem]
    by_cases hv : (voidTags.contains t && isNilNL cs) = true
    · rw [if_pos hv] at hfuel
      rw [if_pos hv, if_pos hv]
      rw [List.append_assoc]
      cases fuel with
      | zero =>
        simp only [List.length_append, List.length_cons] at hfuel
        omega
      | succ f =>
        have hshape : ('<' :: (t ++ serializeAttrs a ++ "/>".toList)) ++
            (serializeF rest ++ r) =
            '<' :: (t ++ serializeAttrs a ++ ('/' :: '>' :: (serializeF rest ++ r))) := by
          simp [List.append_assoc]
        rw [hshape]
        rw [show ('/' : Char) :: '>' :: (serializeF rest ++ r) =
          (if true then '/' :: '>' :: (serializeF rest ++ r)
           else '>' :: (serializeF rest ++ r)) from rfl]
        rw [tokOpen t e1 hs1 hs2 a e2.1 hsort.1.1 true f (serializeF rest ++ r) acc]
        rw [tokSerC rest hrest hsort.2 hadj.2.1 r ts fr hr [] f (by
          rw [show "/>".toList = ['/', '>'] from rfl] at hfuel
          simp only [List.length_append, List.length_cons] at hfuel
          omega) (fun _ => rfl)]
        rw [flushText_nil]
        rfl
    · rw [if_neg hv] at hfuel
      rw [if_neg hv, if_neg hv]
      rw [List.append_assoc]
      cases fuel with
      | zero =>
        simp only [List.length_append, List.length_cons] at hfuel
        omega
      | succ f =>
        have hshape : ('<' :: (t ++ serializeAttrs a ++ ">".toList ++ serializeF cs
            ++ "</".toList ++ t ++ ">".toList)) ++ (serializeF rest ++ r) =
            '<' :: (t ++ serializeAttrs a ++
              (if false then '/' :: '>' :: (serializeF cs ++
                ('<' :: '/' :: (t ++ '>' :: (serializeF rest ++ r))))
               else '>' :: (serializeF cs ++
                ('<' :: '/' :: (t ++ '>' :: (serializeF rest ++ r)))))) := by
          simp [List.append_assoc]
        rw [hshape]
        rw [tokOpen t e1 hs1 hs2 a e2.1 hsort.1.1 false f _ acc]
        have hcont : ∀ (acc2 : List Char) (fuel2 : ℕ),
            (serializeF rest).length + fr + 1 ≤ fuel2 →
            tokGo fuel2 ('<' :: '/' :: (t ++ '>' :: (serializeF rest ++ r))) acc2 =
              some (flushText acc2 (Tok.close t :: (toksC rest ++ ts))) := by
          intro acc2 fuel2 hf2
          cases fuel2 with
          | zero => omega
          | succ f2 =>
            rw [tokClose t e1 f2 (serializeF rest ++ r) acc2]
            rw [tokSerC rest hrest hsort.2 hadj.2.1 r ts fr hr [] f2
              (by omega) (fun _ => rfl)]
            rw [flushText_nil]
            rfl
        rw [tokSerC cs hcs hsort.1.2 (by
            have h2 := hadj.1
            rw [noAdjN] at h2
            exact h2) _ _ ((serializeF rest).length + fr + 1) hcont [] f (by
          rw [show ">".toList = ['>'] from rfl,
            show "</".toList = ['<', '/'] from rfl] at hfuel
          simp only [List.length_append, List.length_cons] at hfuel
          omega) (fun _ => rfl)]
        rw [flushText_nil]
        simp [List.append_assoc]
  | NodeL.cons (HtmlNode.text s) rest, hg, hsort, hadj, r, ts, fr, hr, acc, fuel,
      hfuel, hhead => by
    rw [goodC, goodN] at hg
    obtain ⟨hs, hrest⟩ := hg
    obtain ⟨hn, hne⟩ := hs rfl
    rw [sortedC] at hsort
    rw [noAdjC] at hadj
    have hacc : acc = [] := hhead rfl
    subst hacc
    have htr : headIsText rest = false := hadj.2.2 rfl
    rw [serializeF_text] at hfuel ⊢
    rw [List.append_assoc]
    rw [show fuel = (escText s).length + (fuel - (escText s).length) from by
      simp only [List.length_append] at hfuel
      omega]
    rw [tokRun (escText s) (fun c hc => (escText_no_ltgt hc).1) _ _ []]
    rw [List.append_nil]
    rw [tokSerC rest hrest hsort.2 hadj.2.1 r ts fr hr ((escText s).reverse)
      (fuel - (escText s).length)
      (by
        simp only [List.length_append] at hfuel
        omega)
      (fun hcontra => absurd hcontra (by rw [htr]; simp))]
    rw [flushText_esc hne, flushText_nil, toksC_cons, toksN_text]
    rfl
  | NodeL.cons (HtmlNode.comment s) rest, hg, _, _, r, ts, fr, hr, acc, fuel,
      hfuel, _ => by
    rw [goodC, goodN] at hg
    exact absurd hg.1 (by simp [cleanedP])
  | NodeL.cons (HtmlNode.decl s) rest, hg, _, _, r, ts, fr, hr, acc, fuel,
      hfuel, _ => by
    rw [goodC, goodN] at hg
    exact absurd hg.1 (by simp [cleanedP])

theorem tokenize_ser {cs : NodeL} (hg : goodC cleanedP cs) (hsort : sortedC cs)
    (hadj : noAdjC cs) : tokenize (serializeF cs) = some (toksC cs) := by
  rw [tokenize]
  rw [show serializeF cs = serializeF cs ++ [] from by simp]
  rw [tokSerC cs hg hsort hadj [] [] 1 (by
      intro acc2 fuel2 hf2
      cases fuel2 with
      | zero => omega
      | succ f2 => rfl)
    [] _ (by simp) (fun _ => rfl)]
  rw [flushText_nil]
  simp

-- ## Rebuilding the tree from its token list

theorem fixAttrVals_id {a : List (List Char × Option (List Char))}
    (h : ∀ x ∈ a, ∃ v, x.2 = some v) : fixAttrVals a = a := by
  unfold fixAttrVals
  rw [show a = a.map id from by simp]
  rw [List.map_map]
  apply List.map_congr_left
  intro x hx
  obtain ⟨v, hv⟩ := h x (by simpa using hx)
  simp only [Function.comp_apply, id_eq]
  rw [show ((x.1, some (x.2.getD [])) : List Char × Option (List Char)) =
    (x.1, x.2) from by rw [hv]; rfl]

theorem foldl_insertAttr_id : ∀ (l acc : List (List Char × Option (List Char))),
    ((acc ++ l).map Prod.fst).Nodup → l.foldl insertAttr acc = acc ++ l
  | [], acc, _ => by simp
  | x :: l, acc, h => by
    rw [List.foldl_cons]
    have hnx : acc.any (fun b => b.1 = x.1) = false := by
      cases hany : acc.any (fun b => b.1 = x.1)
      · rfl
      · obtain ⟨b, hb, hbx⟩ := List.any_eq_true.mp hany
        exfalso
        rw [List.map_append, List.nodup_append] at h
        exact h.2.2 (List.mem_map_of_mem Prod.fst hb) (by
          rw [show b.1 = x.1 from by simpa using hbx]
          exact List.mem_map_of_mem Prod.fst (by simp))
    rw [insertAttr, if_neg (by rw [hnx]; simp)]
    rw [foldl_insertAttr_id l (acc ++ [x]) (by
      rw [List.append_assoc]
      simpa using h)]
    simp

theorem dedup_fix_id {a : List (List Char × Option (List Char))} (h : attrsOk a) :
    dedupAttrs (fixAttrVals a) = a := by
  rw [fixAttrVals_id (fun x hx => (h.1 x hx).2)]
  rw [dedupAttrs]
  rw [foldl_insertAttr_id a [] (by simpa using h.2)]
  simp

theorem isNilNL_eq_nil {cs : NodeL} (h : isNilNL cs = true) : cs = NodeL.nil := by
  cases cs with
  | nil => rfl
  | cons n rest => exact absurd h (by rw [isNilNL]; simp)

theorem ofList_toList : ∀ cs : NodeL, ofList (toListNL cs) = cs
  | NodeL.nil => rfl
  | NodeL.cons n rest => by
    rw [toListNL, ofList, ofList_toList rest]

theorem addAll_frame : ∀ (cs : NodeL) (t : List Char)
    (a : List (List Char × Option (List Char))) (ch : List HtmlNode)
    (stack : List Frame) (top : List HtmlNode),
    addAll cs ((t, a, ch) :: stack) top =
      ((t, a, (toListNL cs).reverse ++ ch) :: stack, top)
  | NodeL.nil, t, a, ch, stack, top => by
    rw [addAll, toListNL]
    simp
  | NodeL.cons n rest, t, a, ch, stack, top => by
    rw [addAll]
    rw [show attach n ((t, a, ch) :: stack) top = ((t, a, n :: ch) :: stack, top) from rfl]
    dsimp only
    rw [addAll_frame rest t a (n :: ch) stack top]
    rw [toListNL]
    simp

theorem addAll_nilstack : ∀ (cs : NodeL) (top : List HtmlNode),
    addAll cs [] top = ([], (toListNL cs).reverse ++ top)
  | NodeL.nil, top => by
    rw [addAll, toListNL]
    simp
  | NodeL.cons n rest, top => by
    rw [addAll]
    rw [show attach n [] top = ([], n :: top) from rfl]
    dsimp only
    rw [addAll_nilstack rest (n :: top)]
    rw [toListNL]
    simp

mutual
theorem buildN : ∀ (n : HtmlNode), goodN cleanedP n →
    ∀ (toks : List Tok) (stack : List Frame) (top : List HtmlNode),
    buildGo (toksN n ++ toks) stack top =
      buildGo toks (attach n stack top).1 (attach n stack top).2
  | HtmlNode.elem t a cs, hg, toks, stack, top => by
    rw [goodN] at hg
    obtain ⟨⟨e1, e2, e3, e4, e5⟩, hcs⟩ := hg
    rw [toksN_elem]
    by_cases hv : (voidTags.contains t && isNilNL cs) = true
    · rw [if_pos hv]
      have hnil : cs = NodeL.nil := isNilNL_eq_nil ((Bool.and_eq_true _ _).mp hv).2
      subst hnil
      rw [List.singleton_append, buildGo]
      rw [if_pos (by
        rw [((Bool.and_eq_true _ _).mp hv).1]
        simp)]
      rw [dedup_fix_id e2]
    · rw [if_neg hv]
      have hcont : voidTags.contains t = false := by
        cases hc : voidTags.contains t
        · rfl
        · rw [e5 hc] at hv
          rw [hc] at hv
          exact absurd (by rfl : (true && isNilNL NodeL.nil) = true) hv
      rw [List.cons_append, buildGo]
      rw [if_neg (by rw [hcont]; simp)]
      rw [dedup_fix_id e2]
      rw [List.append_assoc]
      rw [buildC cs hcs ([Tok.close t] ++ toks) ((t, a, []) :: stack) top]
      rw [addAll_frame]
      rw [List.singleton_append, buildGo]
      rw [if_pos (by simp)]
      rw [popToTag]
      dsimp only
      rw [if_pos rfl]
      rw [List.append_nil, List.reverse_reverse, ofList_toList]
  | HtmlNode.text s, _, toks, stack, top => by
    rw [toksN_text, List.singleton_append, buildGo]
  | HtmlNode.comment s, _, toks, stack, top => by
    rw [show toksN (HtmlNode.comment s) = [Tok.comment s] from rfl,
      List.singleton_append, buildGo]
  | HtmlNode.decl s, _, toks, stack, top => by
    rw [show toksN (HtmlNode.decl s) = [Tok.decl s] from rfl,
      List.singleton_append, buildGo]

theorem buildC : ∀ (cs : NodeL), goodC cleanedP cs →
    ∀ (toks : List Tok) (stack : List Frame) (top : List HtmlNode),
    buildGo (toksC cs ++ toks) stack top =
      buildGo toks (addAll cs stack top).1 (addAll cs stack top).2
  | NodeL.nil, _, toks, stack, top => by
    rw [toksC_nil, List.nil_append, addAll]
  | NodeL.cons n rest, hg, toks, stack, top => by
    rw [goodC] at hg
    rw [toksC_cons, List.append_assoc]
    rw [buildN n hg.1 (toksC rest ++ toks) stack top]
    rw [buildC rest hg.2 toks _ _]
    rw [addAll]
end

theorem parse_ser {cs : NodeL} (hg : goodC cleanedP cs) (hsort : sortedC cs)
    (hadj : noAdjC cs) : parseHtml (serializeF cs) = some (toListNL cs) := by
  rw [parseHtml, tokenize_ser hg hsort hadj]
  rw [Option.map_some']
  congr 1
  rw [show toksC cs = toksC cs ++ [] from by simp]
  rw [buildC cs hg [] [] []]
  rw [addAll_nilstack]
  rw [buildGo, closeAll]
  simp

-- ## Assembling extract_clean_table

theorem ser_table_last (t : List Char) (a : List (List Char × Option (List Char)))
    (cs : NodeL) :
    (serializeF (NodeL.cons (HtmlNode.elem t a cs) NodeL.nil)).getLast? = some '>' := by
  rw [serializeF_elem, serializeF_nil, List.append_nil]
  by_cases hv : (voidTags.contains t && isNilNL cs) = true
  · rw [if_pos hv]
    rw [show '<' :: (t ++ serializeAttrs a ++ "/>".toList) =
      ('<' :: (t ++ serializeAttrs a ++ ['/'])) ++ ['>'] from by simp [List.append_assoc]]
    rw [getLast_append_ne (by simp)]
    rfl
  · rw [if_neg hv]
    rw [show '<' :: (t ++ serializeAttrs a ++ ">".toList ++ serializeF cs
        ++ "</".toList ++ t ++ ">".toList) =
      ('<' :: (t ++ serializeAttrs a ++ ">".toList ++ serializeF cs
        ++ "</".toList ++ t)) ++ ['>'] from by simp [List.append_assoc]]
    rw [getLast_append_ne (by simp)]
    rfl

theorem remove_ws_ser {t : List Char} {a : List (List Char × Option (List Char))}
    {cs : NodeL} (hg : goodC cleanedP (NodeL.cons (HtmlNode.elem t a cs) NodeL.nil)) :
    remove_whitespace (serializeF (NodeL.cons (HtmlNode.elem t a cs) NodeL.nil)) =
      serializeF (NodeL.cons (HtmlNode.elem t a cs) NodeL.nil) := by
  obtain ⟨hchain, hhead⟩ := serChainC rfl rfl rfl _ hg
  rw [remove_whitespace]
  rw [rmWsF_id _ _ hchain]
  apply pyStrip_id hhead
  intro c hc
  rw [ser_table_last] at hc
  injection hc with hc
  rw [← hc]
  decide

theorem cleanChildren_good {cs : NodeL} (h : goodC parsedP cs) :
    goodC cleanedP (cleanChildren cs) := by
  have h1 := removeAttrsF_good cs h
  have h2 := dropTagF_good "style".toList _ h1
  have h3 := dropTagF_good "br".toList _ h2
  have h4 := unwrapF_good ["thead".toList, "tbody".toList, "tfoot".toList] _ h3
  have h5 := dropTagF_good "caption".toList _ h4
  have h6 := unwrapF_good styleTags _ h5
  have h7 := dropCommentsF_good _ h6
  have h8 := cleanTextsF_good _ h7
  rw [cleanChildren]
  exact goodC_mono (by intro _; rfl) (by decide) (by intro _; rfl)
    (by intro _; rfl) (by intro _; rfl) _ h8

theorem cleanTable_good {a : List (List Char × Option (List Char))} {cs : NodeL}
    (hg : goodN parsedP (HtmlNode.elem "table".toList a cs)) :
    goodC cleanedP
      (NodeL.cons (cleanTable (HtmlNode.elem "table".toList a cs)) NodeL.nil) := by
  rw [goodN] at hg
  obtain ⟨⟨e1, e2, _, _, _⟩, hcs⟩ := hg
  rw [cleanTable, goodC, goodN]
  refine ⟨⟨⟨e1, filterAttrs_attrsOk e2, ?_, ?_, ?_⟩, cleanChildren_good hcs⟩, trivial⟩
  · intro _ x hx
    exact filterAttrs_clean x hx
  · decide
  · intro hv
    exact absurd hv (by decide)

theorem cleanChildren_id {cs : NodeL} (h : goodC cleanedP cs) :
    cleanChildren cs = cs := by
  rw [cleanChildren]
  rw [removeAttrsF_id rfl cs h]
  rw [dropTagF_id (by decide) cs h]
  rw [dropTagF_id (by decide) cs h]
  rw [unwrapF_id (by decide) cs h]
  rw [dropTagF_id (by decide) cs h]
  rw [unwrapF_id (by decide) cs h]
  rw [dropCommentsF_id rfl cs h]
  rw [cleanTextsF_id rfl rfl cs h]

theorem cleanTable_id {a : List (List Char × Option (List Char))} {cs : NodeL}
    (hg : goodN cleanedP (HtmlNode.elem "table".toList a cs)) :
    cleanTable (HtmlNode.elem "table".toList a cs) =
      HtmlNode.elem "table".toList a cs := by
  rw [goodN] at hg
  obtain ⟨⟨_, _, e3, _, _⟩, hcs⟩ := hg
  rw [cleanTable]
  rw [filterAttrs_id (e3 rfl)]
  rw [cleanChildren_id hcs]

theorem findTableL_single {a : List (List Char × Option (List Char))} {cs : NodeL} :
    findTableL [HtmlNode.elem "table".toList a cs] =
      some (HtmlNode.elem "table".toList a cs) := by
  rw [findTableL, findTableN, if_pos rfl]
  rfl

theorem toListNL_single (n : HtmlNode) : toListNL (NodeL.cons n NodeL.nil) = [n] := rfl

/-- C6: the label normalizer is idempotent: whenever `extract_clean_table`
succeeds on an input (in particular, the input contains a `<table>`),
running it again on its own output returns that output unchanged. -/
theorem claim_C6_normalizer_idempotent (h s : List Char)
    (hcl : extract_clean_table h = some s) : extract_clean_table s = some s := by
  rw [extract_clean_table] at hcl
  cases hp : parseHtml h with
  | none => rw [hp] at hcl; exact absurd hcl (by simp)
  | some F =>
    rw [hp] at hcl
    dsimp only at hcl
    cases hf : findTableL F with
    | none => rw [hf] at hcl; exact absurd hcl (by simp)
    | some tbl =>
      rw [hf] at hcl
      dsimp only at hcl
      injection hcl with hcl
      obtain ⟨htblg, a, cs, htbl⟩ := findTableL_good F tbl hf (parseHtml_good hp)
      subst htbl
      have hctg : goodC cleanedP
          (NodeL.cons (cleanTable (HtmlNode.elem "table".toList a cs)) NodeL.nil) :=
        cleanTable_good htblg
      rw [show cleanTable (HtmlNode.elem "table".toList a cs) =
        HtmlNode.elem "table".toList (filterAttrs a) (cleanChildren cs) from rfl]
        at hcl hctg
      rw [goodC] at hctg
      have hctmg : goodN cleanedP
          (canonN (HtmlNode.elem "table".toList (filterAttrs a) (cleanChildren cs))) :=
        canonN_good rfl _ hctg.1
      rw [canonN_elem] at hctmg
      have hctms : sortedN
          (canonN (HtmlNode.elem "table".toList (filterAttrs a) (cleanChildren cs))) :=
        canonN_sorted _
      rw [canonN_elem] at hctms
      have hctma : noAdjN
          (canonN (HtmlNode.elem "table".toList (filterAttrs a) (cleanChildren cs))) :=
        canonN_noAdj _
      rw [canonN_elem] at hctma
      have hser : serializeF (NodeL.cons (HtmlNode.elem "table".toList
            (sortAttrs (filterAttrs a)) (canonC (cleanChildren cs))) NodeL.nil) =
          serializeF (NodeL.cons (HtmlNode.elem "table".toList
            (filterAttrs a) (cleanChildren cs)) NodeL.nil) := by
        have h2 := serCanonN (HtmlNode.elem "table".toList (filterAttrs a)
          (cleanChildren cs))
        rw [canonN_elem] at h2
        exact h2
      rw [show serializeNode (HtmlNode.elem "table".toList (filterAttrs a)
          (cleanChildren cs)) = serializeF (NodeL.cons (HtmlNode.elem "table".toList
            (filterAttrs a) (cleanChildren cs)) NodeL.nil) from rfl] at hcl
      rw [← hser] at hcl
      have hgood1 : goodC cleanedP (NodeL.cons (HtmlNode.elem "table".toList
          (sortAttrs (filterAttrs a)) (canonC (cleanChildren cs))) NodeL.nil) := by
        rw [goodC]
        exact ⟨hctmg, trivial⟩
      rw [remove_ws_ser hgood1] at hcl
      subst hcl
      rw [extract_clean_table]
      rw [parse_ser hgood1 (by
          rw [sortedC]
          exact ⟨hctms, trivial⟩) (by
          rw [noAdjC]
          exact ⟨hctma, trivial, fun hx => rfl⟩)]
      rw [toListNL_single]
      dsimp only
      rw [findTableL_single]
      dsimp only
      rw [cleanTable_id hctmg]
      rw [show serializeNode (HtmlNode.elem "table".toList (sortAttrs (filterAttrs a))
          (canonC (cleanChildren cs))) = serializeF (NodeL.cons (HtmlNode.elem
            "table".toList (sortAttrs (filterAttrs a)) (canonC (cleanChildren cs)))
            NodeL.nil) from rfl]
      rw [remove_ws_ser hgood1]

set_option maxRecDepth 4000 in
theorem claim_C6_witness :
    extract_clean_table "<table><tr><td> x </td></tr></table>".toList =
      some "<table><tr><td>x</td></tr></table>".toList ∧
    extract_clean_table "<table><tr><td>x</td></tr></table>".toList =
      some "<table><tr><td>x</td></tr></table>".toList :=
  ⟨by decide, claim_C6_normalizer_idempotent
    "<table><tr><td> x </td></tr></table>".toList
    "<table><tr><td>x</td></tr></table>".toList (by decide)⟩

end TableGen
